import Mathlib

namespace Cascade

/-! Cascade scheduling engine: verification of the specification against the code.

This file gives a shallow embedding, in Lean 4, of the core of the Cascade
DAG-based task-scheduling engine (`backend/app/services/recalc.py`,
`critical_path.py`, `simulation.py`, `graph.py` and
`backend/app/routes/dependencies.py`) and proves or refutes the frozen
claims about it.

Modelling conventions:
* Calendar dates are modelled as integers (day numbers).  The Python code
  manipulates `datetime.date` values only through `+ timedelta(days = k)`
  and comparisons, so the order-isomorphic embedding into `Int` is faithful.
* UUIDs (task ids, project ids, version tokens, owner ids) are modelled as
  naturals; the code only ever compares them for equality.
* Python `dict`-backed graph node state is modelled as an association list
  from task id to a node-data structure; a `KeyError` (reading a key that
  was never written) is modelled by `Option`: a computation that would
  raise returns `none`.
* Database rows are modelled as lists of records; a SQLAlchemy
  `session.get(Task, id)` is `List.find?` on the id.
-/

abbrev TaskId := Nat

abbrev Edge := TaskId × TaskId

/-- Direct predecessors of `n` in an edge list (edges run predecessor →
successor), mirroring `graph.predecessors(task_id)`. -/
def predsOf (edges : List Edge) (n : TaskId) : List TaskId :=
  (edges.filter (fun e => e.2 == n)).map (·.1)

/-- Direct successors of `n`, mirroring `graph.successors(node_id)`. -/
def succsOf (edges : List Edge) (n : TaskId) : List TaskId :=
  (edges.filter (fun e => e.1 == n)).map (·.2)

/-- `end_date` from a start date and a duration:
`start` when `duration = 0`, else `start + duration - 1`
(recalc.py lines 242-245, 268-271; same helper in critical_path.py and
simulation.py). -/
def calcEnd (start : Int) (duration : Nat) : Int :=
  if duration = 0 then start else start + (duration - 1 : Nat)

/-- A task row as read from the `tasks` table
(`app/models/task.py`; the columns fetched by `fetch_subgraph`). -/
structure TaskRow where
  id : TaskId
  title : String
  duration_days : Nat
  start_date : Int
  calc_version_id : Nat
  project_id : Nat
  updated_at : Int
deriving Repr, DecidableEq

/-- Node data kept on a graph node by `build_graph` (recalc.py lines
190-197): duration, mutable `start_date`, the frozen
`original_start_date`, and the `end_date` entry which exists only after
the node has been processed. -/
structure CalcNode where
  duration_days : Nat
  start_date : Int
  original_start_date : Int
  end_date : Option Int
deriving Repr, DecidableEq

abbrev CalcState := List (TaskId × CalcNode)

/-- Update one entry of an association-list state in place (Python mutates
the node's attribute dict inside the graph). -/
def setEntry {ν : Type} : List (TaskId × ν) → TaskId → ν → List (TaskId × ν)
  | [], _, _ => []
  | p :: rest, tid, v =>
    (if p.1 = tid then (tid, v) else p) :: setEntry rest tid v

/-- Update an entry of the node-data map in place. -/
def setNode (st : CalcState) (tid : TaskId) (nd : CalcNode) : CalcState :=
  setEntry st tid nd

/-- `build_graph` (recalc.py lines 178-203), node part: each task's data
with `original_start_date` frozen to the stored start date and no
`end_date` yet. -/
def build_graph (tasks : List TaskRow) : CalcState :=
  tasks.map (fun t =>
    (t.id, { duration_days := t.duration_days
             start_date := t.start_date
             original_start_date := t.start_date
             end_date := none }))

/-- One iteration of the `calculate_dates` loop (recalc.py lines
233-282) on task `tid`: anchors keep their date and get an `end_date`;
a task with predecessors is pushed to `max(pred.end_date) + 1` exactly
when its current start violates that bound, and is recorded in the
update list iff its start changed from `original_start_date`.
Returns `none` where Python would raise `KeyError` (a node without data
or a predecessor processed out of order). -/
def calcStep (edges : List Edge) (acc : CalcState × List (TaskId × Int))
    (tid : TaskId) : Option (CalcState × List (TaskId × Int)) := do
  let (st, ups) := acc
  let nd ← (st.lookup tid)
  let preds := predsOf edges tid
  if preds.isEmpty then
    let e := calcEnd nd.start_date nd.duration_days
    return (setNode st tid { nd with end_date := some e }, ups)
  else
    let predEnds ← preds.mapM (fun p => do
      let pn ← st.lookup p
      pn.end_date)
    let maxPredEnd ← predEnds.max?
    let earliest := maxPredEnd + 1
    let newStart := if nd.start_date < earliest then earliest else nd.start_date
    let newEnd := calcEnd newStart nd.duration_days
    let st' := setNode st tid
      { nd with start_date := newStart, end_date := some newEnd }
    let ups' := if newStart ≠ nd.original_start_date
      then ups ++ [(tid, newStart)] else ups
    return (st', ups')

/-- `calculate_dates` (recalc.py lines 206-284): fold the step over the
topological calculation order, returning the final node state and the
list of `(id, start_date)` updates. -/
def calculate_dates (edges : List Edge) (st : CalcState)
    (order : List TaskId) : Option (CalcState × List (TaskId × Int)) :=
  order.foldlM (calcStep edges) (st, [])

/-- `order` is a topological order of `edges`: no repeats, and every
edge runs from an earlier to a later position.  `nx.topological_sort`
produces exactly such an order on a DAG. -/
def IsTopoOrder (edges : List Edge) (order : List TaskId) : Prop :=
  order.Nodup ∧
  ∀ e ∈ edges, e.1 ∈ order ∧ e.2 ∈ order ∧
    order.indexOf e.1 < order.indexOf e.2

instance (edges : List Edge) (order : List TaskId) :
    Decidable (IsTopoOrder edges order) := by
  unfold IsTopoOrder; infer_instance

/-- The predecessor `end_date`s of `n` read from node state `st`, exactly
as the `calculate_dates` loop reads them. -/
def predEndsIn (edges : List Edge) (st : CalcState) (n : TaskId) :
    Option (List Int) :=
  (predsOf edges n).mapM (fun p => (List.lookup p st).bind (fun pn => pn.end_date))

/-- A node the forward pass has processed: duration and
`original_start_date` are the initial ones, `end_date` is derived from the
final start, an anchor keeps its start, and a node with predecessors is
pushed to `max(pred.end_date) + 1` exactly when its stored start violated
that bound. -/
def ProcessedNode (edges : List Edge) (st₀ st : CalcState) (m : TaskId) : Prop :=
  ∃ nd₀ nd, List.lookup m st₀ = some nd₀ ∧ List.lookup m st = some nd ∧
    nd.duration_days = nd₀.duration_days ∧
    nd.original_start_date = nd₀.original_start_date ∧
    nd.end_date = some (calcEnd nd.start_date nd.duration_days) ∧
    (if (predsOf edges m).isEmpty then nd.start_date = nd₀.start_date
     else ∃ pe mx, predEndsIn edges st m = some pe ∧ pe.max? = some mx ∧
       nd.start_date =
         if nd₀.start_date < mx + 1 then mx + 1 else nd₀.start_date)

/-- Invariant of the `calculate_dates` fold after the tasks in `done`
have been processed. -/
structure RunInv (edges : List Edge) (st₀ : CalcState) (done : List TaskId)
    (st : CalcState) (ups : List (TaskId × Int)) : Prop where
  frame : ∀ m, m ∉ done → List.lookup m st = List.lookup m st₀
  keys : ∀ m, (List.lookup m st).isSome = (List.lookup m st₀).isSome
  processed : ∀ m ∈ done, ProcessedNode edges st₀ st m
  ups_spec : ∀ m d, (m, d) ∈ ups ↔
    m ∈ done ∧ ¬(predsOf edges m).isEmpty = true ∧
    ∃ nd₀ nd, List.lookup m st₀ = some nd₀ ∧ List.lookup m st = some nd ∧
      nd.start_date = d ∧ d ≠ nd₀.original_start_date

/-- The pushed start chosen by the loop for a node with predecessors whose
maximal predecessor end is `mx`. -/
def pushStart (nd : CalcNode) (mx : Int) : Int :=
  if nd.start_date < mx + 1 then mx + 1 else nd.start_date

/-- The update list after processing a node with predecessors. -/
def pushUps (ups : List (TaskId × Int)) (tid : TaskId) (nd : CalcNode)
    (mx : Int) : List (TaskId × Int) :=
  if pushStart nd mx ≠ nd.original_start_date
    then ups ++ [(tid, pushStart nd mx)] else ups

/-- Concrete tasks of spec scenario S6 (dates are day numbers within
January 2026: day `d` stands for 2026-01-`d`). -/
def taskA_S6 : TaskRow :=
  { id := 1, title := "A", duration_days := 5, start_date := 21,
    calc_version_id := 0, project_id := 0, updated_at := 0 }

def taskB_S6 : TaskRow :=
  { id := 2, title := "B", duration_days := 3, start_date := 10,
    calc_version_id := 0, project_id := 0, updated_at := 0 }

/-- The end date a stored node will get once processed. -/
def staticEnd (nd : CalcNode) : Int := calcEnd nd.start_date nd.duration_days

/-- Predecessor end dates computed directly from stored starts. -/
def staticPredEnds (edges : List Edge) (st : CalcState) (n : TaskId) :
    Option (List Int) :=
  (predsOf edges n).mapM (fun p => (List.lookup p st).map staticEnd)

/-- Invariant of a run from a stable state: processed nodes have only
gained their `end_date`; nothing else moved and no update was recorded. -/
def StableInv (st₀ : CalcState) (done : List TaskId) (st : CalcState) : Prop :=
  (∀ m, m ∉ done → List.lookup m st = List.lookup m st₀) ∧
  (∀ m ∈ done, ∃ nd₀, List.lookup m st₀ = some nd₀ ∧
    List.lookup m st = some { nd₀ with end_date := some (staticEnd nd₀) })

/-- One ORM-style row update of `bulk_update_dates` (recalc.py lines
300-305): the task with the update's id gets the new `start_date` and a
fresh `updated_at`; other rows are untouched. -/
def applyTaskUpdate (now : Int) (tasks : List TaskRow) (u : TaskId × Int) :
    List TaskRow :=
  tasks.map (fun t =>
    if t.id = u.1 then { t with start_date := u.2, updated_at := now } else t)

/-- `bulk_update_dates` (recalc.py lines 287-306). -/
def bulk_update_dates (now : Int) (tasks : List TaskRow)
    (ups : List (TaskId × Int)) : List TaskRow :=
  ups.foldl (applyTaskUpdate now) tasks

/-! ## Graph reachability (BFS closure, as nx/the recursive CTE compute it) -/
/-- One expansion step: add the direct successors not yet present. -/
def expandOnce (edges : List Edge) (s : List TaskId) : List TaskId :=
  s ++ ((s.flatMap (succsOf edges)).filter (fun x => !(s.contains x))).dedup

/-- Iterated expansion. -/
def closure (edges : List Edge) : Nat → List TaskId → List TaskId
  | 0, s => s
  | n + 1, s => closure edges n (expandOnce edges s)

/-- All nodes reachable from `s` (including `s` itself): enough fuel to
reach the fixed point. -/
def reachSet (edges : List Edge) (s : List TaskId) : List TaskId :=
  closure edges (edges.length + 1) s.dedup

/-! ## The database model -/
/-- The relational store: the `tasks` and `dependencies` tables. -/
structure Store where
  tasks : List TaskRow
  deps : List Edge
deriving Repr, DecidableEq

/-- `session.get(Task, id)`: fetch a row by primary key. -/
def getTask (st : Store) (tid : TaskId) : Option TaskRow :=
  st.tasks.find? (fun t => t.id == tid)

/-- `fetch_subgraph` (recalc.py lines 95-175): the recursive CTE collects
the root and all transitive successors (`downstream`), adds the direct
predecessors of that set (`all_relevant`), fetches those task rows
restricted to the project, and the dependencies with both endpoints
among the fetched tasks. -/
def fetch_subgraph (st : Store) (root : TaskId) (pid : Nat) :
    List TaskRow × List Edge :=
  let ds := reachSet st.deps [root]
  let rel := (ds ++ (st.deps.filter (fun e => ds.contains e.2)).map (·.1)).dedup
  let tasks := st.tasks.filter
    (fun t => rel.contains t.id && t.project_id == pid)
  let tids := tasks.map (·.id)
  let deps := st.deps.filter
    (fun e => tids.contains e.1 && tids.contains e.2)
  (tasks, deps)

/-- Kahn's algorithm worker: repeatedly emit a remaining node all of
whose predecessors are no longer remaining. -/
def kahnGo (edges : List Edge) :
    Nat → List TaskId → List TaskId → Option (List TaskId)
  | 0, remaining, acc => if remaining.isEmpty then some acc else none
  | fuel + 1, remaining, acc =>
    if remaining.isEmpty then some acc
    else
      match remaining.find?
          (fun n => (predsOf edges n).all (fun p => !(remaining.contains p))) with
      | none => none
      | some n => kahnGo edges fuel (remaining.erase n) (acc ++ [n])

/-- `nx.topological_sort` model: a deterministic topological order of the
graph, `none` exactly when the graph has no such order (a cycle). -/
def topological_sort (nodes : List TaskId) (edges : List Edge) :
    Option (List TaskId) :=
  kahnGo edges nodes.length nodes []

/-- `recalc_subtree` (recalc.py lines 25-92): the ARQ cascade worker.
Checks the stale-token guard, fetches the subgraph, topologically sorts,
runs the forward pass and bulk-writes the changed start dates.  Any
failure (missing root, stale token, empty subgraph, cycle, internal
error) ends the job with no writes. -/
def recalc_subtree (st : Store) (rootId : TaskId) (version : Nat)
    (now : Int) : Store :=
  match getTask st rootId with
  | none => st
  | some root =>
    if root.calc_version_id ≠ version then st
    else
      match fetch_subgraph st rootId root.project_id with
      | (tasks2, deps2) =>
        if tasks2.isEmpty then st
        else
          match topological_sort (tasks2.map (·.id)) deps2 with
          | none => st
          | some order =>
            match calculate_dates deps2 (build_graph tasks2) order with
            | none => st
            | some r =>
              { st with tasks := bulk_update_dates now st.tasks r.2 }

/-- A task row used in the stale-job witness. -/
def taskT_stale : TaskRow :=
  { id := 1, title := "T", duration_days := 2, start_date := 5,
    calc_version_id := 3, project_id := 0, updated_at := 0 }

/-- Witness store for C5. -/
def storeT_stale : Store := ⟨[taskT_stale], []⟩

/-- B as stored right after the edge A→B was deleted: still at the date
the old constraint pushed it to. -/
def taskB_pushed : TaskRow :=
  { id := 2, title := "B", duration_days := 3, start_date := 26,
    calc_version_id := 7, project_id := 0, updated_at := 0 }

/-- The store after deleting the edge A→B. -/
def storeAB_deleted : Store := ⟨[taskA_S6, taskB_pushed], []⟩

/-- The S6 store with its edge, used as the witness scenario. -/
def storeS6 : Store := ⟨[taskA_S6, taskB_S6], [(1, 2)]⟩

/-- Reachability along the edge list (reflexive-transitive). -/
def Reaches (E : List Edge) : TaskId → TaskId → Prop :=
  Relation.ReflTransGen (fun u v => (u, v) ∈ E)

/-- Reachability through at least one edge. -/
def StrictReach (E : List Edge) (a b : TaskId) : Prop :=
  Relation.TransGen (fun u v => (u, v) ∈ E) a b

/-- `build_project_graph` (graph.py lines 17-52): nodes are the
project's task ids; the edges are the stored dependencies whose
predecessor is one of those tasks. -/
def build_project_graph (st : Store) (pid : Nat) :
    List TaskId × List Edge :=
  let tids := (st.tasks.filter (fun t => t.project_id == pid)).map (·.id)
  (tids, st.deps.filter (fun e => tids.contains e.1))

/-- The node set of the NetworkX digraph: the added task nodes plus
every endpoint of an added edge. -/
def graphNodes (nodes : List TaskId) (edges : List Edge) : List TaskId :=
  (nodes ++ edges.flatMap (fun e => [e.1, e.2])).dedup

/-- `nx.find_cycle` existence test: some node lies on a directed cycle. -/
def hasCycle (nodes : List TaskId) (edges : List Edge) : Bool :=
  (graphNodes nodes edges).any
    (fun n => (reachSet edges (succsOf edges n)).contains n)

/-- `detect_cycle` (graph.py lines 55-82): build the project graph, add
the proposed edge, and report whether any cycle now exists. -/
def detect_cycle (st : Store) (pid : Nat) (p s : TaskId) : Bool :=
  hasCycle (build_project_graph st pid).1
    ((build_project_graph st pid).2 ++ [(p, s)])

/-- `get_descendants` (graph.py lines 85-104): all nodes reachable from
the root, excluding the root itself; empty when the root is not in the
graph. -/
def get_descendants (st : Store) (root : TaskId) (pid : Nat) :
    List TaskId :=
  if (graphNodes (build_project_graph st pid).1
      (build_project_graph st pid).2).contains root then
    (reachSet (build_project_graph st pid).2 [root]).filter
      (fun x => !(x == root))
  else []

/-- A project row (`app/models/project.py`; the fields admission uses). -/
structure ProjectRow where
  id : Nat
  owner_id : Nat
deriving Repr, DecidableEq

/-- The API-visible store: projects, tasks and dependencies. -/
structure ApiStore where
  projects : List ProjectRow
  tasks : List TaskRow
  deps : List Edge
deriving Repr, DecidableEq

/-- `session.get(Task, id)` against a task table. -/
def findTask (tasks : List TaskRow) (tid : TaskId) : Option TaskRow :=
  tasks.find? (fun t => t.id == tid)

/-- `session.get(Project, id)`. -/
def getProject (st : ApiStore) (pid : Nat) : Option ProjectRow :=
  st.projects.find? (fun pr => pr.id == pid)

/-- The error taxonomy of dependency admission
(`app/exceptions.py` / HTTP 403). -/
inductive DepError where
  | notFound
  | forbidden
  | crossProject
  | duplicate
  | selfDependency
  | cycleDetected
deriving Repr, DecidableEq

/-- `create_dependency` (routes/dependencies.py lines 49-148), checks in
source order: predecessor exists, successor exists, project
exists/owned, same project, not a duplicate, no self-loop, no cycle;
then the edge is written and the successor's version token is set to
the freshly generated one.  A raised error aborts the transaction, so a
failure returns no store at all (nothing is written). -/
def create_dependency (st : ApiStore) (uid : Nat) (p s : TaskId)
    (freshTok : Nat) : Except DepError ApiStore :=
  match findTask st.tasks p with
  | none => .error .notFound
  | some predecessor =>
    match findTask st.tasks s with
    | none => .error .notFound
    | some successor =>
      match getProject st predecessor.project_id with
      | none => .error .forbidden
      | some project =>
        if project.owner_id ≠ uid then .error .forbidden
        else if predecessor.project_id ≠ successor.project_id then
          .error .crossProject
        else if (p, s) ∈ st.deps then .error .duplicate
        else if p = s then .error .selfDependency
        else if detect_cycle ⟨st.tasks, st.deps⟩ predecessor.project_id p s
          then .error .cycleDetected
        else .ok
          { st with
            deps := st.deps ++ [(p, s)],
            tasks := st.tasks.map (fun t =>
              if t.id = s then { t with calc_version_id := freshTok }
              else t) }

/-- Witness store for edge admission: one project (id 0, owner 9) with
the S6 tasks and the edge 1→2. -/
def apiStoreW : ApiStore := ⟨[⟨0, 9⟩], [taskA_S6, taskB_S6], [(1, 2)]⟩

/-- A third task in the witness project, downstream-free, so that the
edge 2 → 3 is admissible. -/
def taskC_W7 : TaskRow := ⟨3, "C", 2, 30, 0, 0, 0⟩

/-- Witness store for a succeeding admission: one project (id 0,
owner 9), tasks 1, 2, 3 and the single edge 1 → 2. -/
def apiStoreW7 : ApiStore :=
  ⟨[⟨0, 9⟩], [taskA_S6, taskB_S6, taskC_W7], [(1, 2)]⟩

/-- Node data of the CPM analysis graph (critical_path.py lines 80-91
plus the es/ef/ls/lf entries written by the passes). -/
structure CpmNode where
  title : String
  duration_days : Nat
  start_date : Int
  es : Option Int
  ef : Option Int
  ls : Option Int
  lf : Option Int
deriving Repr, DecidableEq

abbrev CpmState := List (TaskId × CpmNode)

/-- The CPM graph as built from the task rows: no pass has run yet. -/
def cpmInit (tasks : List TaskRow) : CpmState :=
  tasks.map (fun t =>
    (t.id, { title := t.title, duration_days := t.duration_days,
             start_date := t.start_date, es := none, ef := none,
             ls := none, lf := none }))

/-- One iteration of the CPM forward pass (critical_path.py lines
114-134): `ES` is the stored start for a node without predecessors and
`max(pred.EF) + 1` otherwise; `EF` is `ES` for a milestone and
`ES + duration - 1` otherwise. -/
def cpmForwardStep (edges : List Edge) (st : CpmState) (tid : TaskId) :
    Option CpmState := do
  let nd ← List.lookup tid st
  let preds := predsOf edges tid
  let es ←
    if preds.isEmpty then
      some nd.start_date
    else do
      let pefs ← preds.mapM (fun p => do
        let pn ← List.lookup p st
        pn.ef)
      let mx ← pefs.max?
      some (mx + 1)
  let ef := calcEnd es nd.duration_days
  some (setEntry st tid { nd with es := some es, ef := some ef })

/-- One iteration of the CPM backward pass (critical_path.py lines
142-162): `LF` is the project end for a node without successors and
`min(succ.LS) - 1` otherwise; `LS` is `LF` for a milestone and
`LF - duration + 1` otherwise. -/
def cpmBackwardStep (edges : List Edge) (projectEnd : Int) (st : CpmState)
    (tid : TaskId) : Option CpmState := do
  let nd ← List.lookup tid st
  let succs := succsOf edges tid
  let lf ←
    if succs.isEmpty then
      some projectEnd
    else do
      let slss ← succs.mapM (fun q => do
        let qn ← List.lookup q st
        qn.ls)
      let mn ← slss.min?
      some (mn - 1)
  let ls := if nd.duration_days = 0 then lf
    else lf - ((nd.duration_days - 1 : Nat) : Int)
  some (setEntry st tid { nd with lf := some lf, ls := some ls })

/-- `_calculate_cpm` (critical_path.py lines 97-197): forward pass in
topological order, project end = max `EF`, backward pass in reverse
order, slack = `LS - ES` per node in order, and the critical path ids
are the nodes of zero slack.  Returns the project end date, the
critical-path id list and the final node state. -/
def calculate_cpm (edges : List Edge) (tasks : List TaskRow)
    (order : List TaskId) : Option (Int × List TaskId × CpmState) := do
  let st1 ← order.foldlM (cpmForwardStep edges) (cpmInit tasks)
  let efs ← st1.mapM (fun q => q.2.ef)
  let projectEnd ← efs.max?
  let st2 ← order.reverse.foldlM (cpmBackwardStep edges projectEnd) st1
  let slacks ← order.mapM (fun n => do
    let nd ← List.lookup n st2
    let ls ← nd.ls
    let es ← nd.es
    some (n, ls - es))
  some (projectEnd, (slacks.filter (fun q => q.2 == 0)).map (·.1), st2)

/-- The predecessor `EF`s of `n` as the forward pass reads them. -/
def predEfsIn (edges : List Edge) (st : CpmState) (n : TaskId) :
    Option (List Int) :=
  (predsOf edges n).mapM (fun p => (List.lookup p st).bind (fun pn => pn.ef))

/-- Invariant of the CPM forward pass after processing `done`. -/
structure CpmFwdInv (edges : List Edge) (st₀ : CpmState)
    (done : List TaskId) (st : CpmState) : Prop where
  frame : ∀ m, m ∉ done → List.lookup m st = List.lookup m st₀
  keys : st.map (·.1) = st₀.map (·.1)
  processed : ∀ m ∈ done, ∃ nd₀ nd,
    List.lookup m st₀ = some nd₀ ∧ List.lookup m st = some nd ∧
    nd.title = nd₀.title ∧ nd.duration_days = nd₀.duration_days ∧
    nd.start_date = nd₀.start_date ∧ nd.ls = nd₀.ls ∧ nd.lf = nd₀.lf ∧
    ∃ es, nd.es = some es ∧ nd.ef = some (calcEnd es nd.duration_days) ∧
      (if (predsOf edges m).isEmpty then es = nd₀.start_date
       else ∃ pe mx, predEfsIn edges st m = some pe ∧ pe.max? = some mx ∧
         es = mx + 1)

/-- The successor `LS`s of `n` as the backward pass reads them. -/
def succLsIn (edges : List Edge) (st : CpmState) (n : TaskId) :
    Option (List Int) :=
  (succsOf edges n).mapM (fun q => (List.lookup q st).bind (fun qn => qn.ls))

/-- Invariant of the CPM backward pass after processing `done` (a prefix
of the reversed topological order). -/
structure CpmBwdInv (edges : List Edge) (projectEnd : Int) (st₁ : CpmState)
    (done : List TaskId) (st : CpmState) : Prop where
  frame : ∀ m, m ∉ done → List.lookup m st = List.lookup m st₁
  keys : st.map (·.1) = st₁.map (·.1)
  processed : ∀ m ∈ done, ∃ nd₁ nd,
    List.lookup m st₁ = some nd₁ ∧ List.lookup m st = some nd ∧
    nd.title = nd₁.title ∧ nd.duration_days = nd₁.duration_days ∧
    nd.start_date = nd₁.start_date ∧ nd.es = nd₁.es ∧ nd.ef = nd₁.ef ∧
    ∃ lf, nd.lf = some lf ∧
      nd.ls = some (if nd.duration_days = 0 then lf
        else lf - ((nd.duration_days - 1 : Nat) : Int)) ∧
      (if (succsOf edges m).isEmpty then lf = projectEnd
       else ∃ sl mn, succLsIn edges st m = some sl ∧ sl.min? = some mn ∧
         lf = mn - 1)

/-- One slack entry as `_calculate_cpm` computes it (critical_path.py
lines 166-171): the pair of the task id and `LS - ES`. -/
def slackEntry (st : CpmState) (n : TaskId) : Option (TaskId × Int) := do
  let nd ← List.lookup n st
  let ls ← nd.ls
  let es ← nd.es
  some (n, ls - es)

def cpmTaskA : TaskRow := ⟨1, "A", 5, 21, 0, 0, 0⟩

def cpmTaskB : TaskRow := ⟨2, "B", 3, 26, 0, 0, 0⟩

/-- A hypothetical change to a task (simulation.py lines 22-27):
optional new start date and optional new duration. -/
structure TaskChange where
  task_id : TaskId
  start_date : Option Int
  duration_days : Option Nat
deriving Repr, DecidableEq

/-- Node data of the simulation graph (simulation.py lines 96-105 plus
the `end_date` entry written by the walk). -/
structure SimNode where
  title : String
  duration_days : Nat
  start_date : Int
  original_start : Int
  original_end : Int
  end_date : Option Int
deriving Repr, DecidableEq

abbrev SimState := List (TaskId × SimNode)

/-- The simulation graph as built from the task rows (simulation.py
lines 95-105): original dates frozen, `end_date` not yet present. -/
def sim_build_graph (tasks : List TaskRow) : SimState :=
  tasks.map (fun t =>
    (t.id, { title := t.title, duration_days := t.duration_days,
             start_date := t.start_date, original_start := t.start_date,
             original_end := calcEnd t.start_date t.duration_days,
             end_date := none }))

/-- `changes_map[tid]` (simulation.py line 109): a dict comprehension
keeps the LAST change listed for each task id. -/
def lastChange (changes : List TaskChange) (tid : TaskId) :
    Option TaskChange :=
  (changes.filter (fun c => c.task_id == tid)).getLast?

/-- Application of one (optional) change to a node (simulation.py lines
110-120): each field is overwritten only when the change specifies it. -/
def applyChange : Option TaskChange → SimNode → SimNode
  | none, nd => nd
  | some c, nd =>
    { nd with start_date := c.start_date.getD nd.start_date,
              duration_days := c.duration_days.getD nd.duration_days }

/-- The change-application loop (simulation.py lines 109-120): every
graph node receives its own last change, ids absent from the graph are
skipped. -/
def applyChanges (changes : List TaskChange) (st : SimState) : SimState :=
  st.map (fun q => (q.1, applyChange (lastChange changes q.1) q.2))

/-- One iteration of the simulation walk (simulation.py lines 130-163):
anchors keep their (possibly changed) start; non-anchors take the
requested date clamped to `earliest = max(pred.endDate) + 1` when the
change set names them with a start date, and `max(current, earliest)`
otherwise; the end date follows from the duration. -/
def simStep (edges : List Edge) (changes : List TaskChange)
    (st : SimState) (tid : TaskId) : Option SimState := do
  let nd ← List.lookup tid st
  let preds := predsOf edges tid
  let start ←
    if preds.isEmpty then
      some nd.start_date
    else do
      let pends ← preds.mapM (fun p => do
        let pn ← List.lookup p st
        pn.end_date)
      let mx ← pends.max?
      match (lastChange changes tid).bind (fun c => c.start_date) with
      | some req => some (if mx + 1 ≤ req then req else mx + 1)
      | none => some (max nd.start_date (mx + 1))
  some (setEntry st tid
    { nd with start_date := start,
              end_date := some (calcEnd start nd.duration_days) })

/-- The predecessor end dates of `n` as the walk reads them. -/
def simPredEndsIn (edges : List Edge) (st : SimState) (n : TaskId) :
    Option (List Int) :=
  (predsOf edges n).mapM
    (fun p => (List.lookup p st).bind (fun pn => pn.end_date))

/-- Invariant of the simulation walk after processing `done`: each
processed node keeps its static fields, carries the end date derived
from its start, and its start obeys the anchor / requested / pushed
three-way rule of the walk. -/
structure SimFwdInv (edges : List Edge) (changes : List TaskChange)
    (st₀ : SimState) (done : List TaskId) (st : SimState) : Prop where
  frame : ∀ m, m ∉ done → List.lookup m st = List.lookup m st₀
  keys : st.map (·.1) = st₀.map (·.1)
  processed : ∀ m ∈ done, ∃ nd₀ nd,
    List.lookup m st₀ = some nd₀ ∧ List.lookup m st = some nd ∧
    nd.title = nd₀.title ∧ nd.duration_days = nd₀.duration_days ∧
    nd.original_start = nd₀.original_start ∧
    nd.original_end = nd₀.original_end ∧
    nd.end_date = some (calcEnd nd.start_date nd.duration_days) ∧
    (if (predsOf edges m).isEmpty then nd.start_date = nd₀.start_date
     else ∃ pends mx, simPredEndsIn edges st m = some pends ∧
       pends.max? = some mx ∧
       (match (lastChange changes m).bind (fun c => c.start_date) with
        | some req => nd.start_date = max req (mx + 1)
        | none => nd.start_date = max nd₀.start_date (mx + 1)))

def simTaskA : TaskRow := ⟨1, "A", 5, 21, 0, 0, 0⟩

def simTaskB : TaskRow := ⟨2, "B", 3, 10, 0, 0, 0⟩

def simChangeB : TaskChange := ⟨2, some 40, none⟩

/-- The impact of the simulation on one task (simulation.py lines 30-38). -/
structure TaskImpact where
  task_id : TaskId
  title : String
  original_start : Int
  original_end : Int
  simulated_start : Int
  simulated_end : Int
  delta_days : Int
deriving Repr, DecidableEq

/-- The complete what-if result (simulation.py lines 41-49). -/
structure SimulationResult where
  project_id : Nat
  original_end_date : Int
  simulated_end_date : Int
  impact_days : Int
  affected_tasks : List TaskImpact
  total_tasks : Nat
deriving Repr, DecidableEq

/-- The tail of `simulate_changes` after the walk (simulation.py lines
165-211): project end dates, per-task impacts in topological order
keeping only non-zero deltas, and the assembled result. -/
def simFinish (pid : Nat) (tasks : List TaskRow) (order : List TaskId)
    (stF : SimState) : Option SimulationResult := do
  let origEnd ← (stF.map (fun q => q.2.original_end)).max?
  let simEnds ← stF.mapM (fun q => q.2.end_date)
  let simEnd ← simEnds.max?
  let impacts ← order.mapM (fun n => do
    let nd ← List.lookup n stF
    let e ← nd.end_date
    some (TaskImpact.mk n nd.title nd.original_start nd.original_end
      nd.start_date e (e - nd.original_end)))
  some ⟨pid, origEnd, simEnd, simEnd - origEnd,
    impacts.filter (fun i => i.delta_days != 0), tasks.length⟩

/-- `simulate_changes` (simulation.py lines 53-211): fetch the project's
tasks (error when there are none) and their internal dependencies,
build the graph, apply the hypothetical changes, topologically sort
(error on a cycle), run the walk and assemble the result.  Every error
path yields `none`. -/
def simulate_changes (store : Store) (pid : Nat)
    (changes : List TaskChange) : Option SimulationResult :=
  let tasks := store.tasks.filter (fun t => t.project_id == pid)
  let ids := tasks.map (·.id)
  let deps := store.deps.filter
    (fun e => ids.contains e.1 && ids.contains e.2)
  if tasks.isEmpty then none
  else
    (topological_sort ids deps).bind (fun order =>
      (List.foldlM (simStep deps changes)
        (applyChanges changes (sim_build_graph tasks)) order).bind
        (simFinish pid tasks order))


/-! ## Association-list and fold helper lemmas -/
theorem lookup_cons_ne {ν : Type} (k a : TaskId) (b : ν) (es : List (TaskId × ν))
    (h : a ≠ k) : List.lookup a ((k, b) :: es) = List.lookup a es := by
  have hb : (a == k) = false := by simp [h]
  simp [List.lookup, hb]

theorem lookup_setEntry_ne {ν : Type} (st : List (TaskId × ν)) (tid m : TaskId)
    (v : ν) (h : m ≠ tid) : (setEntry st tid v).lookup m = st.lookup m := by
  induction st with
  | nil => rfl
  | cons p rest ih =>
    rw [setEntry]
    by_cases hp : p.1 = tid
    · rw [if_pos hp]
      rw [lookup_cons_ne tid m v _ h]
      rw [show p = (p.1, p.2) from rfl, lookup_cons_ne p.1 m p.2 rest (hp ▸ h)]
      exact ih
    · rw [if_neg hp]
      by_cases hm : m = p.1
      · rw [show p = (p.1, p.2) from rfl, hm]
        simp [List.lookup]
      · rw [show p = (p.1, p.2) from rfl, lookup_cons_ne p.1 m p.2 _ hm,
          lookup_cons_ne p.1 m p.2 _ hm]
        exact ih

theorem lookup_setEntry_self {ν : Type} (st : List (TaskId × ν)) (tid : TaskId)
    (v : ν) (h : (List.lookup tid st).isSome) :
    (setEntry st tid v).lookup tid = some v := by
  induction st with
  | nil => simp [List.lookup] at h
  | cons p rest ih =>
    rw [setEntry]
    by_cases hp : p.1 = tid
    · rw [if_pos hp]
      exact List.lookup_cons_self
    · rw [if_neg hp]
      have hne : tid ≠ p.1 := fun he => hp he.symm
      rw [show p = (p.1, p.2) from rfl, lookup_cons_ne p.1 tid p.2 _ hne]
      apply ih
      rw [show p = (p.1, p.2) from rfl, lookup_cons_ne p.1 tid p.2 _ hne] at h
      exact h

theorem lookup_setEntry_isSome {ν : Type} (st : List (TaskId × ν))
    (tid m : TaskId) (v : ν) :
    ((setEntry st tid v).lookup m).isSome = (List.lookup m st).isSome := by
  by_cases h : m = tid
  · subst h
    induction st with
    | nil => rfl
    | cons p rest ih =>
      rw [setEntry]
      by_cases hp : p.1 = m
      · rw [if_pos hp, ← hp]
        simp [List.lookup]
      · have hne : m ≠ p.1 := fun he => hp he.symm
        rw [if_neg hp, show p = (p.1, p.2) from rfl,
          lookup_cons_ne p.1 m p.2 _ hne, lookup_cons_ne p.1 m p.2 _ hne]
        exact ih
  · rw [lookup_setEntry_ne st tid m v h]

/-- `foldlM` over `Option` splits at an append. -/
theorem foldlM_option_append {σ α : Type} (f : σ → α → Option σ)
    (l₁ l₂ : List α) (b : σ) :
    List.foldlM f b (l₁ ++ l₂) =
      (List.foldlM f b l₁).bind (fun c => List.foldlM f c l₂) := by
  induction l₁ generalizing b with
  | nil => simp [List.foldlM]
  | cons a t ih =>
    simp only [List.cons_append, List.foldlM_cons]
    cases f b a with
    | none => rfl
    | some c => exact ih c

/-- `mapM` over `Option` succeeds exactly on pointwise success. -/
theorem mapM_option_iff {α β : Type} (f : α → Option β) :
    ∀ (l : List α) (ys : List β),
      l.mapM f = some ys ↔ List.Forall₂ (fun a b => f a = some b) l ys := by
  intro l
  induction l with
  | nil =>
    intro ys
    constructor
    · intro h
      simp only [List.mapM_nil, pure, Option.some_inj] at h
      subst h; exact List.Forall₂.nil
    · intro h; cases h; rfl
  | cons a t ih =>
    intro ys
    constructor
    · intro h
      rw [List.mapM_cons] at h
      cases hfa : f a with
      | none => rw [hfa] at h; simp [Bind.bind] at h
      | some b =>
        rw [hfa] at h
        cases hmt : t.mapM f with
        | none => rw [hmt] at h; simp [Bind.bind] at h
        | some bs =>
          rw [hmt] at h
          simp only [Option.bind_eq_bind, Option.some_bind, pure,
            Option.some_inj] at h
          subst h
          exact List.Forall₂.cons hfa ((ih bs).1 hmt)
    · intro h
      cases h with
      | cons hfa htail =>
        rename_i b bs
        rw [List.mapM_cons, hfa, (ih bs).2 htail]
        rfl

theorem mapM_option_some_of_forall {α β : Type} (f : α → Option β) (l : List α)
    (h : ∀ a ∈ l, (f a).isSome) : ∃ ys, l.mapM f = some ys := by
  induction l with
  | nil => exact ⟨[], rfl⟩
  | cons a t ih =>
    obtain ⟨b, hb⟩ := Option.isSome_iff_exists.1 (h a (List.mem_cons_self a t))
    obtain ⟨ys, hys⟩ := ih (fun x hx => h x (List.mem_cons_of_mem a hx))
    exact ⟨b :: ys, by rw [List.mapM_cons, hb, hys]; rfl⟩

/-! ## indexOf helpers for topological orders -/
theorem indexOf_append_cons_self (l₁ l₂ : List TaskId) (tid : TaskId)
    (h : tid ∉ l₁) : (l₁ ++ tid :: l₂).indexOf tid = l₁.length := by
  induction l₁ with
  | nil => simp [List.indexOf_cons_self]
  | cons a t ih =>
    have hne : (a == tid) = false := by
      simp only [beq_eq_false_iff_ne, ne_eq]
      intro he; exact h (he ▸ List.mem_cons_self a t)
    simp only [List.cons_append, List.indexOf_cons, hne, cond_false, List.length_cons]
    rw [ih (fun hm => h (List.mem_cons_of_mem a hm))]

theorem length_le_indexOf_append (l₁ r : List TaskId) (a : TaskId)
    (h : a ∉ l₁) : l₁.length ≤ (l₁ ++ r).indexOf a := by
  induction l₁ with
  | nil => exact Nat.zero_le _
  | cons b t ih =>
    have hne : (b == a) = false := by
      simp only [beq_eq_false_iff_ne, ne_eq]
      intro he; exact h (he ▸ List.mem_cons_self b t)
    simp only [List.cons_append, List.indexOf_cons, hne, cond_false, List.length_cons]
    exact Nat.succ_le_succ (ih (fun hm => h (List.mem_cons_of_mem b hm)))

theorem indexOf_append_lt_length (l₁ r : List TaskId) (m : TaskId)
    (h : m ∈ l₁) : (l₁ ++ r).indexOf m < l₁.length := by
  induction l₁ with
  | nil => cases h
  | cons a t ih =>
    by_cases ha : a = m
    -- head hit or recurse into the tail
    · subst ha
      simp [List.indexOf_cons, List.length_cons]
    · have hne : (a == m) = false := by simp [ha]
      have hm : m ∈ t := by
        rcases List.mem_cons.1 h with h' | h'
        · exact absurd h'.symm ha
        · exact h'
      simp only [List.cons_append, List.indexOf_cons, hne, cond_false, List.length_cons]
      exact Nat.succ_lt_succ (ih hm)

theorem mem_left_of_indexOf_lt {l₁ l₂ : List TaskId} {tid a : TaskId}
    (htid : tid ∉ l₁) (ha : a ∈ l₁ ++ tid :: l₂)
    (hlt : (l₁ ++ tid :: l₂).indexOf a < (l₁ ++ tid :: l₂).indexOf tid) :
    a ∈ l₁ := by
  by_contra hnot
  have h2 : (l₁ ++ tid :: l₂).indexOf tid = l₁.length :=
    indexOf_append_cons_self l₁ l₂ tid htid
  have h3 : l₁.length ≤ (l₁ ++ tid :: l₂).indexOf a :=
    length_le_indexOf_append l₁ (tid :: l₂) a hnot
  omega

theorem indexOf_lt_of_mem_left {l₁ l₂ : List TaskId} {tid m : TaskId}
    (htid : tid ∉ l₁) (hm : m ∈ l₁) :
    (l₁ ++ tid :: l₂).indexOf m < (l₁ ++ tid :: l₂).indexOf tid := by
  rw [indexOf_append_cons_self l₁ l₂ tid htid]
  exact indexOf_append_lt_length l₁ (tid :: l₂) m hm

/-! ## Small lemmas about the recalc graph embedding -/
theorem mem_predsOf (edges : List Edge) (p n : TaskId) :
    p ∈ predsOf edges n ↔ (p, n) ∈ edges := by
  constructor
  · intro h
    obtain ⟨e, he, hp⟩ := List.mem_map.1 h
    obtain ⟨hee, h2⟩ := List.mem_filter.1 he
    have h2' : e.2 = n := by simpa using h2
    have : e = (p, n) := by
      cases e; simp_all
    exact this ▸ hee
  · intro h
    exact List.mem_map.2 ⟨(p, n), List.mem_filter.2 ⟨h, by simp⟩, rfl⟩

theorem mem_succsOf (edges : List Edge) (n s : TaskId) :
    s ∈ succsOf edges n ↔ (n, s) ∈ edges := by
  constructor
  · intro h
    obtain ⟨e, he, hp⟩ := List.mem_map.1 h
    obtain ⟨hee, h2⟩ := List.mem_filter.1 he
    have h2' : e.1 = n := by simpa using h2
    have : e = (n, s) := by
      cases e; simp_all
    exact this ▸ hee
  · intro h
    exact List.mem_map.2 ⟨(n, s), List.mem_filter.2 ⟨h, by simp⟩, rfl⟩

theorem mapM_congr {α β : Type} {f g : α → Option β} :
    ∀ {l : List α}, (∀ a ∈ l, f a = g a) → l.mapM f = l.mapM g := by
  intro l
  induction l with
  | nil => intro _; rfl
  | cons a t ih =>
    intro h
    rw [List.mapM_cons, List.mapM_cons, h a (List.mem_cons_self a t),
      ih (fun x hx => h x (List.mem_cons_of_mem a hx))]

theorem build_graph_cons (t : TaskRow) (rest : List TaskRow) :
    build_graph (t :: rest) =
      (t.id, { duration_days := t.duration_days
               start_date := t.start_date
               original_start_date := t.start_date
               end_date := none }) :: build_graph rest := rfl

theorem lookup_build_graph (tasks : List TaskRow) (n : TaskId) :
    (List.lookup n (build_graph tasks)).isSome = true ↔ n ∈ tasks.map (·.id) := by
  induction tasks with
  | nil => simp [build_graph, List.lookup]
  | cons t rest ih =>
    by_cases h : n = t.id
    · subst h
      simp [build_graph_cons, List.lookup_cons_self]
    · rw [build_graph_cons, lookup_cons_ne _ _ _ _ h, ih]
      simp [h]

theorem lookup_build_graph_eq (tasks : List TaskRow) (t : TaskRow)
    (hnd : (tasks.map (·.id)).Nodup) (ht : t ∈ tasks) :
    List.lookup t.id (build_graph tasks) =
      some { duration_days := t.duration_days
             start_date := t.start_date
             original_start_date := t.start_date
             end_date := none } := by
  induction tasks with
  | nil => cases ht
  | cons u rest ih =>
    rcases List.mem_cons.1 ht with h | h
    · subst h
      simp [build_graph_cons, List.lookup_cons_self]
    · have hne : t.id ≠ u.id := by
        intro he
        have : u.id ∈ rest.map (·.id) := he ▸ List.mem_map.2 ⟨t, h, rfl⟩
        exact (List.nodup_cons.1 (by simpa using hnd)).1 this
      rw [build_graph_cons, lookup_cons_ne _ _ _ _ hne]
      exact ih (List.nodup_cons.1 (by simpa using hnd)).2 h

theorem predEndsIn_congr (edges : List Edge) (st st' : CalcState) (n : TaskId)
    (h : ∀ p ∈ predsOf edges n, List.lookup p st' = List.lookup p st) :
    predEndsIn edges st' n = predEndsIn edges st n :=
  mapM_congr (fun p hp => by rw [h p hp])

theorem calcStep_anchor (edges : List Edge) (st : CalcState)
    (ups : List (TaskId × Int)) (tid : TaskId) (nd : CalcNode)
    (hnd : List.lookup tid st = some nd)
    (hp : (predsOf edges tid).isEmpty = true) :
    calcStep edges (st, ups) tid =
      some (setNode st tid
        { nd with end_date := some (calcEnd nd.start_date nd.duration_days) },
        ups) := by
  simp [calcStep, hnd, hp]

theorem calcStep_push (edges : List Edge) (st : CalcState)
    (ups : List (TaskId × Int)) (tid : TaskId) (nd : CalcNode)
    (pe : List Int) (mx : Int)
    (hnd : List.lookup tid st = some nd)
    (hp : (predsOf edges tid).isEmpty = false)
    (hpe : predEndsIn edges st tid = some pe)
    (hmx : pe.max? = some mx) :
    calcStep edges (st, ups) tid =
      some (setNode st tid
        { nd with start_date := pushStart nd mx,
                  end_date := some (calcEnd (pushStart nd mx) nd.duration_days) },
        pushUps ups tid nd mx) := by
  unfold predEndsIn at hpe
  have hpe2 : List.mapM.loop
      (fun p => (List.lookup p st).bind fun pn => pn.end_date)
      (predsOf edges tid) [] = some pe := hpe
  simp [calcStep, hnd, hp, hpe2, hmx, pushStart, pushUps]

theorem processedNode_mono (edges : List Edge) (st₀ st st' : CalcState)
    (m : TaskId) (hm : ProcessedNode edges st₀ st m)
    (hst : List.lookup m st' = List.lookup m st)
    (hpe : ∀ p ∈ predsOf edges m, List.lookup p st' = List.lookup p st) :
    ProcessedNode edges st₀ st' m := by
  obtain ⟨nd₀, nd, h0, h1, h2, h3, h4, h5⟩ := hm
  refine ⟨nd₀, nd, h0, by rw [hst]; exact h1, h2, h3, h4, ?_⟩
  rw [predEndsIn_congr edges st st' m hpe]
  exact h5

/-- Master invariant lemma for the `calculate_dates` fold: from a state
satisfying the invariant for the processed portion of a topological
order, the remaining fold succeeds and the invariant holds for the whole
order. -/
theorem calc_run_master (edges : List Edge) (st₀ : CalcState)
    (order : List TaskId) (htopo : IsTopoOrder edges order)
    (hkeys : ∀ n ∈ order, (List.lookup n st₀).isSome = true) :
    ∀ (l₂ l₁ : List TaskId) (st : CalcState) (ups : List (TaskId × Int)),
      order = l₁ ++ l₂ → RunInv edges st₀ l₁ st ups →
      ∃ stF upsF,
        List.foldlM (calcStep edges) (st, ups) l₂ = some (stF, upsF) ∧
        RunInv edges st₀ order stF upsF := by
  intro l₂
  induction l₂ with
  | nil =>
    intro l₁ st ups horder hinv
    refine ⟨st, ups, rfl, ?_⟩
    rw [horder, List.append_nil]
    exact hinv
  | cons tid l₂ ih =>
    intro l₁ st ups horder hinv
    have hnodup : (l₁ ++ tid :: l₂).Nodup := horder ▸ htopo.1
    have htid_l₁ : tid ∉ l₁ := by
      intro hc
      rw [List.nodup_append] at hnodup
      exact hnodup.2.2 hc (List.mem_cons_self tid l₂)
    have htid_mem : tid ∈ order := by
      rw [horder]
      exact List.mem_append.2 (Or.inr (List.mem_cons_self tid l₂))
    have hndS : (List.lookup tid st).isSome = true := by
      rw [hinv.keys tid]; exact hkeys tid htid_mem
    obtain ⟨nd, hnd⟩ := Option.isSome_iff_exists.1 hndS
    have hnd₀ : List.lookup tid st₀ = some nd := by
      rw [← hinv.frame tid htid_l₁]; exact hnd
    -- every predecessor of tid was already processed
    have hpreds_l₁ : ∀ p ∈ predsOf edges tid, p ∈ l₁ := by
      intro p hp
      have hedge : (p, tid) ∈ edges := (mem_predsOf edges p tid).1 hp
      obtain ⟨hp1, _hp2, hlt⟩ := htopo.2 (p, tid) hedge
      rw [horder] at hp1 hlt
      exact mem_left_of_indexOf_lt htid_l₁ hp1 hlt
    -- a node already processed has no `tid` among its predecessors
    have hnot_pred : ∀ m ∈ l₁, tid ∉ predsOf edges m := by
      intro m hm hc
      have hedge : (tid, m) ∈ edges := (mem_predsOf edges tid m).1 hc
      obtain ⟨_hq1, _hq2, hlt⟩ := htopo.2 (tid, m) hedge
      rw [horder] at hlt
      have hlt' : (l₁ ++ tid :: l₂).indexOf tid < (l₁ ++ tid :: l₂).indexOf m :=
        hlt
      have hlt2 : (l₁ ++ tid :: l₂).indexOf m <
          (l₁ ++ tid :: l₂).indexOf tid := indexOf_lt_of_mem_left htid_l₁ hm
      omega
    cases hempty : (predsOf edges tid).isEmpty with
    | true =>
      -- anchor node
      set nd' : CalcNode :=
        { nd with end_date := some (calcEnd nd.start_date nd.duration_days) }
        with hnd'
      have hstep := calcStep_anchor edges st ups tid nd hnd hempty
      have hset_self : List.lookup tid (setNode st tid nd') = some nd' :=
        lookup_setEntry_self st tid nd' hndS
      have hset_ne : ∀ m, m ≠ tid →
          List.lookup m (setNode st tid nd') = List.lookup m st :=
        fun m hm => lookup_setEntry_ne st tid m nd' hm
      have hinv' : RunInv edges st₀ (l₁ ++ [tid]) (setNode st tid nd') ups := by
        refine ⟨?_, ?_, ?_, ?_⟩
        · intro m hm
          have hm1 : m ∉ l₁ := fun hc => hm (List.mem_append.2 (Or.inl hc))
          have hm2 : m ≠ tid := fun hc =>
            hm (List.mem_append.2 (Or.inr (hc ▸ List.mem_cons_self tid [])))
          rw [hset_ne m hm2]
          exact hinv.frame m hm1
        · intro m
          exact (lookup_setEntry_isSome st tid m nd').trans (hinv.keys m)
        · intro m hm
          rcases List.mem_append.1 hm with hm | hm
          · refine processedNode_mono edges st₀ st _ m (hinv.processed m hm)
              (hset_ne m (fun hc => htid_l₁ (hc ▸ hm))) ?_
            intro p hp
            refine hset_ne p (fun hc => ?_)
            exact hnot_pred m hm (hc ▸ hp)
          · have hm' : m = tid := by simpa using hm
            subst hm'
            refine ⟨nd, nd', hnd₀, hset_self, rfl, rfl, rfl, ?_⟩
            rw [if_pos hempty]
        · intro m d
          rw [hinv.ups_spec m d]
          constructor
          · rintro ⟨hm, hpne, nd₀, ndm, h0, h1, h2, h3⟩
            have hmtid : m ≠ tid := fun hc => htid_l₁ (hc ▸ hm)
            exact ⟨List.mem_append.2 (Or.inl hm), hpne, nd₀, ndm, h0,
              by rw [hset_ne m hmtid]; exact h1, h2, h3⟩
          · rintro ⟨hm, hpne, nd₀, ndm, h0, h1, h2, h3⟩
            rcases List.mem_append.1 hm with hm | hm
            · have hmtid : m ≠ tid := fun hc => htid_l₁ (hc ▸ hm)
              rw [hset_ne m hmtid] at h1
              exact ⟨hm, hpne, nd₀, ndm, h0, h1, h2, h3⟩
            · have hm' : m = tid := by simpa using hm
              subst hm'
              exact absurd hempty (by simpa using hpne)
      obtain ⟨stF, upsF, hrun, hfin⟩ :=
        ih (l₁ ++ [tid]) (setNode st tid nd') ups (by rw [horder]; simp) hinv'
      refine ⟨stF, upsF, ?_, hfin⟩
      rw [List.foldlM_cons, hstep]
      exact hrun
    | false =>
      -- node with predecessors: they are processed, so their end dates exist
      have hpe_some : ∀ p ∈ predsOf edges tid,
          ((List.lookup p st).bind (fun pn => pn.end_date)).isSome = true := by
        intro p hp
        obtain ⟨nd₀p, ndp, _, h1, _, _, h4, _⟩ :=
          hinv.processed p (hpreds_l₁ p hp)
        rw [h1, Option.some_bind, h4]
        rfl
      obtain ⟨pe, hpe⟩ := mapM_option_some_of_forall _ _ hpe_some
      have hpe' : predEndsIn edges st tid = some pe := hpe
      have hpreds_ne : predsOf edges tid ≠ [] := by
        intro hc
        rw [hc] at hempty
        simp at hempty
      have hpe_ne : pe ≠ [] := by
        intro hc
        subst hc
        have hlen := List.Forall₂.length_eq ((mapM_option_iff _ _ _).1 hpe)
        rw [List.length_nil] at hlen
        exact hpreds_ne (List.length_eq_zero.1 hlen)
      obtain ⟨mx, hmx⟩ : ∃ mx, pe.max? = some mx := by
        cases hm : pe.max? with
        | none => exact absurd (List.max?_eq_none_iff.1 hm) hpe_ne
        | some mx => exact ⟨mx, rfl⟩
      set nd' : CalcNode :=
        { nd with start_date := pushStart nd mx,
                  end_date := some (calcEnd (pushStart nd mx) nd.duration_days) }
        with hnd'
      have hstep := calcStep_push edges st ups tid nd pe mx hnd hempty hpe' hmx
      have hset_self : List.lookup tid (setNode st tid nd') = some nd' :=
        lookup_setEntry_self st tid nd' hndS
      have hset_ne : ∀ m, m ≠ tid →
          List.lookup m (setNode st tid nd') = List.lookup m st :=
        fun m hm => lookup_setEntry_ne st tid m nd' hm
      have hpe_stable : predEndsIn edges (setNode st tid nd') tid = some pe := by
        rw [predEndsIn_congr edges st _ tid
          (fun p hp => hset_ne p (fun hc => htid_l₁ (hc ▸ hpreds_l₁ p hp)))]
        exact hpe'
      have hinv' : RunInv edges st₀ (l₁ ++ [tid]) (setNode st tid nd')
          (pushUps ups tid nd mx) := by
        refine ⟨?_, ?_, ?_, ?_⟩
        · intro m hm
          have hm1 : m ∉ l₁ := fun hc => hm (List.mem_append.2 (Or.inl hc))
          have hm2 : m ≠ tid := fun hc =>
            hm (List.mem_append.2 (Or.inr (hc ▸ List.mem_cons_self tid [])))
          rw [hset_ne m hm2]
          exact hinv.frame m hm1
        · intro m
          exact (lookup_setEntry_isSome st tid m nd').trans (hinv.keys m)
        · intro m hm
          rcases List.mem_append.1 hm with hm | hm
          · refine processedNode_mono edges st₀ st _ m (hinv.processed m hm)
              (hset_ne m (fun hc => htid_l₁ (hc ▸ hm))) ?_
            intro p hp
            refine hset_ne p (fun hc => ?_)
            exact hnot_pred m hm (hc ▸ hp)
          · have hm' : m = tid := by simpa using hm
            subst hm'
            refine ⟨nd, nd', hnd₀, hset_self, rfl, rfl, rfl, ?_⟩
            rw [if_neg (fun hc => Bool.false_ne_true (hempty ▸ hc))]
            exact ⟨pe, mx, hpe_stable, hmx, rfl⟩
        · intro m d
          have hbase : ∀ m d, (m, d) ∈ ups ↔
              m ∈ l₁ ∧ ¬(predsOf edges m).isEmpty = true ∧
              ∃ nd₀ ndm, List.lookup m st₀ = some nd₀ ∧
                List.lookup m (setNode st tid nd') = some ndm ∧
                ndm.start_date = d ∧ d ≠ nd₀.original_start_date := by
            intro m d
            rw [hinv.ups_spec m d]
            constructor
            · rintro ⟨hm, hpne, nd₀, ndm, h0, h1, h2, h3⟩
              have hmtid : m ≠ tid := fun hc => htid_l₁ (hc ▸ hm)
              exact ⟨hm, hpne, nd₀, ndm, h0,
                by rw [hset_ne m hmtid]; exact h1, h2, h3⟩
            · rintro ⟨hm, hpne, nd₀, ndm, h0, h1, h2, h3⟩
              have hmtid : m ≠ tid := fun hc => htid_l₁ (hc ▸ hm)
              rw [hset_ne m hmtid] at h1
              exact ⟨hm, hpne, nd₀, ndm, h0, h1, h2, h3⟩
          unfold pushUps
          by_cases hch : pushStart nd mx ≠ nd.original_start_date
          · rw [if_pos hch]
            constructor
            · intro hmem
              rcases List.mem_append.1 hmem with hmem | hmem
              · obtain ⟨hm, hpne, rest⟩ := (hbase m d).1 hmem
                exact ⟨List.mem_append.2 (Or.inl hm), hpne, rest⟩
              · have heq : m = tid ∧ d = pushStart nd mx := by simpa using hmem
                obtain ⟨hm', hd'⟩ := heq
                subst hm'
                subst hd'
                refine ⟨List.mem_append.2 (Or.inr (List.mem_cons_self _ [])),
                  fun hc => Bool.false_ne_true (hempty ▸ hc),
                  nd, nd', hnd₀, hset_self, rfl, hch⟩
            · rintro ⟨hm, hpne, nd₀, ndm, h0, h1, h2, h3⟩
              rcases List.mem_append.1 hm with hm | hm
              · exact List.mem_append.2 (Or.inl
                  ((hbase m d).2 ⟨hm, hpne, nd₀, ndm, h0, h1, h2, h3⟩))
              · have hm' : m = tid := by simpa using hm
                subst hm'
                rw [hset_self] at h1
                have h1' : ndm = nd' := by injection h1 with h1''; exact h1''.symm
                subst h1'
                have hd : pushStart nd mx = d := h2
                subst hd
                exact List.mem_append.2 (Or.inr (by simp))
          · rw [if_neg hch]
            push_neg at hch
            rw [hbase m d]
            constructor
            · rintro ⟨hm, hpne, rest⟩
              exact ⟨List.mem_append.2 (Or.inl hm), hpne, rest⟩
            · rintro ⟨hm, hpne, nd₀, ndm, h0, h1, h2, h3⟩
              rcases List.mem_append.1 hm with hm | hm
              · exact ⟨hm, hpne, nd₀, ndm, h0, h1, h2, h3⟩
              · have hm' : m = tid := by simpa using hm
                subst hm'
                rw [hset_self] at h1
                have h1' : ndm = nd' := by injection h1 with h1''; exact h1''.symm
                subst h1'
                rw [hnd₀] at h0
                have h0' : nd₀ = nd := by injection h0 with h0''; exact h0''.symm
                refine absurd ?_ h3
                rw [h0', ← h2]
                exact hch
      obtain ⟨stF, upsF, hrun, hfin⟩ :=
        ih (l₁ ++ [tid]) (setNode st tid nd') (pushUps ups tid nd mx)
          (by rw [horder]; simp) hinv'
      refine ⟨stF, upsF, ?_, hfin⟩
      rw [List.foldlM_cons, hstep]
      exact hrun

/-- The `calculate_dates` run on a topological order succeeds and its
final state satisfies the per-node specification. -/
theorem calculate_dates_spec (edges : List Edge) (st₀ : CalcState)
    (order : List TaskId) (htopo : IsTopoOrder edges order)
    (hkeys : ∀ n ∈ order, (List.lookup n st₀).isSome = true) :
    ∃ stF ups, calculate_dates edges st₀ order = some (stF, ups) ∧
      RunInv edges st₀ order stF ups := by
  obtain ⟨stF, ups, hrun, hinv⟩ :=
    calc_run_master edges st₀ order htopo hkeys order [] st₀ [] rfl
      ⟨fun m _ => rfl, fun m => rfl, by simp, by simp⟩
  exact ⟨stF, ups, hrun, hinv⟩

/-- Every node of `build_graph` has `original_start_date = start_date`
and no `end_date` yet. -/
theorem lookup_build_graph_fields (tasks : List TaskRow) (n : TaskId)
    (nd : CalcNode) (h : List.lookup n (build_graph tasks) = some nd) :
    nd.original_start_date = nd.start_date ∧ nd.end_date = none := by
  induction tasks with
  | nil => simp [build_graph, List.lookup] at h
  | cons t rest ih =>
    rw [build_graph_cons] at h
    by_cases hn : n = t.id
    · subst hn
      rw [List.lookup_cons_self] at h
      injection h with h'
      subst h'
      exact ⟨rfl, rfl⟩
    · rw [lookup_cons_ne _ _ _ _ hn] at h
      exact ih h

/-- `calculate_dates` started from `build_graph tasks` on a topological
order covering only task ids succeeds with the run invariant. -/
theorem calc_run_build (edges : List Edge) (tasks : List TaskRow)
    (order : List TaskId) (htopo : IsTopoOrder edges order)
    (hids : ∀ n ∈ order, n ∈ tasks.map (·.id)) :
    ∃ stF ups,
      calculate_dates edges (build_graph tasks) order = some (stF, ups) ∧
      RunInv edges (build_graph tasks) order stF ups :=
  calculate_dates_spec edges (build_graph tasks) order htopo
    (fun n hn => (lookup_build_graph tasks n).2 (hids n hn))

/-- Every update the forward pass records pushes the task strictly
later than its stored start date. -/
theorem calc_pushed (edges : List Edge) (tasks : List TaskRow)
    (order : List TaskId) (stF : CalcState) (ups : List (TaskId × Int))
    (hinv : RunInv edges (build_graph tasks) order stF ups)
    (m : TaskId) (d : Int) (hmem : (m, d) ∈ ups) :
    ∃ nd₀, List.lookup m (build_graph tasks) = some nd₀ ∧
      nd₀.start_date < d := by
  obtain ⟨hm, hpne, nd₀, nd, h0, h1, h2, h3⟩ := (hinv.ups_spec m d).1 hmem
  obtain ⟨nd₀', nd', h0', h1', hdur, horig, hend, hstart⟩ := hinv.processed m hm
  rw [h0] at h0'
  injection h0' with he0
  subst he0
  rw [h1] at h1'
  injection h1' with he1
  subst he1
  obtain ⟨hos, _⟩ := lookup_build_graph_fields tasks m nd₀ h0
  refine ⟨nd₀, h0, ?_⟩
  rw [if_neg (fun hc => by simpa using hpne (by simpa using hc))] at hstart
  obtain ⟨pe, mx, hpe, hmx, hs⟩ := hstart
  by_cases hlt : nd₀.start_date < mx + 1
  · rw [if_pos hlt] at hs
    rw [← h2, hs]
    exact hlt
  · rw [if_neg hlt] at hs
    exfalso
    apply h3
    rw [← h2, hs]
    exact hos.symm

/-- C1: In the forward-pass recalculation, every task with at least one
predecessor in the subgraph gets `earliest = max(pred.endDate) + 1`; its
start date is set to `earliest` exactly when its stored start is strictly
before `earliest` and is otherwise left as stored (slack preserved), and
its end date is its start when the duration is 0 and `start + duration - 1`
otherwise.  In the concrete scenario S6 — A(duration 5, start 2026-01-21),
B(duration 3, start 2026-01-10), edge A→B — the recalculation sets
B's start to 2026-01-26 (day numbers stand for days of January 2026). -/
theorem C1_forward_pass_push_and_slack :
    (∀ (edges : List Edge) (tasks : List TaskRow) (order : List TaskId)
        (stF : CalcState) (ups : List (TaskId × Int)),
      IsTopoOrder edges order →
      (∀ n ∈ order, n ∈ tasks.map (·.id)) →
      calculate_dates edges (build_graph tasks) order = some (stF, ups) →
      ∀ tid ∈ order, predsOf edges tid ≠ [] →
      ∃ nd₀ nd pe mx,
        List.lookup tid (build_graph tasks) = some nd₀ ∧
        List.lookup tid stF = some nd ∧
        predEndsIn edges stF tid = some pe ∧
        pe.max? = some mx ∧
        nd.start_date =
          (if nd₀.start_date < mx + 1 then mx + 1 else nd₀.start_date) ∧
        nd.end_date = some (calcEnd nd.start_date nd.duration_days) ∧
        nd.duration_days = nd₀.duration_days) ∧
    Option.map (fun r => r.2)
      (calculate_dates [(1, 2)] (build_graph [taskA_S6, taskB_S6]) [1, 2]) =
      some [(2, 26)] := by
  constructor
  · intro edges tasks order stF ups htopo hids hrun tid htid hpreds
    obtain ⟨stF', ups', hrun', hinv⟩ := calc_run_build edges tasks order htopo hids
    rw [hrun] at hrun'
    injection hrun' with h'
    have h1 : stF = stF' := congrArg Prod.fst h'
    have h2 : ups = ups' := congrArg Prod.snd h'
    subst h1
    obtain ⟨nd₀, nd, h0, hF, hdur, horig, hend, hstart⟩ := hinv.processed tid htid
    have hcond : ¬((predsOf edges tid).isEmpty = true) := by
      intro hc
      exact hpreds (List.isEmpty_iff.1 hc)
    rw [if_neg hcond] at hstart
    obtain ⟨pe, mx, hpe, hmx, hs⟩ := hstart
    exact ⟨nd₀, nd, pe, mx, h0, hF, hpe, hmx, hs, hend, hdur⟩
  · rfl

/-- Witness for C1: the universal part instantiated on the S6 scenario at
task B (id 2), with every hypothesis discharged by computation. -/
theorem C1_forward_pass_push_and_slack_witness :
    ∃ nd₀ nd pe mx,
      List.lookup 2 (build_graph [taskA_S6, taskB_S6]) = some nd₀ ∧
      List.lookup 2
        ([(1, ⟨5, 21, 21, some 25⟩), (2, ⟨3, 26, 10, some 28⟩)] : CalcState) =
        some nd ∧
      predEndsIn [(1, 2)]
        ([(1, ⟨5, 21, 21, some 25⟩), (2, ⟨3, 26, 10, some 28⟩)] : CalcState) 2 =
        some pe ∧
      pe.max? = some mx ∧
      nd.start_date =
        (if nd₀.start_date < mx + 1 then mx + 1 else nd₀.start_date) ∧
      nd.end_date = some (calcEnd nd.start_date nd.duration_days) ∧
      nd.duration_days = nd₀.duration_days :=
  C1_forward_pass_push_and_slack.1 [(1, 2)] [taskA_S6, taskB_S6] [1, 2]
    [(1, ⟨5, 21, 21, some 25⟩), (2, ⟨3, 26, 10, some 28⟩)] [(2, 26)]
    (by decide) (by decide) (by decide) 2 (by decide) (by decide)

/-- C2 (amended): a recalculation run never writes a start date earlier
than the stored one — every recorded update is strictly later than the
task's stored start.  In particular recalc after an edge deletion leaves
the successor where it was rather than moving it back. -/
theorem C2_recalc_never_moves_dates_back :
    ∀ (edges : List Edge) (tasks : List TaskRow) (order : List TaskId)
      (stF : CalcState) (ups : List (TaskId × Int)) (m : TaskId) (d : Int),
      IsTopoOrder edges order →
      (∀ n ∈ order, n ∈ tasks.map (·.id)) →
      calculate_dates edges (build_graph tasks) order = some (stF, ups) →
      (m, d) ∈ ups →
      ∃ nd₀, List.lookup m (build_graph tasks) = some nd₀ ∧
        nd₀.start_date < d := by
  intro edges tasks order stF ups m d htopo hids hrun hmem
  obtain ⟨stF', ups', hrun', hinv⟩ := calc_run_build edges tasks order htopo hids
  rw [hrun] at hrun'
  injection hrun' with h'
  have h1 : stF = stF' := congrArg Prod.fst h'
  have h2 : ups = ups' := congrArg Prod.snd h'
  subst h1
  subst h2
  exact calc_pushed edges tasks order stF ups hinv m d hmem

/-- Witness for C2 (amended): on the S6 scenario the single update
`(2, 26)` is strictly later than B's stored start 10. -/
theorem C2_recalc_never_moves_dates_back_witness :
    ∃ nd₀, List.lookup 2 (build_graph [taskA_S6, taskB_S6]) = some nd₀ ∧
      nd₀.start_date < 26 :=
  C2_recalc_never_moves_dates_back [(1, 2)] [taskA_S6, taskB_S6] [1, 2]
    [(1, ⟨5, 21, 21, some 25⟩), (2, ⟨3, 26, 10, some 28⟩)] [(2, 26)] 2 26
    (by decide) (by decide) (by decide) (by decide)

/-- A run of `calculate_dates` from a state in which every constrained
node already starts at or after `max(pred.endDate) + 1` writes nothing. -/
theorem calc_run_stable (edges : List Edge) (st₀ : CalcState)
    (order : List TaskId) (htopo : IsTopoOrder edges order)
    (hkeys : ∀ n ∈ order, (List.lookup n st₀).isSome = true)
    (horig : ∀ m nd, List.lookup m st₀ = some nd →
      nd.original_start_date = nd.start_date)
    (hstable : ∀ n ∈ order, (predsOf edges n).isEmpty = false →
      ∃ pe mx, staticPredEnds edges st₀ n = some pe ∧ pe.max? = some mx ∧
        ∀ nd, List.lookup n st₀ = some nd → mx + 1 ≤ nd.start_date) :
    ∃ stF, calculate_dates edges st₀ order = some (stF, []) := by
  suffices h : ∀ (l₂ l₁ : List TaskId) (st : CalcState),
      order = l₁ ++ l₂ → StableInv st₀ l₁ st →
      ∃ stF, List.foldlM (calcStep edges) (st, ([] : List (TaskId × Int))) l₂ =
          some (stF, []) ∧ StableInv st₀ order stF by
    obtain ⟨stF, hrun, _⟩ := h order [] st₀ rfl
      ⟨fun m _ => rfl, by simp⟩
    exact ⟨stF, hrun⟩
  intro l₂
  induction l₂ with
  | nil =>
    intro l₁ st horder hinv
    refine ⟨st, rfl, ?_⟩
    rw [horder, List.append_nil]
    exact hinv
  | cons tid l₂ ih =>
    intro l₁ st horder hinv
    have hnodup : (l₁ ++ tid :: l₂).Nodup := horder ▸ htopo.1
    have htid_l₁ : tid ∉ l₁ := by
      intro hc
      rw [List.nodup_append] at hnodup
      exact hnodup.2.2 hc (List.mem_cons_self tid l₂)
    have htid_mem : tid ∈ order := by
      rw [horder]
      exact List.mem_append.2 (Or.inr (List.mem_cons_self tid l₂))
    have hnd_eq : List.lookup tid st = List.lookup tid st₀ :=
      hinv.1 tid htid_l₁
    obtain ⟨nd₀, hnd₀⟩ := Option.isSome_iff_exists.1 (hkeys tid htid_mem)
    have hnd : List.lookup tid st = some nd₀ := by rw [hnd_eq]; exact hnd₀
    have hndS : (List.lookup tid st).isSome = true := by rw [hnd]; rfl
    have hpreds_l₁ : ∀ p ∈ predsOf edges tid, p ∈ l₁ := by
      intro p hp
      have hedge : (p, tid) ∈ edges := (mem_predsOf edges p tid).1 hp
      obtain ⟨hp1, _hp2, hlt⟩ := htopo.2 (p, tid) hedge
      rw [horder] at hp1 hlt
      exact mem_left_of_indexOf_lt htid_l₁ hp1 hlt
    have hinv' : StableInv st₀ (l₁ ++ [tid])
        (setNode st tid { nd₀ with end_date := some (staticEnd nd₀) }) := by
      constructor
      · intro m hm
        have hm1 : m ∉ l₁ := fun hc => hm (List.mem_append.2 (Or.inl hc))
        have hm2 : m ≠ tid := fun hc =>
          hm (List.mem_append.2 (Or.inr (hc ▸ List.mem_cons_self tid [])))
        have hne : List.lookup m
            (setNode st tid { nd₀ with end_date := some (staticEnd nd₀) }) =
            List.lookup m st := lookup_setEntry_ne st tid m _ hm2
        rw [hne]
        exact hinv.1 m hm1
      · intro m hm
        rcases List.mem_append.1 hm with hm | hm
        · obtain ⟨nd₀m, h0, h1⟩ := hinv.2 m hm
          refine ⟨nd₀m, h0, ?_⟩
          have hne : List.lookup m
              (setNode st tid { nd₀ with end_date := some (staticEnd nd₀) }) =
              List.lookup m st :=
            lookup_setEntry_ne st tid m _ (fun hc => htid_l₁ (hc ▸ hm))
          rw [hne]
          exact h1
        · have hm' : m = tid := by simpa using hm
          subst hm'
          exact ⟨nd₀, hnd₀, lookup_setEntry_self st m _ hndS⟩
    obtain ⟨stF, hrun, hfin⟩ :=
      ih (l₁ ++ [tid]) _ (by rw [horder]; simp) hinv'
    refine ⟨stF, ?_, hfin⟩
    cases hempty : (predsOf edges tid).isEmpty with
    | true =>
      have hstep := calcStep_anchor edges st [] tid nd₀ hnd hempty
      rw [List.foldlM_cons, hstep]
      exact hrun
    | false =>
      obtain ⟨pe, mx, hpe, hmx, hge⟩ := hstable tid htid_mem hempty
      have hpe' : predEndsIn edges st tid = some pe := by
        rw [show predEndsIn edges st tid = staticPredEnds edges st₀ tid from ?_]
        · exact hpe
        · apply mapM_congr
          intro p hp
          obtain ⟨nd₀p, h0, h1⟩ := hinv.2 p (hpreds_l₁ p hp)
          rw [h0, h1]
          rfl
      have hps : pushStart nd₀ mx = nd₀.start_date := by
        unfold pushStart
        rw [if_neg (by have := hge nd₀ hnd₀; omega)]
      have hstep := calcStep_push edges st [] tid nd₀ pe mx hnd hempty hpe' hmx
      have hups : pushUps [] tid nd₀ mx = [] := by
        unfold pushUps
        rw [if_neg]
        intro hc
        rw [hps] at hc
        exact hc (horig tid nd₀ hnd₀).symm
      have hrec :
          ({ nd₀ with
              start_date := pushStart nd₀ mx,
              end_date :=
                some (calcEnd (pushStart nd₀ mx) nd₀.duration_days) } :
            CalcNode) =
          { nd₀ with end_date := some (staticEnd nd₀) } := by
        rw [hps]
        rfl
      rw [List.foldlM_cons, hstep, hups, hrec]
      exact hrun

theorem bulk_update_ids (now : Int) (ups : List (TaskId × Int)) :
    ∀ tasks : List TaskRow,
      (bulk_update_dates now tasks ups).map (·.id) = tasks.map (·.id) := by
  induction ups with
  | nil => intro tasks; rfl
  | cons u rest ih =>
    intro tasks
    have h1 : (applyTaskUpdate now tasks u).map (·.id) = tasks.map (·.id) := by
      unfold applyTaskUpdate
      rw [List.map_map]
      apply List.map_congr_left
      intro t _
      by_cases h : t.id = u.1
      · simp [h]
      · simp [h]
    calc (bulk_update_dates now (applyTaskUpdate now tasks u) rest).map (·.id)
        = (applyTaskUpdate now tasks u).map (·.id) := ih _
      _ = tasks.map (·.id) := h1

/-- Row-level description of `bulk_update_dates`: each row keeps its
position; id, title, duration, version token and project are never
touched; rows without an update are returned verbatim; rows with an
update get its start date and the fresh timestamp.  (`hconst` says all
updates for one id agree, which holds for recalc's update lists.) -/
theorem bulk_update_get (now : Int) (ups : List (TaskId × Int))
    (hconst : ∀ m d d', (m, d) ∈ ups → (m, d') ∈ ups → d = d') :
    ∀ (tasks : List TaskRow) (i : Nat) (t : TaskRow),
      tasks.get? i = some t →
      ∃ t', (bulk_update_dates now tasks ups).get? i = some t' ∧
        t'.id = t.id ∧ t'.title = t.title ∧
        t'.duration_days = t.duration_days ∧
        t'.calc_version_id = t.calc_version_id ∧
        t'.project_id = t.project_id ∧
        ((∀ d, (t.id, d) ∉ ups) → t' = t) ∧
        (∀ d, (t.id, d) ∈ ups → t'.start_date = d ∧ t'.updated_at = now) := by
  induction ups with
  | nil =>
    intro tasks i t ht
    exact ⟨t, ht, rfl, rfl, rfl, rfl, rfl, fun _ => rfl, fun d hd => absurd hd (by simp)⟩
  | cons u rest ih =>
    intro tasks i t ht
    obtain ⟨m0, d0⟩ := u
    have hconst' : ∀ m d d', (m, d) ∈ rest → (m, d') ∈ rest → d = d' :=
      fun m d d' h1 h2 =>
        hconst m d d' (List.mem_cons_of_mem _ h1) (List.mem_cons_of_mem _ h2)
    have ht1 : (applyTaskUpdate now tasks (m0, d0)).get? i =
        some (if t.id = m0 then { t with start_date := d0, updated_at := now }
          else t) := by
      unfold applyTaskUpdate
      rw [List.get?_map, ht]
      rfl
    by_cases hid : t.id = m0
    · rw [if_pos hid] at ht1
      obtain ⟨t', h0, h1, h2, h3, h4, h5, h6, h7⟩ := ih hconst' _ i _ ht1
      refine ⟨t', h0, h1, h2, h3, h4, h5, ?_, ?_⟩
      · intro hno
        exfalso
        apply hno d0
        rw [hid]
        exact List.mem_cons_self (m0, d0) rest
      · intro d hd
        by_cases hrest : ∃ d', (t.id, d') ∈ rest
        · obtain ⟨d', hd'⟩ := hrest
          have hd'' := h7 d' hd'
          have heq : d' = d := hconst t.id d' d (List.mem_cons_of_mem _ hd') hd
          rw [heq] at hd''
          exact hd''
        · have ht' : t' = { t with start_date := d0, updated_at := now } :=
            h6 (fun d' hd' => hrest ⟨d', hd'⟩)
          have hdu : d = d0 := by
            rcases List.mem_cons.1 hd with h | h
            · exact congrArg Prod.snd h
            · exact absurd h (fun hc => hrest ⟨d, hc⟩)
          subst hdu
          rw [ht']
          exact ⟨rfl, rfl⟩
    · rw [if_neg hid] at ht1
      obtain ⟨t', h0, h1, h2, h3, h4, h5, h6, h7⟩ := ih hconst' _ i _ ht1
      refine ⟨t', h0, h1, h2, h3, h4, h5, ?_, ?_⟩
      · intro hno
        exact h6 (fun d hd => hno d (List.mem_cons_of_mem _ hd))
      · intro d hd
        rcases List.mem_cons.1 hd with h | h
        · exact absurd (congrArg Prod.fst h) hid
        · exact h7 d h

theorem runinv_ups_const {edges : List Edge} {st₀ : CalcState}
    {order : List TaskId} {stF : CalcState} {ups : List (TaskId × Int)}
    (hinv : RunInv edges st₀ order stF ups) :
    ∀ m d d', (m, d) ∈ ups → (m, d') ∈ ups → d = d' := by
  intro m d d' h1 h2
  obtain ⟨_, _, _, nd1, _, ha1, ha2, _⟩ := (hinv.ups_spec m d).1 h1
  obtain ⟨_, _, _, nd2, _, hb1, hb2, _⟩ := (hinv.ups_spec m d').1 h2
  rw [ha1] at hb1
  injection hb1 with hb
  rw [← ha2, ← hb2, hb]

/-- After applying a run's updates to the stored rows, the rebuilt graph
node of every task in the order carries that task's final start date. -/
theorem second_state_lookup (edges : List Edge) (tasks : List TaskRow)
    (order : List TaskId) (stF : CalcState) (ups : List (TaskId × Int))
    (now : Int) (hnodup : (tasks.map (·.id)).Nodup)
    (hids : ∀ n ∈ order, n ∈ tasks.map (·.id))
    (hinv : RunInv edges (build_graph tasks) order stF ups) :
    ∀ n ∈ order, ∃ ndF,
      List.lookup n stF = some ndF ∧
      List.lookup n (build_graph (bulk_update_dates now tasks ups)) =
        some { duration_days := ndF.duration_days,
               start_date := ndF.start_date,
               original_start_date := ndF.start_date,
               end_date := none } := by
  intro n hn
  obtain ⟨t, ht, htid⟩ := List.mem_map.1 (hids n hn)
  obtain ⟨i, hti⟩ := List.get?_of_mem ht
  obtain ⟨t', h0, h1, _h2, h3, _h4, _h5, h6, h7⟩ :=
    bulk_update_get now ups (runinv_ups_const hinv) tasks i t hti
  have ht'mem : t' ∈ bulk_update_dates now tasks ups := List.get?_mem h0
  have hnodup' : ((bulk_update_dates now tasks ups).map (·.id)).Nodup := by
    rw [bulk_update_ids]
    exact hnodup
  have hlook' := lookup_build_graph_eq _ t' hnodup' ht'mem
  rw [h1, htid] at hlook'
  -- the stored node of the first run
  have hlook := lookup_build_graph_eq tasks t hnodup ht
  rw [htid] at hlook
  obtain ⟨nd₀, ndF, hc0, hc1, hcdur, hcorig, _hcend, hcstart⟩ :=
    hinv.processed n hn
  rw [hlook] at hc0
  injection hc0 with hc0'
  have hdur0 : nd₀.duration_days = t.duration_days := by rw [← hc0']
  have hst0 : nd₀.start_date = t.start_date := by rw [← hc0']
  have horig0 : nd₀.original_start_date = t.start_date := by rw [← hc0']
  refine ⟨ndF, hc1, ?_⟩
  rw [hlook']
  have hstart_eq : t'.start_date = ndF.start_date := by
    by_cases hup : ∃ d, (n, d) ∈ ups
    · obtain ⟨d, hd⟩ := hup
      obtain ⟨_, _, nd₀', ndF', hb0, hb1, hb2, _⟩ := (hinv.ups_spec n d).1 hd
      rw [hc1] at hb1
      injection hb1 with hb1'
      rw [(h7 d (htid ▸ hd)).1, ← hb2, hb1']
    · have ht'' : t' = t := h6 (fun d hd => hup ⟨d, htid ▸ hd⟩)
      rw [ht'']
      by_cases hanchor : (predsOf edges n).isEmpty = true
      · rw [if_pos hanchor] at hcstart
        rw [hcstart, hst0]
      · rw [if_neg hanchor] at hcstart
        by_cases hch : ndF.start_date = nd₀.original_start_date
        · rw [hch, horig0]
        · exfalso
          exact hup ⟨ndF.start_date, (hinv.ups_spec n ndF.start_date).2
            ⟨hn, fun hc => hanchor hc, nd₀, ndF, by rw [hlook, hc0'], hc1, rfl,
              hch⟩⟩
  have hdur_eq : t'.duration_days = ndF.duration_days := by
    rw [h3, ← hdur0, ← hcdur]
  rw [hstart_eq, hdur_eq]

/-- C3: cascade recalculation is idempotent — after applying the updates
produced by one forward pass to the stored tasks, running the same
calculation again over the same topological order produces an empty
update list (zero writes). -/
theorem C3_cascade_idempotent :
    ∀ (edges : List Edge) (tasks : List TaskRow) (order : List TaskId)
      (stF : CalcState) (ups : List (TaskId × Int)) (now : Int),
      IsTopoOrder edges order →
      (tasks.map (·.id)).Nodup →
      (∀ n ∈ order, n ∈ tasks.map (·.id)) →
      calculate_dates edges (build_graph tasks) order = some (stF, ups) →
      ∃ stF2,
        calculate_dates edges (build_graph (bulk_update_dates now tasks ups))
          order = some (stF2, []) := by
  intro edges tasks order stF ups now htopo hnodup hids hrun
  obtain ⟨stF', ups', hrun', hinv⟩ := calc_run_build edges tasks order htopo hids
  rw [hrun] at hrun'
  injection hrun' with h'
  have h1 : stF = stF' := congrArg Prod.fst h'
  have h2 : ups = ups' := congrArg Prod.snd h'
  subst h1
  subst h2
  have hsecond := second_state_lookup edges tasks order stF ups now hnodup
    hids hinv
  apply calc_run_stable edges _ order htopo
  · intro n hn
    obtain ⟨ndF, _, hl⟩ := hsecond n hn
    rw [hl]
    rfl
  · intro m nd h
    exact (lookup_build_graph_fields _ m nd h).1
  · intro n hn hne
    obtain ⟨nd₀, ndF, hc0, hc1, hcdur, _hcorig, _hcend, hcstart⟩ :=
      hinv.processed n hn
    rw [if_neg (fun hc => Bool.false_ne_true (hne ▸ hc))] at hcstart
    obtain ⟨pe, mx, hpe, hmx, hs⟩ := hcstart
    refine ⟨pe, mx, ?_, hmx, ?_⟩
    · rw [show staticPredEnds edges
          (build_graph (bulk_update_dates now tasks ups)) n =
          predEndsIn edges stF n from ?_]
      · exact hpe
      · apply mapM_congr
        intro p hp
        have hpedge : (p, n) ∈ edges := (mem_predsOf edges p n).1 hp
        have hpord : p ∈ order := (htopo.2 (p, n) hpedge).1
        obtain ⟨ndFp, hf1, hf2⟩ := hsecond p hpord
        obtain ⟨_, ndFp', _, hg1, _, _, hgend, _⟩ := hinv.processed p hpord
        rw [hf1] at hg1
        injection hg1 with hg1'
        rw [hf2, hf1, hg1']
        show some (staticEnd
            { duration_days := ndFp'.duration_days,
              start_date := ndFp'.start_date,
              original_start_date := ndFp'.start_date,
              end_date := none }) = ndFp'.end_date
        rw [hgend]
        rfl
    · intro nd hl
      obtain ⟨ndF', hf1, hf2⟩ := hsecond n hn
      rw [hc1] at hf1
      injection hf1 with hf1'
      rw [hf2] at hl
      injection hl with hl'
      rw [← hl']
      have heq : ndF'.start_date = ndF.start_date := by rw [← hf1']
      show mx + 1 ≤ ndF'.start_date
      rw [heq, hs]
      by_cases hlt : nd₀.start_date < mx + 1
      · rw [if_pos hlt]
      · rw [if_neg hlt]
        omega

/-- Witness for C3: the S6 run applied back to the stored tasks and
re-run produces zero updates. -/
theorem C3_cascade_idempotent_witness :
    ∃ stF2,
      calculate_dates [(1, 2)]
        (build_graph (bulk_update_dates 0 [taskA_S6, taskB_S6] [(2, 26)]))
        [1, 2] = some (stF2, []) :=
  C3_cascade_idempotent [(1, 2)] [taskA_S6, taskB_S6] [1, 2]
    [(1, ⟨5, 21, 21, some 25⟩), (2, ⟨3, 26, 10, some 28⟩)] [(2, 26)] 0
    (by decide) (by decide) (by decide) (by decide)

/-- Rowwise frame of `bulk_update_dates`: id, title, duration, version
token and project id are never touched, whatever the update list is. -/
theorem bulk_update_frame (now : Int) (ups : List (TaskId × Int)) :
    ∀ (tasks : List TaskRow) (i : Nat) (t : TaskRow),
      tasks.get? i = some t →
      ∃ t', (bulk_update_dates now tasks ups).get? i = some t' ∧
        t'.id = t.id ∧ t'.title = t.title ∧
        t'.duration_days = t.duration_days ∧
        t'.calc_version_id = t.calc_version_id ∧
        t'.project_id = t.project_id := by
  induction ups with
  | nil =>
    intro tasks i t ht
    exact ⟨t, ht, rfl, rfl, rfl, rfl, rfl⟩
  | cons u rest ih =>
    intro tasks i t ht
    obtain ⟨m0, d0⟩ := u
    have ht1 : (applyTaskUpdate now tasks (m0, d0)).get? i =
        some (if t.id = m0 then { t with start_date := d0, updated_at := now }
          else t) := by
      unfold applyTaskUpdate
      rw [List.get?_map, ht]
      rfl
    by_cases hid : t.id = m0
    · rw [if_pos hid] at ht1
      obtain ⟨t', h0, h1, h2, h3, h4, h5⟩ := ih _ i _ ht1
      exact ⟨t', h0, h1, h2, h3, h4, h5⟩
    · rw [if_neg hid] at ht1
      exact ih _ i _ ht1

/-- C5: a cascade job whose root task is missing or whose version token
is stale returns without performing any write: the store is unchanged. -/
theorem C5_stale_token_noop :
    ∀ (st : Store) (rootId : TaskId) (version : Nat) (now : Int),
      (getTask st rootId = none ∨
        ∃ root, getTask st rootId = some root ∧
          root.calc_version_id ≠ version) →
      recalc_subtree st rootId version now = st := by
  intro st rootId version now h
  rcases h with h | ⟨root, hr, hv⟩
  · unfold recalc_subtree
    rw [h]
  · simp [recalc_subtree, hr, hv]

/-- Witness for C5: the stored token `3` does not match the job's token
`4`; the worker leaves the store untouched. -/
theorem C5_stale_token_noop_witness :
    (∃ root, getTask storeT_stale 1 = some root ∧
      root.calc_version_id ≠ 4) ∧
    recalc_subtree storeT_stale 1 4 0 = storeT_stale :=
  ⟨⟨taskT_stale, by decide, by decide⟩,
    C5_stale_token_noop storeT_stale 1 4 0
      (Or.inr ⟨taskT_stale, by decide, by decide⟩)⟩

/-- C2 counterexample exhibit: after deleting the edge A→B (the spec's
motivating scenario — B sits at the date the old constraint pushed it
to), the recalculation triggered from B performs zero writes; B's start
date is not moved back to an earlier day. -/
theorem C2_counterexample_no_earlier_write :
    recalc_subtree storeAB_deleted 2 7 0 = storeAB_deleted := by
  decide

/-- C9: a recalculation run persists exactly the tasks whose computed
start date differs from the stored one, and touches only `start_date`
and `updated_at`:
(1) the worker never changes id, title, duration, version token or
project id of any row;
(2) the update list of a run contains `(m, d)` exactly when `m`'s
computed final start `d` differs from its stored start;
(3) the bulk write leaves rows without an update verbatim and rewrites
exactly the start date and timestamp of rows with an update. -/
theorem C9_recalc_frame_and_exactness :
    (∀ (st : Store) (rootId : TaskId) (version : Nat) (now : Int)
        (i : Nat) (t : TaskRow),
      st.tasks.get? i = some t →
      ∃ t', (recalc_subtree st rootId version now).tasks.get? i = some t' ∧
        t'.id = t.id ∧ t'.title = t.title ∧
        t'.duration_days = t.duration_days ∧
        t'.calc_version_id = t.calc_version_id ∧
        t'.project_id = t.project_id) ∧
    (∀ (edges : List Edge) (tasks : List TaskRow) (order : List TaskId)
        (stF : CalcState) (ups : List (TaskId × Int)),
      IsTopoOrder edges order →
      (∀ n ∈ order, n ∈ tasks.map (·.id)) →
      calculate_dates edges (build_graph tasks) order = some (stF, ups) →
      ∀ m d, ((m, d) ∈ ups ↔
        ∃ nd₀ ndF, List.lookup m (build_graph tasks) = some nd₀ ∧
          List.lookup m stF = some ndF ∧ ndF.start_date = d ∧
          d ≠ nd₀.start_date)) ∧
    (∀ (now : Int) (ups : List (TaskId × Int)),
      (∀ m d d', (m, d) ∈ ups → (m, d') ∈ ups → d = d') →
      ∀ (tasks : List TaskRow) (i : Nat) (t : TaskRow),
        tasks.get? i = some t →
        ∃ t', (bulk_update_dates now tasks ups).get? i = some t' ∧
          ((∀ d, (t.id, d) ∉ ups) → t' = t) ∧
          (∀ d, (t.id, d) ∈ ups →
            t'.start_date = d ∧ t'.updated_at = now)) := by
  refine ⟨?_, ?_, ?_⟩
  · intro st rootId version now i t ht
    unfold recalc_subtree
    split
    · exact ⟨t, ht, rfl, rfl, rfl, rfl, rfl⟩
    · split
      · exact ⟨t, ht, rfl, rfl, rfl, rfl, rfl⟩
      · split
        split
        · exact ⟨t, ht, rfl, rfl, rfl, rfl, rfl⟩
        · split
          · exact ⟨t, ht, rfl, rfl, rfl, rfl, rfl⟩
          · split
            · exact ⟨t, ht, rfl, rfl, rfl, rfl, rfl⟩
            · exact bulk_update_frame now _ st.tasks i t ht
  · intro edges tasks order stF ups htopo hids hrun m d
    obtain ⟨stF', ups', hrun', hinv⟩ :=
      calc_run_build edges tasks order htopo hids
    rw [hrun] at hrun'
    injection hrun' with h'
    have h1 : stF = stF' := congrArg Prod.fst h'
    have h2 : ups = ups' := congrArg Prod.snd h'
    subst h1
    subst h2
    constructor
    · intro hmem
      obtain ⟨hm, hpne, nd₀, ndF, ha0, ha1, ha2, ha3⟩ :=
        (hinv.ups_spec m d).1 hmem
      refine ⟨nd₀, ndF, ha0, ha1, ha2, ?_⟩
      rw [← (lookup_build_graph_fields tasks m nd₀ ha0).1]
      exact ha3
    · rintro ⟨nd₀, ndF, ha0, ha1, ha2, ha3⟩
      have horder : m ∈ order := by
        by_contra hm
        rw [hinv.frame m hm, ha0] at ha1
        injection ha1 with he
        exact ha3 (by rw [← ha2, ← he])
      have hpne : ¬(predsOf edges m).isEmpty = true := by
        intro hpe
        obtain ⟨nd₀', ndF', hb0, hb1, _, _, _, hbstart⟩ :=
          hinv.processed m horder
        rw [ha0] at hb0
        injection hb0 with he0
        rw [ha1] at hb1
        injection hb1 with he1
        rw [if_pos hpe] at hbstart
        apply ha3
        rw [← ha2, he1, hbstart, ← he0]
      exact (hinv.ups_spec m d).2 ⟨horder, hpne, nd₀, ndF, ha0, ha1, ha2,
        by rw [(lookup_build_graph_fields tasks m nd₀ ha0).1]; exact ha3⟩
  · intro now ups hconst tasks i t ht
    obtain ⟨t', h0, _h1, _h2, _h3, _h4, _h5, h6, h7⟩ :=
      bulk_update_get now ups hconst tasks i t ht
    exact ⟨t', h0, h6, h7⟩

/-- Witness for C9: on the S6 store the worker leaves A's fields intact
(part 1), the run's update list is exactly `[(2, 26)]` characterised by
"computed differs from stored" (part 2 at B), and the bulk write sets
exactly B's start date and timestamp (part 3). -/
theorem C9_recalc_frame_and_exactness_witness :
    (∃ t', (recalc_subtree storeS6 1 0 0).tasks.get? 0 = some t' ∧
      t'.id = taskA_S6.id ∧ t'.title = taskA_S6.title ∧
      t'.duration_days = taskA_S6.duration_days ∧
      t'.calc_version_id = taskA_S6.calc_version_id ∧
      t'.project_id = taskA_S6.project_id) ∧
    (((2 : TaskId), (26 : Int)) ∈ [((2 : TaskId), (26 : Int))] ↔
      ∃ nd₀ ndF, List.lookup 2 (build_graph [taskA_S6, taskB_S6]) = some nd₀ ∧
        List.lookup 2 ([(1, ⟨5, 21, 21, some 25⟩),
          (2, ⟨3, 26, 10, some 28⟩)] : CalcState) = some ndF ∧
        ndF.start_date = 26 ∧ (26 : Int) ≠ nd₀.start_date) ∧
    (∃ t', (bulk_update_dates 0 [taskA_S6, taskB_S6] [(2, 26)]).get? 1 =
        some t' ∧
      ((∀ d, (taskB_S6.id, d) ∉ [((2 : TaskId), (26 : Int))]) →
        t' = taskB_S6) ∧
      (∀ d, (taskB_S6.id, d) ∈ [((2 : TaskId), (26 : Int))] →
        t'.start_date = d ∧ t'.updated_at = 0)) :=
  ⟨C9_recalc_frame_and_exactness.1 storeS6 1 0 0 0 taskA_S6 (by decide),
   C9_recalc_frame_and_exactness.2.1 [(1, 2)] [taskA_S6, taskB_S6] [1, 2]
     [(1, ⟨5, 21, 21, some 25⟩), (2, ⟨3, 26, 10, some 28⟩)] [(2, 26)]
     (by decide) (by decide) (by decide) 2 26,
   C9_recalc_frame_and_exactness.2.2 0 [(2, 26)]
     (fun m d d' h1 h2 => by
       have e1 : d = 26 := congrArg Prod.snd (List.mem_singleton.1 h1)
       have e2 : d' = 26 := congrArg Prod.snd (List.mem_singleton.1 h2)
       rw [e1, e2])
     [taskA_S6, taskB_S6] 1 taskB_S6 (by decide)⟩

theorem subset_expandOnce (E : List Edge) (s : List TaskId) :
    s ⊆ expandOnce E s :=
  fun _ ha => List.mem_append_left _ ha

theorem mem_expandOnce (E : List Edge) (s : List TaskId) (x : TaskId)
    (h : x ∈ expandOnce E s) : x ∈ s ∨ ∃ a ∈ s, (a, x) ∈ E := by
  rcases List.mem_append.1 h with h | h
  · exact Or.inl h
  · right
    rw [List.mem_dedup] at h
    have h' := List.mem_filter.1 h
    obtain ⟨a, ha, hsucc⟩ := List.mem_bind.1 h'.1
    exact ⟨a, ha, (mem_succsOf E a x).1 hsucc⟩

theorem contains_false_iff (s : List TaskId) (x : TaskId) :
    s.contains x = false ↔ x ∉ s := by
  constructor
  · intro h hc
    have : s.contains x = true := by
      rw [List.contains_eq_any_beq]
      exact List.any_eq_true.2 ⟨x, hc, by simp⟩
    rw [h] at this
    cases this
  · intro h
    cases hc : s.contains x with
    | false => rfl
    | true =>
      exfalso
      rw [List.contains_eq_any_beq] at hc
      obtain ⟨y, hy, hxy⟩ := List.any_eq_true.1 hc
      have hxe : x = y := by simpa using hxy
      exact h (by rw [hxe]; exact hy)

theorem nodup_expandOnce (E : List Edge) (s : List TaskId) (h : s.Nodup) :
    (expandOnce E s).Nodup := by
  refine List.Nodup.append h (List.nodup_dedup _) ?_
  intro a ha hb
  rw [List.mem_dedup] at hb
  have hf := (List.mem_filter.1 hb).2
  simp only [Bool.not_eq_true'] at hf
  exact (contains_false_iff s a).1 hf ha

theorem closure_succ_out (E : List Edge) :
    ∀ (n : Nat) (s : List TaskId),
      closure E (n + 1) s = expandOnce E (closure E n s) := by
  intro n
  induction n with
  | zero => intro s; rfl
  | succ n ih =>
    intro s
    show closure E (n + 1) (expandOnce E s) = _
    rw [ih (expandOnce E s)]
    rfl

theorem subset_closure (E : List Edge) :
    ∀ (n : Nat) (s : List TaskId), s ⊆ closure E n s := by
  intro n
  induction n with
  | zero => intro s; exact fun _ h => h
  | succ n ih =>
    intro s
    exact List.Subset.trans (subset_expandOnce E s) (ih (expandOnce E s))

theorem nodup_closure (E : List Edge) :
    ∀ (n : Nat) (s : List TaskId), s.Nodup → (closure E n s).Nodup := by
  intro n
  induction n with
  | zero => intro s h; exact h
  | succ n ih => intro s h; exact ih _ (nodup_expandOnce E s h)

theorem closure_sound (E : List Edge) :
    ∀ (n : Nat) (s : List TaskId) (x : TaskId),
      x ∈ closure E n s → ∃ a ∈ s, Reaches E a x := by
  intro n
  induction n with
  | zero => intro s x h; exact ⟨x, h, Relation.ReflTransGen.refl⟩
  | succ n ih =>
    intro s x h
    obtain ⟨a, ha, hr⟩ := ih (expandOnce E s) x h
    rcases mem_expandOnce E s a ha with ha' | ⟨b, hb, hedge⟩
    · exact ⟨a, ha', hr⟩
    · exact ⟨b, hb, Relation.ReflTransGen.head hedge hr⟩

theorem closure_subset_universe (E : List Edge) :
    ∀ (n : Nat) (s : List TaskId) (x : TaskId),
      x ∈ closure E n s → x ∈ s ++ E.map (·.2) := by
  intro n s x h
  obtain ⟨a, ha, hr⟩ := closure_sound E n s x h
  rcases Relation.ReflTransGen.cases_tail hr with h' | ⟨c, _, hedge⟩
  · exact List.mem_append_left _ (h' ▸ ha)
  · exact List.mem_append_right _ (List.mem_map.2 ⟨(c, x), hedge, rfl⟩)

theorem nodup_length_le {L M : List TaskId} (h1 : L.Nodup) (h2 : L ⊆ M) :
    L.length ≤ M.length := by
  have hc : L.toFinset.card = L.length := List.toFinset_card_of_nodup h1
  have h3 : L.toFinset ⊆ M.toFinset := by
    intro a ha
    simp only [List.mem_toFinset] at ha ⊢
    exact h2 ha
  have h4 := Finset.card_le_card h3
  have h5 := List.toFinset_card_le M
  omega

theorem expandOnce_ne_grow (E : List Edge) (s : List TaskId)
    (h : expandOnce E s ≠ s) : s.length + 1 ≤ (expandOnce E s).length := by
  have hlen : (expandOnce E s).length = s.length +
      ((s.flatMap (succsOf E)).filter
        (fun x => !(s.contains x))).dedup.length := by
    unfold expandOnce
    rw [List.length_append]
  by_cases hz : ((s.flatMap (succsOf E)).filter
      (fun x => !(s.contains x))).dedup.length = 0
  · exfalso
    apply h
    unfold expandOnce
    rw [List.length_eq_zero.1 hz, List.append_nil]
  · omega

theorem expandOnce_eq_closed (E : List Edge) (s : List TaskId)
    (h : expandOnce E s = s) :
    ∀ a ∈ s, ∀ x, (a, x) ∈ E → x ∈ s := by
  intro a ha x hedge
  unfold expandOnce at h
  have hnil : ((s.flatMap (succsOf E)).filter
      (fun x => !(s.contains x))).dedup = [] :=
    List.append_right_eq_self.1 h
  by_contra hx
  have hmem : x ∈ (s.flatMap (succsOf E)).filter
      (fun x => !(s.contains x)) := by
    apply List.mem_filter.2
    refine ⟨List.mem_flatMap.2 ⟨a, ha, (mem_succsOf E a x).2 hedge⟩, ?_⟩
    rw [Bool.not_eq_true']
    exact (contains_false_iff s x).2 hx
  rw [← List.mem_dedup, hnil] at hmem
  cases hmem

/-- Within `E.length + 1` expansions the closure is a fixed point. -/
theorem closure_fix (E : List Edge) (s : List TaskId) (hnd : s.Nodup) :
    expandOnce E (closure E (E.length + 1) s) =
      closure E (E.length + 1) s := by
  by_cases hfix : ∃ k, k ≤ E.length ∧
      expandOnce E (closure E k s) = closure E k s
  · obtain ⟨k, hk, hfx⟩ := hfix
    have hstay : ∀ j, closure E (k + j) s = closure E k s := by
      intro j
      induction j with
      | zero => rfl
      | succ j ih =>
        have h1 : k + (j + 1) = (k + j) + 1 := rfl
        rw [h1, closure_succ_out, ih, hfx]
    have hdecomp : E.length + 1 = k + (E.length + 1 - k) := by omega
    rw [hdecomp, hstay (E.length + 1 - k)]
    exact hfx
  · push_neg at hfix
    exfalso
    have hgrow : ∀ k, k ≤ E.length + 1 →
        s.length + k ≤ (closure E k s).length := by
      intro k
      induction k with
      | zero =>
        intro _
        show s.length + 0 ≤ s.length
        omega
      | succ k ih =>
        intro hk
        have hne := hfix k (by omega)
        rw [closure_succ_out]
        have h1 := expandOnce_ne_grow E (closure E k s) hne
        have h2 := ih (by omega)
        omega
    have hbound : (closure E (E.length + 1) s).length ≤
        s.length + E.length := by
      have hsub : closure E (E.length + 1) s ⊆ s ++ E.map (·.2) :=
        fun x hx => closure_subset_universe E _ s x hx
      have := nodup_length_le (nodup_closure E _ s hnd) hsub
      rw [List.length_append, List.length_map] at this
      exact this
    have := hgrow (E.length + 1) (le_refl _)
    omega

/-- Correctness of the computed reachability set. -/
theorem mem_reachSet (E : List Edge) (s : List TaskId) (x : TaskId) :
    x ∈ reachSet E s ↔ ∃ a ∈ s, Reaches E a x := by
  constructor
  · intro h
    obtain ⟨a, ha, hr⟩ := closure_sound E _ s.dedup x h
    exact ⟨a, List.mem_dedup.1 ha, hr⟩
  · rintro ⟨a, ha, hr⟩
    unfold reachSet
    have hclosed := closure_fix E s.dedup (List.nodup_dedup s)
    have hbase : a ∈ closure E (E.length + 1) s.dedup :=
      subset_closure E _ _ (List.mem_dedup.2 ha)
    clear ha
    revert hbase
    induction hr using Relation.ReflTransGen.head_induction_on with
    | refl => exact fun hb => hb
    | head hstep _htail ih =>
      intro hb
      exact ih (expandOnce_eq_closed E _ hclosed _ hb _ hstep)

theorem contains_true_iff (s : List TaskId) (x : TaskId) :
    s.contains x = true ↔ x ∈ s := by
  constructor
  · intro h
    cases hc : s.contains x with
    | true =>
      by_contra hx
      rw [(contains_false_iff s x).2 hx] at h
      cases h
    | false =>
      rw [hc] at h
      cases h
  · intro h
    cases hc : s.contains x with
    | true => rfl
    | false => exact absurd h ((contains_false_iff s x).1 hc)

theorem hasCycle_true_iff (nodes : List TaskId) (E : List Edge) :
    hasCycle nodes E = true ↔ ∃ n, StrictReach E n n := by
  constructor
  · intro h
    obtain ⟨n, _, hc⟩ := List.any_eq_true.1 h
    have hn := (contains_true_iff _ n).1 hc
    obtain ⟨a, ha, hr⟩ := (mem_reachSet E _ n).1 hn
    exact ⟨n, Relation.TransGen.head' ((mem_succsOf E n a).1 ha) hr⟩
  · rintro ⟨n, hn⟩
    obtain ⟨m, hedge, hr⟩ := (Relation.TransGen.head'_iff).1 hn
    apply List.any_eq_true.2
    refine ⟨n, ?_, ?_⟩
    · unfold graphNodes
      rw [List.mem_dedup]
      exact List.mem_append_right _
        (List.mem_flatMap.2 ⟨(n, m), hedge, by simp⟩)
    · exact (contains_true_iff _ n).2
        ((mem_reachSet E _ n).2 ⟨m, (mem_succsOf E n m).2 hedge, hr⟩)

theorem reaches_mono (E : List Edge) (e : Edge) {a b : TaskId}
    (h : Reaches E a b) : Reaches (E ++ [e]) a b :=
  Relation.ReflTransGen.mono (fun _ _ hm => List.mem_append_left _ hm) h

theorem reaches_append_edge (E : List Edge) (p s a b : TaskId)
    (h : Reaches (E ++ [(p, s)]) a b) :
    Reaches E a b ∨ (Reaches E a p ∧ Reaches E s b) := by
  induction h with
  | refl => exact Or.inl Relation.ReflTransGen.refl
  | tail _hr hstep ih =>
    rename_i c b'
    rcases List.mem_append.1 hstep with hstep | hstep
    · rcases ih with ih | ⟨ih1, ih2⟩
      · exact Or.inl (ih.tail hstep)
      · exact Or.inr ⟨ih1, ih2.tail hstep⟩
    · have hcb : c = p ∧ b' = s := by
        have := List.mem_singleton.1 hstep
        exact ⟨congrArg Prod.fst this, congrArg Prod.snd this⟩
      obtain ⟨hc, hb⟩ := hcb
      subst hc
      subst hb
      rcases ih with ih | ⟨ih1, _⟩
      · exact Or.inr ⟨ih, Relation.ReflTransGen.refl⟩
      · exact Or.inr ⟨ih1, Relation.ReflTransGen.refl⟩

theorem cycle_add_edge_iff (E : List Edge) (p s : TaskId)
    (hacyc : ∀ n, ¬StrictReach E n n) :
    (∃ n, StrictReach (E ++ [(p, s)]) n n) ↔ Reaches E s p := by
  constructor
  · rintro ⟨n, hn⟩
    obtain ⟨m, hedge, hr⟩ := (Relation.TransGen.head'_iff).1 hn
    rcases List.mem_append.1 hedge with hedge | hedge
    · rcases reaches_append_edge E p s m n hr with hr' | ⟨hmp, hsn⟩
      · exact absurd (Relation.TransGen.head' hedge hr') (hacyc n)
      · exact Relation.ReflTransGen.trans (hsn.tail hedge) hmp
    · have hnm : n = p ∧ m = s := by
        have := List.mem_singleton.1 hedge
        exact ⟨congrArg Prod.fst this, congrArg Prod.snd this⟩
      obtain ⟨hn', hm'⟩ := hnm
      rw [hn', hm'] at hr
      rcases reaches_append_edge E p s s p hr with hr' | ⟨_, hsp⟩
      · exact hr'
      · exact hsp
  · intro h
    refine ⟨s, Relation.TransGen.tail' (reaches_mono E (p, s) h) ?_⟩
    exact List.mem_append_right _ (List.mem_singleton.2 rfl)

/-- C6: on a project graph satisfying the DAG invariant, the
implementation's cycle test for a proposed edge `(p, s)` — add the edge
and look for any cycle — agrees with the reachability test
`p = s ∨ p ∈ descendants(s)`. -/
theorem C6_wouldCreateCycle_eq_descendants_test :
    ∀ (st : Store) (pid : Nat) (p s : TaskId),
      hasCycle (build_project_graph st pid).1
        (build_project_graph st pid).2 = false →
      detect_cycle st pid p s =
        (decide (p = s) || (get_descendants st s pid).contains p) := by
  intro st pid p s hdag
  have hacyc : ∀ n, ¬StrictReach (build_project_graph st pid).2 n n := by
    intro n hn
    have := (hasCycle_true_iff (build_project_graph st pid).1
      (build_project_graph st pid).2).2 ⟨n, hn⟩
    rw [hdag] at this
    cases this
  have hiff : (∃ n, StrictReach ((build_project_graph st pid).2 ++ [(p, s)]) n n)
      ↔ Reaches (build_project_graph st pid).2 s p :=
    cycle_add_edge_iff _ p s hacyc
  have hlhs : detect_cycle st pid p s =
      hasCycle (build_project_graph st pid).1
        ((build_project_graph st pid).2 ++ [(p, s)]) := rfl
  have hrhs_iff : ((decide (p = s) ||
      (get_descendants st s pid).contains p) = true) ↔
      Reaches (build_project_graph st pid).2 s p := by
    rw [Bool.or_eq_true, decide_eq_true_eq]
    unfold get_descendants
    constructor
    · rintro (h | h)
      · exact h ▸ Relation.ReflTransGen.refl
      · cases hguard : (graphNodes (build_project_graph st pid).1
            (build_project_graph st pid).2).contains s with
        | false =>
          rw [hguard] at h
          simp at h
        | true =>
          rw [hguard] at h
          simp only [if_true] at h
          have hmem := (contains_true_iff _ p).1 h
          have hmem' := List.mem_filter.1 hmem
          obtain ⟨a, ha, hr⟩ := (mem_reachSet _ _ p).1 hmem'.1
          rw [List.mem_singleton.1 ha] at hr
          exact hr
    · intro h
      by_cases hps : p = s
      · exact Or.inl hps
      · right
        have hsg : s ∈ graphNodes (build_project_graph st pid).1
            (build_project_graph st pid).2 := by
          rcases Relation.ReflTransGen.cases_head h with h' | ⟨c, hedge, _⟩
          · exact absurd h'.symm hps
          · unfold graphNodes
            rw [List.mem_dedup]
            exact List.mem_append_right _
              (List.mem_flatMap.2 ⟨(s, c), hedge, by simp⟩)
        rw [(contains_true_iff _ s).2 hsg]
        simp only [if_true]
        apply (contains_true_iff _ p).2
        apply List.mem_filter.2
        refine ⟨(mem_reachSet _ _ p).2 ⟨s, List.mem_singleton.2 rfl, h⟩, ?_⟩
        simp [hps]
  rw [hlhs]
  cases hres : hasCycle (build_project_graph st pid).1
      ((build_project_graph st pid).2 ++ [(p, s)]) with
  | true =>
    have := hiff.1 ((hasCycle_true_iff _ _).1 hres)
    exact (hrhs_iff.2 this).symm
  | false =>
    cases hr : (decide (p = s) || (get_descendants st s pid).contains p) with
    | false => rfl
    | true =>
      exfalso
      have := (hasCycle_true_iff (build_project_graph st pid).1
        ((build_project_graph st pid).2 ++ [(p, s)])).2 (hiff.2 (hrhs_iff.1 hr))
      rw [hres] at this
      cases this

/-- Witness for C6: on the S6 project graph (edge 1→2, acyclic), the
proposed edge (2, 1) is judged identically by the add-and-scan test and
by the descendants test (both report a cycle). -/
theorem C6_wouldCreateCycle_eq_descendants_test_witness :
    hasCycle (build_project_graph storeS6 0).1
      (build_project_graph storeS6 0).2 = false ∧
    detect_cycle storeS6 0 2 1 =
      (decide ((2 : TaskId) = 1) ||
        (get_descendants storeS6 1 0).contains 2) :=
  ⟨by decide,
    C6_wouldCreateCycle_eq_descendants_test storeS6 0 2 1 (by decide)⟩

/-- C7: under the data-model invariants (no self-loop edges, every
edge's endpoints exist and share a project) and with the caller owning
the predecessor's project, edge admission fails `notFound` exactly when
an endpoint is absent, `crossProject` exactly when both exist in
different projects, `selfDependency` exactly when `p = s` (both
existing), `duplicate` exactly when the edge is already present,
`cycleDetected` exactly when adding the edge to the committed graph
closes a cycle; and it succeeds exactly in the remaining case, writing
the edge and setting the successor's version token to the freshly
generated one while leaving projects and all other task fields
unchanged (stated both as an exact success-iff and as a
characterisation of any returned store).  A failure aborts the
transaction, so no edge and no token is written. -/
theorem C7_edge_admission :
    ∀ (st : ApiStore) (uid : Nat) (p s : TaskId) (freshTok : Nat),
      (∀ e ∈ st.deps, e.1 ≠ e.2) →
      (∀ e ∈ st.deps, ∃ tp ts2, findTask st.tasks e.1 = some tp ∧
        findTask st.tasks e.2 = some ts2 ∧ tp.project_id = ts2.project_id) →
      (∀ t, findTask st.tasks p = some t →
        ∃ pr, getProject st t.project_id = some pr ∧ pr.owner_id = uid) →
      ((create_dependency st uid p s freshTok = .error .notFound ↔
        findTask st.tasks p = none ∨ findTask st.tasks s = none) ∧
       (create_dependency st uid p s freshTok = .error .crossProject ↔
        ∃ tp ts2, findTask st.tasks p = some tp ∧
          findTask st.tasks s = some ts2 ∧
          tp.project_id ≠ ts2.project_id) ∧
       (create_dependency st uid p s freshTok = .error .selfDependency ↔
        (∃ tp, findTask st.tasks p = some tp) ∧
        (∃ ts2, findTask st.tasks s = some ts2) ∧ p = s) ∧
       (create_dependency st uid p s freshTok = .error .duplicate ↔
        (p, s) ∈ st.deps) ∧
       (create_dependency st uid p s freshTok = .error .cycleDetected ↔
        ∃ tp ts2, findTask st.tasks p = some tp ∧
          findTask st.tasks s = some ts2 ∧
          tp.project_id = ts2.project_id ∧ (p, s) ∉ st.deps ∧ p ≠ s ∧
          detect_cycle ⟨st.tasks, st.deps⟩ tp.project_id p s = true) ∧
       (∀ st', create_dependency st uid p s freshTok = .ok st' →
        st'.projects = st.projects ∧
        st'.deps = st.deps ++ [(p, s)] ∧
        st'.tasks = st.tasks.map (fun t =>
          if t.id = s then { t with calc_version_id := freshTok }
          else t)) ∧
       (create_dependency st uid p s freshTok = .ok
          { st with
            deps := st.deps ++ [(p, s)],
            tasks := st.tasks.map (fun t =>
              if t.id = s then { t with calc_version_id := freshTok }
              else t) } ↔
        ∃ tp ts2, findTask st.tasks p = some tp ∧
          findTask st.tasks s = some ts2 ∧
          tp.project_id = ts2.project_id ∧ (p, s) ∉ st.deps ∧ p ≠ s ∧
          detect_cycle ⟨st.tasks, st.deps⟩ tp.project_id p s = false)) := by
  intro st uid p s freshTok hnoself hends hown
  cases hfp : findTask st.tasks p with
  | none =>
    have hval : create_dependency st uid p s freshTok = .error .notFound := by
      simp [create_dependency, hfp]
    have hfpn : ∀ (tp : TaskRow), findTask st.tasks p ≠ some tp := by
      intro tp hc
      rw [hfp] at hc
      exact Option.noConfusion hc
    refine ⟨⟨fun _ => Or.inl rfl, fun _ => hval⟩, ?_, ?_, ?_, ?_, ?_, ?_⟩
    · rw [hval]
      constructor
      · intro h
        injection h with h'
        exact DepError.noConfusion h'
      · rintro ⟨tp, _, h1, _⟩
        exact Option.noConfusion h1
    · rw [hval]
      constructor
      · intro h
        injection h with h'
        exact DepError.noConfusion h'
      · rintro ⟨⟨tp, h1⟩, _⟩
        exact Option.noConfusion h1
    · rw [hval]
      constructor
      · intro h
        injection h with h'
        exact DepError.noConfusion h'
      · intro h
        obtain ⟨tp, _, h1, _⟩ := hends (p, s) h
        exact (hfpn tp h1).elim
    · rw [hval]
      constructor
      · intro h
        injection h with h'
        exact DepError.noConfusion h'
      · rintro ⟨tp, _, h1, _⟩
        exact Option.noConfusion h1
    · intro st' h
      rw [hval] at h
      exact Except.noConfusion h
    · rw [hval]
      constructor
      · intro h
        exact Except.noConfusion h
      · rintro ⟨tp, _, h1, _⟩
        exact Option.noConfusion h1
  | some tp =>
    cases hfs : findTask st.tasks s with
    | none =>
      have hval : create_dependency st uid p s freshTok =
          .error .notFound := by
        simp [create_dependency, hfp, hfs]
      have hfsn : ∀ (ts2 : TaskRow), findTask st.tasks s ≠ some ts2 := by
        intro ts2 hc
        rw [hfs] at hc
        exact Option.noConfusion hc
      refine ⟨⟨fun _ => Or.inr rfl, fun _ => hval⟩, ?_, ?_, ?_, ?_, ?_, ?_⟩
      · rw [hval]
        constructor
        · intro h
          injection h with h'
          exact DepError.noConfusion h'
        · rintro ⟨_, ts2, _, h2, _⟩
          exact Option.noConfusion h2
      · rw [hval]
        constructor
        · intro h
          injection h with h'
          exact DepError.noConfusion h'
        · rintro ⟨_, ⟨ts2, h2⟩, _⟩
          exact Option.noConfusion h2
      · rw [hval]
        constructor
        · intro h
          injection h with h'
          exact DepError.noConfusion h'
        · intro h
          obtain ⟨_, ts2, _, h2, _⟩ := hends (p, s) h
          exact (hfsn ts2 h2).elim
      · rw [hval]
        constructor
        · intro h
          injection h with h'
          exact DepError.noConfusion h'
        · rintro ⟨_, ts2, _, h2, _⟩
          exact Option.noConfusion h2
      · intro st' h
        rw [hval] at h
        exact Except.noConfusion h
      · rw [hval]
        constructor
        · intro h
          exact Except.noConfusion h
        · rintro ⟨_, ts2, _, h2, _⟩
          exact Option.noConfusion h2
    | some ts2 =>
      obtain ⟨pr, hpr, hprown⟩ := hown tp hfp
      have howner : ¬(pr.owner_id ≠ uid) := fun h => h hprown
      have hdups : (p, s) ∈ st.deps →
          ∀ (P : Prop), (tp.project_id = ts2.project_id → P) → P := by
        intro hd P hk
        obtain ⟨tp', ts2', h1, h2, h3⟩ := hends (p, s) hd
        have h1' : findTask st.tasks p = some tp' := h1
        have h2' : findTask st.tasks s = some ts2' := h2
        rw [hfp] at h1'
        rw [hfs] at h2'
        injection h1' with he1
        injection h2' with he2
        exact hk (he1 ▸ he2 ▸ h3)
      by_cases hcross : tp.project_id ≠ ts2.project_id
      · have hval : create_dependency st uid p s freshTok =
            .error .crossProject := by
          simp only [create_dependency, hfp, hfs, hpr]
          rw [if_neg howner, if_pos hcross]
        refine ⟨?_, ⟨fun _ => ⟨tp, ts2, rfl, rfl, hcross⟩, fun _ => hval⟩,
          ?_, ?_, ?_, ?_, ?_⟩
        · rw [hval]
          constructor
          · intro h
            injection h with h'
            exact DepError.noConfusion h'
          · rintro (h | h) <;> exact Option.noConfusion h
        · rw [hval]
          constructor
          · intro h
            injection h with h'
            exact DepError.noConfusion h'
          · rintro ⟨⟨tp', h1⟩, ⟨ts2', h2⟩, hps⟩
            have hfind : findTask st.tasks p = findTask st.tasks s := by
              rw [hps]
            rw [hfp, hfs] at hfind
            injection hfind with he
            exact (hcross (by rw [he])).elim
        · rw [hval]
          constructor
          · intro h
            injection h with h'
            exact DepError.noConfusion h'
          · intro h
            exact hdups h _ (fun he => (hcross he).elim)
        · rw [hval]
          constructor
          · intro h
            injection h with h'
            exact DepError.noConfusion h'
          · rintro ⟨tp', ts2', h1, h2, h3, _⟩
            injection h1 with he1
            injection h2 with he2
            exact (hcross (he1 ▸ he2 ▸ h3)).elim
        · intro st' h
          rw [hval] at h
          exact Except.noConfusion h
        · rw [hval]
          constructor
          · intro h
            exact Except.noConfusion h
          · rintro ⟨tp', ts2', h1, h2, h3, _⟩
            injection h1 with he1
            injection h2 with he2
            exact (hcross (he1 ▸ he2 ▸ h3)).elim
      · have heqproj : tp.project_id = ts2.project_id := not_not.1 hcross
        by_cases hdup : (p, s) ∈ st.deps
        · have hval : create_dependency st uid p s freshTok =
              .error .duplicate := by
            simp only [create_dependency, hfp, hfs, hpr]
            rw [if_neg howner, if_neg hcross, if_pos hdup]
          refine ⟨?_, ?_, ?_, ⟨fun _ => hdup, fun _ => hval⟩, ?_, ?_, ?_⟩
          · rw [hval]
            constructor
            · intro h
              injection h with h'
              exact DepError.noConfusion h'
            · rintro (h | h) <;> exact Option.noConfusion h
          · rw [hval]
            constructor
            · intro h
              injection h with h'
              exact DepError.noConfusion h'
            · rintro ⟨tp', ts2', h1, h2, h3⟩
              injection h1 with he1
              injection h2 with he2
              exact (h3 (he1 ▸ he2 ▸ heqproj)).elim
          · rw [hval]
            constructor
            · intro h
              injection h with h'
              exact DepError.noConfusion h'
            · rintro ⟨_, _, hps⟩
              exact (hnoself (p, s) hdup hps).elim
          · rw [hval]
            constructor
            · intro h
              injection h with h'
              exact DepError.noConfusion h'
            · rintro ⟨_, _, _, _, _, hnd, _⟩
              exact absurd hdup hnd
          · intro st' h
            rw [hval] at h
            exact Except.noConfusion h
          · rw [hval]
            constructor
            · intro h
              exact Except.noConfusion h
            · rintro ⟨_, _, _, _, _, hnd, _, _⟩
              exact absurd hdup hnd
        · by_cases hself : p = s
          · have hval : create_dependency st uid p s freshTok =
                .error .selfDependency := by
              simp only [create_dependency, hfp, hfs, hpr]
              rw [if_neg howner, if_neg hcross, if_neg hdup, if_pos hself]
            refine ⟨?_, ?_,
              ⟨fun _ => ⟨⟨tp, rfl⟩, ⟨ts2, rfl⟩, hself⟩, fun _ => hval⟩,
              ?_, ?_, ?_, ?_⟩
            · rw [hval]
              constructor
              · intro h
                injection h with h'
                exact DepError.noConfusion h'
              · rintro (h | h) <;> exact Option.noConfusion h
            · rw [hval]
              constructor
              · intro h
                injection h with h'
                exact DepError.noConfusion h'
              · rintro ⟨tp', ts2', h1, h2, h3⟩
                injection h1 with he1
                injection h2 with he2
                exact (h3 (he1 ▸ he2 ▸ heqproj)).elim
            · rw [hval]
              constructor
              · intro h
                injection h with h'
                exact DepError.noConfusion h'
              · intro h
                exact absurd h hdup
            · rw [hval]
              constructor
              · intro h
                injection h with h'
                exact DepError.noConfusion h'
              · rintro ⟨_, _, _, _, _, _, hps, _⟩
                exact (hps hself).elim
            · intro st' h
              rw [hval] at h
              exact Except.noConfusion h
            · rw [hval]
              constructor
              · intro h
                exact Except.noConfusion h
              · rintro ⟨_, _, _, _, _, _, hps, _⟩
                exact (hps hself).elim
          · by_cases hcyc :
                detect_cycle ⟨st.tasks, st.deps⟩ tp.project_id p s = true
            · have hval : create_dependency st uid p s freshTok =
                  .error .cycleDetected := by
                simp only [create_dependency, hfp, hfs, hpr]
                rw [if_neg howner, if_neg hcross, if_neg hdup,
                  if_neg hself, if_pos hcyc]
              refine ⟨?_, ?_, ?_, ?_,
                ⟨fun _ => ⟨tp, ts2, rfl, rfl, heqproj, hdup, hself, hcyc⟩,
                  fun _ => hval⟩, ?_, ?_⟩
              · rw [hval]
                constructor
                · intro h
                  injection h with h'
                  exact DepError.noConfusion h'
                · rintro (h | h) <;> exact Option.noConfusion h
              · rw [hval]
                constructor
                · intro h
                  injection h with h'
                  exact DepError.noConfusion h'
                · rintro ⟨tp', ts2', h1, h2, h3⟩
                  injection h1 with he1
                  injection h2 with he2
                  exact (h3 (he1 ▸ he2 ▸ heqproj)).elim
              · rw [hval]
                constructor
                · intro h
                  injection h with h'
                  exact DepError.noConfusion h'
                · rintro ⟨_, _, hps⟩
                  exact (hself hps).elim
              · rw [hval]
                constructor
                · intro h
                  injection h with h'
                  exact DepError.noConfusion h'
                · intro h
                  exact absurd h hdup
              · intro st' h
                rw [hval] at h
                exact Except.noConfusion h
              · rw [hval]
                constructor
                · intro h
                  exact Except.noConfusion h
                · rintro ⟨tp', _, h1, _, _, _, _, hc⟩
                  injection h1 with he1
                  rw [← he1] at hc
                  rw [hcyc] at hc
                  exact Bool.noConfusion hc
            · have hval : create_dependency st uid p s freshTok =
                  .ok { st with
                    deps := st.deps ++ [(p, s)],
                    tasks := st.tasks.map (fun t =>
                      if t.id = s then
                        { t with calc_version_id := freshTok }
                      else t) } := by
                simp only [create_dependency, hfp, hfs, hpr]
                rw [if_neg howner, if_neg hcross, if_neg hdup,
                  if_neg hself, if_neg hcyc]
              refine ⟨?_, ?_, ?_, ?_, ?_, ?_, ?_⟩
              · rw [hval]
                constructor
                · intro h
                  exact Except.noConfusion h
                · rintro (h | h) <;> exact Option.noConfusion h
              · rw [hval]
                constructor
                · intro h
                  exact Except.noConfusion h
                · rintro ⟨tp', ts2', h1, h2, h3⟩
                  injection h1 with he1
                  injection h2 with he2
                  exact absurd (he1 ▸ he2 ▸ heqproj) h3
              · rw [hval]
                constructor
                · intro h
                  exact Except.noConfusion h
                · rintro ⟨_, _, hps⟩
                  exact absurd hps hself
              · rw [hval]
                constructor
                · intro h
                  exact Except.noConfusion h
                · intro h
                  exact absurd h hdup
              · rw [hval]
                constructor
                · intro h
                  exact Except.noConfusion h
                · rintro ⟨tp', _, h1, _, _, _, _, hc⟩
                  injection h1 with he1
                  rw [← he1] at hc
                  exact (hcyc hc).elim
              · intro st' h
                rw [hval] at h
                injection h with h'
                rw [← h']
                exact ⟨rfl, rfl, rfl⟩
              · rw [hval]
                exact ⟨fun _ => ⟨tp, ts2, rfl, rfl, heqproj, hdup, hself,
                  by simpa using hcyc⟩, fun _ => rfl⟩

/-- Witness for C7: admission of the edge (2, 3) on the three-task
witness store; all invariants are discharged concretely, every clause
of the admission contract is instantiated, and the success case is
exhibited by a concrete run of `create_dependency` that writes the edge
and bumps task 3's version token. -/
theorem C7_edge_admission_witness :
    ((create_dependency apiStoreW7 9 2 3 42 = .error .notFound ↔
      findTask apiStoreW7.tasks 2 = none ∨
        findTask apiStoreW7.tasks 3 = none) ∧
     (create_dependency apiStoreW7 9 2 3 42 = .error .crossProject ↔
      ∃ tp ts2, findTask apiStoreW7.tasks 2 = some tp ∧
        findTask apiStoreW7.tasks 3 = some ts2 ∧
        tp.project_id ≠ ts2.project_id) ∧
     (create_dependency apiStoreW7 9 2 3 42 = .error .selfDependency ↔
      (∃ tp, findTask apiStoreW7.tasks 2 = some tp) ∧
      (∃ ts2, findTask apiStoreW7.tasks 3 = some ts2) ∧ (2 : TaskId) = 3) ∧
     (create_dependency apiStoreW7 9 2 3 42 = .error .duplicate ↔
      ((2 : TaskId), (3 : TaskId)) ∈ apiStoreW7.deps) ∧
     (create_dependency apiStoreW7 9 2 3 42 = .error .cycleDetected ↔
      ∃ tp ts2, findTask apiStoreW7.tasks 2 = some tp ∧
        findTask apiStoreW7.tasks 3 = some ts2 ∧
        tp.project_id = ts2.project_id ∧
        ((2 : TaskId), (3 : TaskId)) ∉ apiStoreW7.deps ∧ (2 : TaskId) ≠ 3 ∧
        detect_cycle ⟨apiStoreW7.tasks, apiStoreW7.deps⟩ tp.project_id 2 3 =
          true) ∧
     (∀ st', create_dependency apiStoreW7 9 2 3 42 = .ok st' →
      st'.projects = apiStoreW7.projects ∧
      st'.deps = apiStoreW7.deps ++ [(2, 3)] ∧
      st'.tasks = apiStoreW7.tasks.map (fun t =>
        if t.id = 3 then { t with calc_version_id := 42 } else t)) ∧
     (create_dependency apiStoreW7 9 2 3 42 = .ok
        { apiStoreW7 with
          deps := apiStoreW7.deps ++ [(2, 3)],
          tasks := apiStoreW7.tasks.map (fun t =>
            if t.id = 3 then { t with calc_version_id := 42 }
            else t) } ↔
      ∃ tp ts2, findTask apiStoreW7.tasks 2 = some tp ∧
        findTask apiStoreW7.tasks 3 = some ts2 ∧
        tp.project_id = ts2.project_id ∧
        ((2 : TaskId), (3 : TaskId)) ∉ apiStoreW7.deps ∧ (2 : TaskId) ≠ 3 ∧
        detect_cycle ⟨apiStoreW7.tasks, apiStoreW7.deps⟩ tp.project_id 2 3 =
          false)) ∧
    create_dependency apiStoreW7 9 2 3 42 = .ok
      { apiStoreW7 with
        deps := apiStoreW7.deps ++ [(2, 3)],
        tasks := apiStoreW7.tasks.map (fun t =>
          if t.id = 3 then { t with calc_version_id := 42 } else t) } :=
  ⟨C7_edge_admission apiStoreW7 9 2 3 42
    (fun e he => by
      have h : e = (1, 2) := List.mem_singleton.1 he
      rw [h]
      decide)
    (fun e he => by
      have h : e = (1, 2) := List.mem_singleton.1 he
      rw [h]
      exact ⟨taskA_S6, taskB_S6, rfl, rfl, rfl⟩)
    (fun t h => by
      have ht : some taskB_S6 = some t := h
      injection ht with ht'
      rw [← ht']
      exact ⟨⟨0, 9⟩, rfl, rfl⟩),
   rfl⟩

theorem cpmForwardStep_anchor (edges : List Edge) (st : CpmState)
    (tid : TaskId) (nd : CpmNode) (hnd : List.lookup tid st = some nd)
    (hp : (predsOf edges tid).isEmpty = true) :
    cpmForwardStep edges st tid =
      some (setEntry st tid
        { nd with es := some nd.start_date,
                  ef := some (calcEnd nd.start_date nd.duration_days) }) := by
  simp [cpmForwardStep, hnd, hp]

theorem cpmForwardStep_push (edges : List Edge) (st : CpmState)
    (tid : TaskId) (nd : CpmNode) (pe : List Int) (mx : Int)
    (hnd : List.lookup tid st = some nd)
    (hp : (predsOf edges tid).isEmpty = false)
    (hpe : predEfsIn edges st tid = some pe)
    (hmx : pe.max? = some mx) :
    cpmForwardStep edges st tid =
      some (setEntry st tid
        { nd with es := some (mx + 1),
                  ef := some (calcEnd (mx + 1) nd.duration_days) }) := by
  unfold predEfsIn at hpe
  have hpe2 : List.mapM.loop
      (fun p => (List.lookup p st).bind fun pn => pn.ef)
      (predsOf edges tid) [] = some pe := hpe
  simp [cpmForwardStep, hnd, hp, hpe2, hmx]

theorem cpmBackwardStep_sink (edges : List Edge) (projectEnd : Int)
    (st : CpmState) (tid : TaskId) (nd : CpmNode)
    (hnd : List.lookup tid st = some nd)
    (hs : (succsOf edges tid).isEmpty = true) :
    cpmBackwardStep edges projectEnd st tid =
      some (setEntry st tid
        { nd with lf := some projectEnd,
                  ls := some (if nd.duration_days = 0 then projectEnd
                    else projectEnd - ((nd.duration_days - 1 : Nat) : Int)) }) := by
  simp [cpmBackwardStep, hnd, hs]

theorem cpmBackwardStep_inner (edges : List Edge) (projectEnd : Int)
    (st : CpmState) (tid : TaskId) (nd : CpmNode) (sl : List Int) (mn : Int)
    (hnd : List.lookup tid st = some nd)
    (hs : (succsOf edges tid).isEmpty = false)
    (hsl : (succsOf edges tid).mapM
      (fun q => (List.lookup q st).bind (fun qn => qn.ls)) = some sl)
    (hmn : sl.min? = some mn) :
    cpmBackwardStep edges projectEnd st tid =
      some (setEntry st tid
        { nd with lf := some (mn - 1),
                  ls := some (if nd.duration_days = 0 then mn - 1
                    else (mn - 1) - ((nd.duration_days - 1 : Nat) : Int)) }) := by
  have hsl2 : List.mapM.loop
      (fun q => (List.lookup q st).bind fun qn => qn.ls)
      (succsOf edges tid) [] = some sl := hsl
  simp [cpmBackwardStep, hnd, hs, hsl2, hmn]

theorem keys_setEntry {ν : Type} (st : List (TaskId × ν)) (tid : TaskId)
    (v : ν) : (setEntry st tid v).map (·.1) = st.map (·.1) := by
  induction st with
  | nil => rfl
  | cons p rest ih =>
    rw [setEntry]
    by_cases hp : p.1 = tid
    · rw [if_pos hp]
      simp only [List.map_cons]
      rw [ih, hp]
    · rw [if_neg hp]
      simp only [List.map_cons]
      rw [ih]

theorem lookup_isSome_iff_keys {ν : Type} (st : List (TaskId × ν))
    (m : TaskId) : (List.lookup m st).isSome = true ↔ m ∈ st.map (·.1) := by
  induction st with
  | nil => simp [List.lookup]
  | cons p rest ih =>
    by_cases hp : m = p.1
    · subst hp
      rw [show p = (p.1, p.2) from rfl, List.lookup_cons_self]
      simp
    · rw [show p = (p.1, p.2) from rfl, lookup_cons_ne _ _ _ _ hp]
      simp only [List.map_cons, List.mem_cons]
      rw [ih]
      constructor
      · exact Or.inr
      · rintro (h | h)
        · exact absurd h hp
        · exact h

theorem lookup_of_mem_nodup {ν : Type} (st : List (TaskId × ν))
    (hnd : (st.map (·.1)).Nodup) (q : TaskId × ν) (hq : q ∈ st) :
    List.lookup q.1 st = some q.2 := by
  induction st with
  | nil => cases hq
  | cons p rest ih =>
    rcases List.mem_cons.1 hq with h | h
    · subst h
      exact List.lookup_cons_self
    · have hne : q.1 ≠ p.1 := by
        intro he
        have : q.1 ∈ rest.map (·.1) := List.mem_map.2 ⟨q, h, rfl⟩
        rw [he] at this
        exact (List.nodup_cons.1 (by simpa using hnd)).1 this
      rw [show p = (p.1, p.2) from rfl, lookup_cons_ne _ _ _ _ hne]
      exact ih (List.nodup_cons.1 (by simpa using hnd)).2 h

theorem cpm_fwd_master (edges : List Edge) (st₀ : CpmState)
    (order : List TaskId) (htopo : IsTopoOrder edges order)
    (hkeys : ∀ n ∈ order, (List.lookup n st₀).isSome = true) :
    ∀ (l₂ l₁ : List TaskId) (st : CpmState),
      order = l₁ ++ l₂ → CpmFwdInv edges st₀ l₁ st →
      ∃ stF, List.foldlM (cpmForwardStep edges) st l₂ = some stF ∧
        CpmFwdInv edges st₀ order stF := by
  intro l₂
  induction l₂ with
  | nil =>
    intro l₁ st horder hinv
    refine ⟨st, rfl, ?_⟩
    rw [horder, List.append_nil]
    exact hinv
  | cons tid l₂ ih =>
    intro l₁ st horder hinv
    have hnodup : (l₁ ++ tid :: l₂).Nodup := horder ▸ htopo.1
    have htid_l₁ : tid ∉ l₁ := by
      intro hc
      rw [List.nodup_append] at hnodup
      exact hnodup.2.2 hc (List.mem_cons_self tid l₂)
    have htid_mem : tid ∈ order := by
      rw [horder]
      exact List.mem_append.2 (Or.inr (List.mem_cons_self tid l₂))
    have hnd_eq : List.lookup tid st = List.lookup tid st₀ :=
      hinv.frame tid htid_l₁
    have hndS : (List.lookup tid st).isSome = true := by
      rw [hnd_eq]; exact hkeys tid htid_mem
    obtain ⟨nd, hnd⟩ := Option.isSome_iff_exists.1 hndS
    have hnd₀ : List.lookup tid st₀ = some nd := by
      rw [← hnd_eq]; exact hnd
    have hpreds_l₁ : ∀ p ∈ predsOf edges tid, p ∈ l₁ := by
      intro p hp
      have hedge : (p, tid) ∈ edges := (mem_predsOf edges p tid).1 hp
      obtain ⟨hp1, _hp2, hlt⟩ := htopo.2 (p, tid) hedge
      rw [horder] at hp1 hlt
      exact mem_left_of_indexOf_lt htid_l₁ hp1 hlt
    have hnot_pred : ∀ m ∈ l₁, tid ∉ predsOf edges m := by
      intro m hm hc
      have hedge : (tid, m) ∈ edges := (mem_predsOf edges tid m).1 hc
      obtain ⟨_hq1, _hq2, hlt⟩ := htopo.2 (tid, m) hedge
      rw [horder] at hlt
      have hlt' : (l₁ ++ tid :: l₂).indexOf tid <
          (l₁ ++ tid :: l₂).indexOf m := hlt
      have hlt2 : (l₁ ++ tid :: l₂).indexOf m <
          (l₁ ++ tid :: l₂).indexOf tid := indexOf_lt_of_mem_left htid_l₁ hm
      omega
    have hinvariant : ∀ (nd' : CpmNode),
        List.lookup tid (setEntry st tid nd') = some nd' →
        (∀ m, m ∉ l₁ ++ [tid] →
          List.lookup m (setEntry st tid nd') = List.lookup m st₀) ∧
        (setEntry st tid nd').map (·.1) = st₀.map (·.1) := by
      intro nd' _
      constructor
      · intro m hm
        have hm1 : m ∉ l₁ := fun hc => hm (List.mem_append.2 (Or.inl hc))
        have hm2 : m ≠ tid := fun hc =>
          hm (List.mem_append.2 (Or.inr (hc ▸ List.mem_cons_self tid [])))
        have h1 : List.lookup m (setEntry st tid nd') = List.lookup m st :=
          lookup_setEntry_ne st tid m nd' hm2
        rw [h1]
        exact hinv.frame m hm1
      · rw [keys_setEntry]
        exact hinv.keys
    have hold : ∀ (nd' : CpmNode), ∀ m ∈ l₁, ∃ nd₀m ndm,
        List.lookup m st₀ = some nd₀m ∧
        List.lookup m (setEntry st tid nd') = some ndm ∧
        ndm.title = nd₀m.title ∧ ndm.duration_days = nd₀m.duration_days ∧
        ndm.start_date = nd₀m.start_date ∧ ndm.ls = nd₀m.ls ∧
        ndm.lf = nd₀m.lf ∧
        ∃ es, ndm.es = some es ∧
          ndm.ef = some (calcEnd es ndm.duration_days) ∧
          (if (predsOf edges m).isEmpty then es = nd₀m.start_date
           else ∃ pe mx, predEfsIn edges (setEntry st tid nd') m = some pe ∧
             pe.max? = some mx ∧ es = mx + 1) := by
      intro nd' m hm
      obtain ⟨nd₀m, ndm, h0, h1, h2, h3, h4, h5, h6, es, h7, h8, h9⟩ :=
        hinv.processed m hm
      have hmt : m ≠ tid := fun hc => htid_l₁ (hc ▸ hm)
      refine ⟨nd₀m, ndm, h0,
        by rw [lookup_setEntry_ne st tid m nd' hmt]; exact h1,
        h2, h3, h4, h5, h6, es, h7, h8, ?_⟩
      by_cases hmp : (predsOf edges m).isEmpty = true
      · rw [if_pos hmp] at h9 ⊢
        exact h9
      · rw [if_neg hmp] at h9 ⊢
        obtain ⟨pe, mx, hpe, hmx, hes⟩ := h9
        refine ⟨pe, mx, ?_, hmx, hes⟩
        rw [show predEfsIn edges (setEntry st tid nd') m =
            predEfsIn edges st m from ?_]
        · exact hpe
        · apply mapM_congr
          intro q hq
          rw [lookup_setEntry_ne st tid q nd'
            (fun hc => hnot_pred m hm (hc ▸ hq))]
    cases hempty : (predsOf edges tid).isEmpty with
    | true =>
      set nd' : CpmNode :=
        { nd with es := some nd.start_date,
                  ef := some (calcEnd nd.start_date nd.duration_days) }
        with hnddef
      have hstep := cpmForwardStep_anchor edges st tid nd hnd hempty
      have hself : List.lookup tid (setEntry st tid nd') = some nd' :=
        lookup_setEntry_self st tid nd' hndS
      have hinv' : CpmFwdInv edges st₀ (l₁ ++ [tid]) (setEntry st tid nd') := by
        refine ⟨(hinvariant nd' hself).1, (hinvariant nd' hself).2, ?_⟩
        intro m hm
        rcases List.mem_append.1 hm with hm | hm
        · exact hold nd' m hm
        · have hm' : m = tid := by simpa using hm
          subst hm'
          refine ⟨nd, nd', hnd₀, hself, rfl, rfl, rfl, rfl, rfl,
            nd.start_date, rfl, rfl, ?_⟩
          rw [if_pos hempty]
      obtain ⟨stF, hrun, hfin⟩ :=
        ih (l₁ ++ [tid]) _ (by rw [horder]; simp) hinv'
      refine ⟨stF, ?_, hfin⟩
      rw [List.foldlM_cons, hstep]
      exact hrun
    | false =>
      have hpe_some : ∀ p ∈ predsOf edges tid,
          ((List.lookup p st).bind (fun pn => pn.ef)).isSome = true := by
        intro p hp
        obtain ⟨_, ndp, _, h1, _, _, _, _, _, es, _, h8, _⟩ :=
          hinv.processed p (hpreds_l₁ p hp)
        rw [h1, Option.some_bind, h8]
        rfl
      obtain ⟨pe, hpe⟩ := mapM_option_some_of_forall _ _ hpe_some
      have hpe' : predEfsIn edges st tid = some pe := hpe
      have hpreds_ne : predsOf edges tid ≠ [] := by
        intro hc
        rw [hc] at hempty
        simp at hempty
      have hpe_ne : pe ≠ [] := by
        intro hc
        subst hc
        have hlen := List.Forall₂.length_eq ((mapM_option_iff _ _ _).1 hpe)
        rw [List.length_nil] at hlen
        exact hpreds_ne (List.length_eq_zero.1 hlen)
      obtain ⟨mx, hmx⟩ : ∃ mx, pe.max? = some mx := by
        cases hm : pe.max? with
        | none => exact absurd (List.max?_eq_none_iff.1 hm) hpe_ne
        | some mx => exact ⟨mx, rfl⟩
      set nd' : CpmNode :=
        { nd with es := some (mx + 1),
                  ef := some (calcEnd (mx + 1) nd.duration_days) }
        with hnddef
      have hstep := cpmForwardStep_push edges st tid nd pe mx hnd hempty
        hpe' hmx
      have hself : List.lookup tid (setEntry st tid nd') = some nd' :=
        lookup_setEntry_self st tid nd' hndS
      have hpe_stable : predEfsIn edges (setEntry st tid nd') tid = some pe := by
        rw [show predEfsIn edges (setEntry st tid nd') tid =
            predEfsIn edges st tid from ?_]
        · exact hpe'
        · apply mapM_congr
          intro q hq
          rw [lookup_setEntry_ne st tid q nd'
            (fun hc => htid_l₁ (hc ▸ hpreds_l₁ q hq))]
      have hinv' : CpmFwdInv edges st₀ (l₁ ++ [tid]) (setEntry st tid nd') := by
        refine ⟨(hinvariant nd' hself).1, (hinvariant nd' hself).2, ?_⟩
        intro m hm
        rcases List.mem_append.1 hm with hm | hm
        · exact hold nd' m hm
        · have hm' : m = tid := by simpa using hm
          subst hm'
          refine ⟨nd, nd', hnd₀, hself, rfl, rfl, rfl, rfl, rfl,
            mx + 1, rfl, rfl, ?_⟩
          rw [if_neg (fun hc => Bool.false_ne_true (hempty ▸ hc))]
          exact ⟨pe, mx, hpe_stable, hmx, rfl⟩
      obtain ⟨stF, hrun, hfin⟩ :=
        ih (l₁ ++ [tid]) _ (by rw [horder]; simp) hinv'
      refine ⟨stF, ?_, hfin⟩
      rw [List.foldlM_cons, hstep]
      exact hrun

theorem le_of_mem_max? (l : List Int) :
    ∀ (mx : Int), l.max? = some mx → ∀ a ∈ l, a ≤ mx := by
  induction l with
  | nil => intro mx h; cases h
  | cons x t ih =>
    intro mx h a ha
    rw [List.max?_cons] at h
    cases ht : t.max? with
    | none =>
      rw [ht] at h
      simp only [Option.elim] at h
      injection h with h'
      rw [List.max?_eq_none_iff.1 ht] at ha
      have : a = x := by simpa using ha
      subst this
      omega
    | some mt =>
      rw [ht] at h
      simp only [Option.elim] at h
      injection h with h'
      rcases List.mem_cons.1 ha with h1 | h1
      · subst h1
        rw [← h']
        exact le_max_left _ _
      · have h2 := ih mt ht a h1
        have h3 := le_max_right x mt
        rw [← h']
        omega

theorem forall₂_mem_right {α β : Type} {R : α → β → Prop} :
    ∀ {l₁ : List α} {l₂ : List β}, List.Forall₂ R l₁ l₂ →
      ∀ b ∈ l₂, ∃ a ∈ l₁, R a b := by
  intro l₁ l₂ h
  induction h with
  | nil => intro b hb; cases hb
  | cons hR _htail ih =>
    intro b hb
    rcases List.mem_cons.1 hb with h' | h'
    · exact ⟨_, List.mem_cons_self _ _, h' ▸ hR⟩
    · obtain ⟨a, ha, hab⟩ := ih b h'
      exact ⟨a, List.mem_cons_of_mem _ ha, hab⟩

theorem forall₂_mem_left {α β : Type} {R : α → β → Prop} :
    ∀ {l₁ : List α} {l₂ : List β}, List.Forall₂ R l₁ l₂ →
      ∀ a ∈ l₁, ∃ b ∈ l₂, R a b := by
  intro l₁ l₂ h
  induction h with
  | nil => intro a ha; cases ha
  | cons hR _htail ih =>
    intro a ha
    rcases List.mem_cons.1 ha with h' | h'
    · exact ⟨_, List.mem_cons_self _ _, h' ▸ hR⟩
    · obtain ⟨b, hb, hab⟩ := ih a h'
      exact ⟨b, List.mem_cons_of_mem _ hb, hab⟩

theorem exists_three_split {l : List TaskId} {a b : TaskId}
    (hnd : l.Nodup) (ha : a ∈ l) (hb : b ∈ l)
    (hlt : l.indexOf a < l.indexOf b) :
    ∃ l₁ l₂ l₃, l = l₁ ++ a :: (l₂ ++ b :: l₃) := by
  obtain ⟨l₁, rest, hdec⟩ := List.append_of_mem ha
  subst hdec
  have hab : a ≠ b := by
    intro he
    rw [he] at hlt
    omega
  have hanotl₁ : a ∉ l₁ := by
    rw [List.nodup_append] at hnd
    exact fun hc => hnd.2.2 hc (List.mem_cons_self a rest)
  have hbrest : b ∈ rest := by
    rcases List.mem_append.1 hb with h' | h'
    · exfalso
      have h1 : (l₁ ++ a :: rest).indexOf b < l₁.length :=
        indexOf_append_lt_length l₁ (a :: rest) b h'
      have h2 : (l₁ ++ a :: rest).indexOf a = l₁.length :=
        indexOf_append_cons_self l₁ rest a hanotl₁
      omega
    · rcases List.mem_cons.1 h' with h'' | h''
      · exact absurd h''.symm hab
      · exact h''
  obtain ⟨l₂, l₃, hdec2⟩ := List.append_of_mem hbrest
  exact ⟨l₁, l₂, l₃, by rw [hdec2]⟩

theorem indexOf_reverse_lt {l : List TaskId} {a b : TaskId}
    (hnd : l.Nodup) (ha : a ∈ l) (hb : b ∈ l)
    (hlt : l.indexOf a < l.indexOf b) :
    l.reverse.indexOf b < l.reverse.indexOf a := by
  obtain ⟨l₁, l₂, l₃, hdec⟩ := exists_three_split hnd ha hb hlt
  subst hdec
  have hnd2 : (a :: (l₂ ++ b :: l₃)).Nodup :=
    ((List.nodup_append).1 hnd).2.1
  have hanot : a ∉ l₂ ++ b :: l₃ := (List.nodup_cons.1 hnd2).1
  have hanotl₂ : a ∉ l₂ := fun hc => hanot (List.mem_append.2 (Or.inl hc))
  have hanotl₃ : a ∉ l₃ := fun hc =>
    hanot (List.mem_append.2 (Or.inr (List.mem_cons_of_mem b hc)))
  have hab : a ≠ b := fun he =>
    hanot (List.mem_append.2 (Or.inr (he ▸ List.mem_cons_self b l₃)))
  have hbnotl₃ : b ∉ l₃ :=
    (List.nodup_cons.1
      ((List.nodup_append).1 (List.nodup_cons.1 hnd2).2).2.1).1
  have hrev : (l₁ ++ a :: (l₂ ++ b :: l₃)).reverse =
      l₃.reverse ++ b :: (l₂.reverse ++ a :: l₁.reverse) := by
    simp [List.reverse_append, List.reverse_cons, List.append_assoc]
  rw [hrev]
  have hidxb : (l₃.reverse ++ b :: (l₂.reverse ++ a :: l₁.reverse)).indexOf b =
      l₃.reverse.length :=
    indexOf_append_cons_self l₃.reverse _ b
      (fun hc => hbnotl₃ (List.mem_reverse.1 hc))
  have hassoc : l₃.reverse ++ b :: (l₂.reverse ++ a :: l₁.reverse) =
      (l₃.reverse ++ b :: l₂.reverse) ++ a :: l₁.reverse := by
    simp [List.append_assoc]
  have hidxa : (l₃.reverse ++ b :: (l₂.reverse ++ a :: l₁.reverse)).indexOf a =
      (l₃.reverse ++ b :: l₂.reverse).length := by
    rw [hassoc]
    apply indexOf_append_cons_self
    intro hc
    rcases List.mem_append.1 hc with h' | h'
    · exact hanotl₃ (List.mem_reverse.1 h')
    · rcases List.mem_cons.1 h' with h'' | h''
      · exact hab h''
      · exact hanotl₂ (List.mem_reverse.1 h'')
  rw [hidxb, hidxa]
  simp only [List.length_append, List.length_cons, List.length_reverse]
  omega

theorem cpm_bwd_master (edges : List Edge) (projectEnd : Int)
    (st₁ : CpmState) (rord : List TaskId) (hnodup : rord.Nodup)
    (hrtopo : ∀ e ∈ edges, e.1 ∈ rord ∧ e.2 ∈ rord ∧
      rord.indexOf e.2 < rord.indexOf e.1)
    (hkeys : ∀ n ∈ rord, (List.lookup n st₁).isSome = true) :
    ∀ (l₂ l₁ : List TaskId) (st : CpmState),
      rord = l₁ ++ l₂ → CpmBwdInv edges projectEnd st₁ l₁ st →
      ∃ stF, List.foldlM (cpmBackwardStep edges projectEnd) st l₂ = some stF ∧
        CpmBwdInv edges projectEnd st₁ rord stF := by
  intro l₂
  induction l₂ with
  | nil =>
    intro l₁ st horder hinv
    refine ⟨st, rfl, ?_⟩
    rw [horder, List.append_nil]
    exact hinv
  | cons tid l₂ ih =>
    intro l₁ st horder hinv
    have hnodup' : (l₁ ++ tid :: l₂).Nodup := horder ▸ hnodup
    have htid_l₁ : tid ∉ l₁ := by
      intro hc
      rw [List.nodup_append] at hnodup'
      exact hnodup'.2.2 hc (List.mem_cons_self tid l₂)
    have htid_mem : tid ∈ rord := by
      rw [horder]
      exact List.mem_append.2 (Or.inr (List.mem_cons_self tid l₂))
    have hnd_eq : List.lookup tid st = List.lookup tid st₁ :=
      hinv.frame tid htid_l₁
    have hndS : (List.lookup tid st).isSome = true := by
      rw [hnd_eq]; exact hkeys tid htid_mem
    obtain ⟨nd, hnd⟩ := Option.isSome_iff_exists.1 hndS
    have hnd₁ : List.lookup tid st₁ = some nd := by
      rw [← hnd_eq]; exact hnd
    have hsuccs_l₁ : ∀ q ∈ succsOf edges tid, q ∈ l₁ := by
      intro q hq
      have hedge : (tid, q) ∈ edges := (mem_succsOf edges tid q).1 hq
      obtain ⟨_hp1, hp2, hlt⟩ := hrtopo (tid, q) hedge
      rw [horder] at hp2 hlt
      exact mem_left_of_indexOf_lt htid_l₁ hp2 hlt
    have hnot_succ : ∀ m ∈ l₁, tid ∉ succsOf edges m := by
      intro m hm hc
      have hedge : (m, tid) ∈ edges := (mem_succsOf edges m tid).1 hc
      obtain ⟨_hq1, _hq2, hlt⟩ := hrtopo (m, tid) hedge
      rw [horder] at hlt
      have hlt' : (l₁ ++ tid :: l₂).indexOf tid <
          (l₁ ++ tid :: l₂).indexOf m := hlt
      have hlt2 : (l₁ ++ tid :: l₂).indexOf m <
          (l₁ ++ tid :: l₂).indexOf tid := indexOf_lt_of_mem_left htid_l₁ hm
      omega
    have hinvariant : ∀ (nd' : CpmNode),
        List.lookup tid (setEntry st tid nd') = some nd' →
        (∀ m, m ∉ l₁ ++ [tid] →
          List.lookup m (setEntry st tid nd') = List.lookup m st₁) ∧
        (setEntry st tid nd').map (·.1) = st₁.map (·.1) := by
      intro nd' _
      constructor
      · intro m hm
        have hm1 : m ∉ l₁ := fun hc => hm (List.mem_append.2 (Or.inl hc))
        have hm2 : m ≠ tid := fun hc =>
          hm (List.mem_append.2 (Or.inr (hc ▸ List.mem_cons_self tid [])))
        have h1 : List.lookup m (setEntry st tid nd') = List.lookup m st :=
          lookup_setEntry_ne st tid m nd' hm2
        rw [h1]
        exact hinv.frame m hm1
      · rw [keys_setEntry]
        exact hinv.keys
    have hold : ∀ (nd' : CpmNode), ∀ m ∈ l₁, ∃ nd₁m ndm,
        List.lookup m st₁ = some nd₁m ∧
        List.lookup m (setEntry st tid nd') = some ndm ∧
        ndm.title = nd₁m.title ∧ ndm.duration_days = nd₁m.duration_days ∧
        ndm.start_date = nd₁m.start_date ∧ ndm.es = nd₁m.es ∧
        ndm.ef = nd₁m.ef ∧
        ∃ lf, ndm.lf = some lf ∧
          ndm.ls = some (if ndm.duration_days = 0 then lf
            else lf - ((ndm.duration_days - 1 : Nat) : Int)) ∧
          (if (succsOf edges m).isEmpty then lf = projectEnd
           else ∃ sl mn, succLsIn edges (setEntry st tid nd') m = some sl ∧
             sl.min? = some mn ∧ lf = mn - 1) := by
      intro nd' m hm
      obtain ⟨nd₁m, ndm, h0, h1, h2, h3, h4, h5, h6, lf, h7, h8, h9⟩ :=
        hinv.processed m hm
      have hmt : m ≠ tid := fun hc => htid_l₁ (hc ▸ hm)
      refine ⟨nd₁m, ndm, h0,
        by rw [lookup_setEntry_ne st tid m nd' hmt]; exact h1,
        h2, h3, h4, h5, h6, lf, h7, h8, ?_⟩
      by_cases hms : (succsOf edges m).isEmpty = true
      · rw [if_pos hms] at h9 ⊢
        exact h9
      · rw [if_neg hms] at h9 ⊢
        obtain ⟨sl, mn, hsl, hmn, hlf⟩ := h9
        refine ⟨sl, mn, ?_, hmn, hlf⟩
        rw [show succLsIn edges (setEntry st tid nd') m =
            succLsIn edges st m from ?_]
        · exact hsl
        · apply mapM_congr
          intro q hq
          rw [lookup_setEntry_ne st tid q nd'
            (fun hc => hnot_succ m hm (hc ▸ hq))]
    cases hempty : (succsOf edges tid).isEmpty with
    | true =>
      set nd' : CpmNode :=
        { nd with lf := some projectEnd,
                  ls := some (if nd.duration_days = 0 then projectEnd
                    else projectEnd - ((nd.duration_days - 1 : Nat) : Int)) }
        with hnddef
      have hstep := cpmBackwardStep_sink edges projectEnd st tid nd hnd hempty
      have hself : List.lookup tid (setEntry st tid nd') = some nd' :=
        lookup_setEntry_self st tid nd' hndS
      have hinv' : CpmBwdInv edges projectEnd st₁ (l₁ ++ [tid])
          (setEntry st tid nd') := by
        refine ⟨(hinvariant nd' hself).1, (hinvariant nd' hself).2, ?_⟩
        intro m hm
        rcases List.mem_append.1 hm with hm | hm
        · exact hold nd' m hm
        · have hm' : m = tid := by simpa using hm
          subst hm'
          refine ⟨nd, nd', hnd₁, hself, rfl, rfl, rfl, rfl, rfl,
            projectEnd, rfl, rfl, ?_⟩
          rw [if_pos hempty]
      obtain ⟨stF, hrun, hfin⟩ :=
        ih (l₁ ++ [tid]) _ (by rw [horder]; simp) hinv'
      refine ⟨stF, ?_, hfin⟩
      rw [List.foldlM_cons, hstep]
      exact hrun
    | false =>
      have hsl_some : ∀ q ∈ succsOf edges tid,
          ((List.lookup q st).bind (fun qn => qn.ls)).isSome = true := by
        intro q hq
        obtain ⟨_, ndq, _, h1, _, _, _, _, _, lf, _, h8, _⟩ :=
          hinv.processed q (hsuccs_l₁ q hq)
        rw [h1, Option.some_bind, h8]
        rfl
      obtain ⟨sl, hsl⟩ := mapM_option_some_of_forall _ _ hsl_some
      have hsl' : succLsIn edges st tid = some sl := hsl
      have hsuccs_ne : succsOf edges tid ≠ [] := by
        intro hc
        rw [hc] at hempty
        simp at hempty
      have hsl_ne : sl ≠ [] := by
        intro hc
        subst hc
        have hlen := List.Forall₂.length_eq ((mapM_option_iff _ _ _).1 hsl)
        rw [List.length_nil] at hlen
        exact hsuccs_ne (List.length_eq_zero.1 hlen)
      obtain ⟨mn, hmn⟩ : ∃ mn, sl.min? = some mn := by
        cases hm : sl.min? with
        | none => exact absurd (List.min?_eq_none_iff.1 hm) hsl_ne
        | some mn => exact ⟨mn, rfl⟩
      set nd' : CpmNode :=
        { nd with lf := some (mn - 1),
                  ls := some (if nd.duration_days = 0 then mn - 1
                    else (mn - 1) - ((nd.duration_days - 1 : Nat) : Int)) }
        with hnddef
      have hstep := cpmBackwardStep_inner edges projectEnd st tid nd sl mn
        hnd hempty hsl hmn
      have hself : List.lookup tid (setEntry st tid nd') = some nd' :=
        lookup_setEntry_self st tid nd' hndS
      have hsl_stable : succLsIn edges (setEntry st tid nd') tid = some sl := by
        rw [show succLsIn edges (setEntry st tid nd') tid =
            succLsIn edges st tid from ?_]
        · exact hsl'
        · apply mapM_congr
          intro q hq
          rw [lookup_setEntry_ne st tid q nd'
            (fun hc => htid_l₁ (hc ▸ hsuccs_l₁ q hq))]
      have hinv' : CpmBwdInv edges projectEnd st₁ (l₁ ++ [tid])
          (setEntry st tid nd') := by
        refine ⟨(hinvariant nd' hself).1, (hinvariant nd' hself).2, ?_⟩
        intro m hm
        rcases List.mem_append.1 hm with hm | hm
        · exact hold nd' m hm
        · have hm' : m = tid := by simpa using hm
          subst hm'
          refine ⟨nd, nd', hnd₁, hself, rfl, rfl, rfl, rfl, rfl,
            mn - 1, rfl, rfl, ?_⟩
          rw [if_neg (fun hc => Bool.false_ne_true (hempty ▸ hc))]
          exact ⟨sl, mn, hsl_stable, hmn, rfl⟩
      obtain ⟨stF, hrun, hfin⟩ :=
        ih (l₁ ++ [tid]) _ (by rw [horder]; simp) hinv'
      refine ⟨stF, ?_, hfin⟩
      rw [List.foldlM_cons, hstep]
      exact hrun

theorem mem_of_lookup_eq_some {ν : Type} (k : TaskId) (v : ν)
    (st : List (TaskId × ν)) (h : List.lookup k st = some v) :
    (k, v) ∈ st := by
  induction st with
  | nil => cases h
  | cons p rest ih =>
    by_cases hk : k = p.1
    · rw [show p = (p.1, p.2) from rfl, hk, List.lookup_cons_self] at h
      injection h with h'
      rw [hk, ← h']
      exact List.mem_cons_self _ _
    · have hb : (k == p.1) = false := by simp [hk]
      rw [show p = (p.1, p.2) from rfl, List.lookup_cons, hb] at h
      simp only [cond_false] at h
      exact List.mem_cons_of_mem _ (ih h)

theorem slackEntry_eval (st : CpmState) (n : TaskId) (nd : CpmNode)
    (ls es : Int) (h1 : List.lookup n st = some nd) (h2 : nd.ls = some ls)
    (h3 : nd.es = some es) : slackEntry st n = some (n, ls - es) := by
  simp [slackEntry, h1, h2, h3]

/-- C4: for every project with at least one task whose dependency graph
is acyclic (witnessed by a topological order of exactly the project's
task ids), the CPM analysis succeeds, its `critical_path_task_ids` list
contains exactly the tasks with `LS = ES` (zero slack), and that list is
non-empty. -/
theorem C4_critical_path_zero_slack_nonempty
    (edges : List Edge) (tasks : List TaskRow) (order : List TaskId)
    (htopo : IsTopoOrder edges order)
    (hids : (tasks.map (·.id)).Nodup)
    (horder : ∀ n, n ∈ order ↔ n ∈ tasks.map (·.id))
    (hne : tasks ≠ []) :
    ∃ projectEnd crit st2,
      calculate_cpm edges tasks order = some (projectEnd, crit, st2) ∧
      (∀ n, n ∈ crit ↔ n ∈ order ∧ ∃ nd v,
        List.lookup n st2 = some nd ∧ nd.ls = some v ∧ nd.es = some v) ∧
      crit ≠ [] := by
  have hkeys0 : (cpmInit tasks).map (·.1) = tasks.map (·.id) := by
    simp [cpmInit, List.map_map, Function.comp]
  have hkeysF : ∀ n ∈ order, (List.lookup n (cpmInit tasks)).isSome = true := by
    intro n hn
    rw [lookup_isSome_iff_keys, hkeys0]
    exact (horder n).1 hn
  have hinv0 : CpmFwdInv edges (cpmInit tasks) [] (cpmInit tasks) :=
    ⟨fun _ _ => rfl, rfl, fun m hm => absurd hm (List.not_mem_nil m)⟩
  obtain ⟨st1, hfold1, hinvF⟩ := cpm_fwd_master edges (cpmInit tasks) order
    htopo hkeysF order [] (cpmInit tasks) rfl hinv0
  have hkeys1 : st1.map (·.1) = tasks.map (·.id) := hinvF.keys.trans hkeys0
  have hnd1 : (st1.map (·.1)).Nodup := by rw [hkeys1]; exact hids
  have hefs_some : ∀ q ∈ st1,
      ((fun q : TaskId × CpmNode => q.2.ef) q).isSome = true := by
    intro q hq
    show (q.2.ef).isSome = true
    have hq1 : q.1 ∈ order := by
      rw [horder q.1, ← hkeys1]
      exact List.mem_map.2 ⟨q, hq, rfl⟩
    obtain ⟨nd₀, nd, h0, h1, _, _, _, _, _, es, h7, h8, h9⟩ :=
      hinvF.processed q.1 hq1
    have hql : List.lookup q.1 st1 = some q.2 :=
      lookup_of_mem_nodup st1 hnd1 q hq
    rw [hql] at h1
    have hqe : q.2 = nd := Option.some_inj.1 h1
    rw [hqe, h8]
    rfl
  obtain ⟨efs, hefs⟩ :=
    mapM_option_some_of_forall (fun q => q.2.ef) st1 hefs_some
  have hst1_ne : st1 ≠ [] := by
    intro hc
    apply hne
    have h := hkeys1
    rw [hc] at h
    simpa using h.symm
  have hefs_ne : efs ≠ [] := by
    intro hc
    subst hc
    have hlen := List.Forall₂.length_eq ((mapM_option_iff _ _ _).1 hefs)
    rw [List.length_nil] at hlen
    exact hst1_ne (List.length_eq_zero.1 hlen)
  obtain ⟨pEnd, hmax⟩ : ∃ p, efs.max? = some p := by
    cases hm : efs.max? with
    | none => exact absurd (List.max?_eq_none_iff.1 hm) hefs_ne
    | some p => exact ⟨p, rfl⟩
  have hmem_max : pEnd ∈ efs := List.max?_mem max_choice hmax
  have hnodupR : order.reverse.Nodup := List.nodup_reverse.2 htopo.1
  have hrtopo : ∀ e ∈ edges, e.1 ∈ order.reverse ∧ e.2 ∈ order.reverse ∧
      order.reverse.indexOf e.2 < order.reverse.indexOf e.1 := by
    intro e he
    obtain ⟨h1, h2, hlt⟩ := htopo.2 e he
    exact ⟨List.mem_reverse.2 h1, List.mem_reverse.2 h2,
      indexOf_reverse_lt htopo.1 h1 h2 hlt⟩
  have hkeysB : ∀ n ∈ order.reverse, (List.lookup n st1).isSome = true := by
    intro n hn
    rw [lookup_isSome_iff_keys, hkeys1]
    exact (horder n).1 (List.mem_reverse.1 hn)
  have hinvB0 : CpmBwdInv edges pEnd st1 [] st1 :=
    ⟨fun _ _ => rfl, rfl, fun m hm => absurd hm (List.not_mem_nil m)⟩
  obtain ⟨st2, hfold2, hinvB⟩ := cpm_bwd_master edges pEnd st1 order.reverse
    hnodupR hrtopo hkeysB order.reverse [] st1 rfl hinvB0
  have hdata : ∀ n ∈ order, ∃ nd ls es,
      List.lookup n st2 = some nd ∧ nd.ls = some ls ∧ nd.es = some es := by
    intro n hn
    obtain ⟨nd₁, nd2, h0, h1, _, _, _, h5, _, lf, h7, h8, h9⟩ :=
      hinvB.processed n (List.mem_reverse.2 hn)
    obtain ⟨nd₀f, ndf, h0f, h1f, _, _, _, _, _, esf, h7f, h8f, h9f⟩ :=
      hinvF.processed n hn
    rw [h0] at h1f
    have hfe : ndf = nd₁ := (Option.some_inj.1 h1f).symm
    refine ⟨nd2, _, esf, h1, h8, ?_⟩
    rw [h5, ← hfe, h7f]
  have hsl_some : ∀ n ∈ order, (slackEntry st2 n).isSome = true := by
    intro n hn
    obtain ⟨nd, ls, es, h1, h2, h3⟩ := hdata n hn
    rw [slackEntry_eval st2 n nd ls es h1 h2 h3]
    rfl
  obtain ⟨slacks, hslacks⟩ :=
    mapM_option_some_of_forall (slackEntry st2) order hsl_some
  have hf2s : List.Forall₂ (fun n q => slackEntry st2 n = some q)
      order slacks := (mapM_option_iff _ _ _).1 hslacks
  have hcalc : calculate_cpm edges tasks order =
      some (pEnd, (slacks.filter (fun q => q.2 == 0)).map (·.1), st2) := by
    have hslacks' : order.mapM (fun n => (List.lookup n st2).bind fun nd =>
        nd.ls.bind fun ls => nd.es.bind fun es => some (n, ls - es)) =
        some slacks := hslacks
    unfold calculate_cpm
    rw [hfold1]
    simp only [Option.bind_eq_bind, Option.some_bind]
    rw [hefs]
    simp only [Option.some_bind]
    rw [hmax]
    simp only [Option.some_bind]
    rw [hfold2]
    simp only [Option.some_bind]
    rw [hslacks']
    simp only [Option.some_bind]
  have hchar : ∀ n, n ∈ (slacks.filter (fun q => q.2 == 0)).map (·.1) ↔
      n ∈ order ∧ ∃ nd v, List.lookup n st2 = some nd ∧
        nd.ls = some v ∧ nd.es = some v := by
    intro n
    constructor
    · intro hn
      obtain ⟨q, hqf, hq1⟩ := List.mem_map.1 hn
      obtain ⟨hq_sl, hq0⟩ := List.mem_filter.1 hqf
      have hq0' : (q.2 == 0) = true := hq0
      obtain ⟨a, ha, hfa⟩ := forall₂_mem_right hf2s q hq_sl
      obtain ⟨nd, ls, es, h1, h2, h3⟩ := hdata a ha
      have heval := slackEntry_eval st2 a nd ls es h1 h2 h3
      rw [heval] at hfa
      have hq : (a, ls - es) = q := Option.some_inj.1 hfa
      have hn_eq : n = a := by rw [← hq1, ← hq]
      subst hn_eq
      have hz : ls - es = 0 := by
        have h4 : q.2 = ls - es := by rw [← hq]
        rw [h4] at hq0'
        simpa using hq0'
      refine ⟨ha, nd, es, h1, ?_, h3⟩
      rw [h2]
      congr 1
      omega
    · rintro ⟨hn, nd, v, h1, h2, h3⟩
      obtain ⟨q, hq_sl, hfq⟩ := forall₂_mem_left hf2s n hn
      have heval := slackEntry_eval st2 n nd v v h1 h2 h3
      rw [heval] at hfq
      have hq : (n, v - v) = q := Option.some_inj.1 hfq
      refine List.mem_map.2 ⟨q, List.mem_filter.2 ⟨hq_sl, ?_⟩, by rw [← hq]⟩
      show (q.2 == 0) = true
      rw [← hq]
      simp
  obtain ⟨q0, hq0m, hef0⟩ :=
    forall₂_mem_right ((mapM_option_iff _ _ _).1 hefs) pEnd hmem_max
  have hef0' : q0.2.ef = some pEnd := hef0
  have hm0_order : q0.1 ∈ order := by
    rw [horder q0.1, ← hkeys1]
    exact List.mem_map.2 ⟨q0, hq0m, rfl⟩
  have hlk0 : List.lookup q0.1 st1 = some q0.2 :=
    lookup_of_mem_nodup st1 hnd1 q0 hq0m
  have hsink : (succsOf edges q0.1).isEmpty = true := by
    by_contra hns
    have hne_s : succsOf edges q0.1 ≠ [] := by
      intro hc
      rw [hc] at hns
      exact hns rfl
    obtain ⟨s, hs⟩ := List.exists_mem_of_ne_nil _ hne_s
    have hedge : (q0.1, s) ∈ edges := (mem_succsOf edges q0.1 s).1 hs
    have hs_order : s ∈ order := (htopo.2 _ hedge).2.1
    obtain ⟨nd₀s, nds, h0s, h1s, _, _, _, _, _, ess, h7s, h8s, h9s⟩ :=
      hinvF.processed s hs_order
    have hm0p : q0.1 ∈ predsOf edges s := (mem_predsOf edges q0.1 s).2 hedge
    have hpne : ¬((predsOf edges s).isEmpty = true) := by
      intro hc
      cases hp : predsOf edges s with
      | nil => rw [hp] at hm0p; cases hm0p
      | cons a t => rw [hp] at hc; simp at hc
    rw [if_neg hpne] at h9s
    obtain ⟨pe, mx, hpe, hmx, hes_eq⟩ := h9s
    have hpe' : (predsOf edges s).mapM
        (fun p => (List.lookup p st1).bind (fun pn => pn.ef)) = some pe := hpe
    obtain ⟨e0, he0_mem, he0⟩ :=
      forall₂_mem_left ((mapM_option_iff _ _ _).1 hpe') q0.1 hm0p
    have he0' : (List.lookup q0.1 st1).bind (fun pn => pn.ef) = some e0 := he0
    rw [hlk0, Option.some_bind, hef0'] at he0'
    have he0v : pEnd = e0 := Option.some_inj.1 he0'
    have hpe_mem : pEnd ∈ pe := by
      rw [he0v]
      exact he0_mem
    have hle : pEnd ≤ mx := le_of_mem_max? pe mx hmx pEnd hpe_mem
    have hmem_s_st1 : (s, nds) ∈ st1 := mem_of_lookup_eq_some s nds st1 h1s
    obtain ⟨e1, he1_mem, he1⟩ :=
      forall₂_mem_left ((mapM_option_iff _ _ _).1 hefs) (s, nds) hmem_s_st1
    have he1' : nds.ef = some e1 := he1
    rw [h8s] at he1'
    have he1v : calcEnd ess nds.duration_days = e1 := Option.some_inj.1 he1'
    have hbound : e1 ≤ pEnd := le_of_mem_max? efs pEnd hmax e1 he1_mem
    have hge : ess ≤ e1 := by
      rw [← he1v]
      unfold calcEnd
      split <;> omega
    omega
  obtain ⟨nd₁b, nd2b, h0b, h1b, _, h3b, _, h5b, _, lf, h7b, h8b, h9b⟩ :=
    hinvB.processed q0.1 (List.mem_reverse.2 hm0_order)
  rw [hlk0] at h0b
  have hb1 : q0.2 = nd₁b := Option.some_inj.1 h0b
  rw [if_pos hsink] at h9b
  obtain ⟨nd₀f, ndf, h0f, h1f, _, _, _, _, _, esf, h7f, h8f, _⟩ :=
    hinvF.processed q0.1 hm0_order
  rw [hlk0] at h1f
  have hf1 : q0.2 = ndf := Option.some_inj.1 h1f
  have hes_q : q0.2.es = some esf := by
    rw [hf1]
    exact h7f
  have hef_q : q0.2.ef = some (calcEnd esf q0.2.duration_days) := by
    rw [hf1]
    exact h8f
  have hcalc_ef : calcEnd esf q0.2.duration_days = pEnd := by
    rw [hef_q] at hef0'
    exact Option.some_inj.1 hef0'
  have hd_eq : nd2b.duration_days = q0.2.duration_days := by
    rw [h3b, ← hb1]
  have hes2 : nd2b.es = some esf := by
    rw [h5b, ← hb1]
    exact hes_q
  have hls2 : nd2b.ls = some esf := by
    rw [h8b, h9b, hd_eq]
    unfold calcEnd at hcalc_ef
    by_cases hd0 : q0.2.duration_days = 0
    · rw [if_pos hd0] at hcalc_ef ⊢
      rw [hcalc_ef]
    · rw [if_neg hd0] at hcalc_ef ⊢
      congr 1
      omega
  have hm0_crit : q0.1 ∈ (slacks.filter (fun q => q.2 == 0)).map (·.1) :=
    (hchar q0.1).2 ⟨hm0_order, nd2b, esf, h1b, hls2, hes2⟩
  refine ⟨pEnd, _, st2, hcalc, hchar, ?_⟩
  intro hc
  rw [hc] at hm0_crit
  exact List.not_mem_nil q0.1 hm0_crit

theorem C4_critical_path_zero_slack_nonempty_witness :
    IsTopoOrder [(1, 2)] [1, 2] ∧
    ([cpmTaskA, cpmTaskB].map (·.id)).Nodup ∧
    ∃ projectEnd crit st2,
      calculate_cpm [(1, 2)] [cpmTaskA, cpmTaskB] [1, 2] =
        some (projectEnd, crit, st2) ∧
      (∀ n, n ∈ crit ↔ n ∈ [1, 2] ∧ ∃ nd v,
        List.lookup n st2 = some nd ∧ nd.ls = some v ∧ nd.es = some v) ∧
      crit ≠ [] :=
  ⟨by decide, by decide,
   C4_critical_path_zero_slack_nonempty [(1, 2)] [cpmTaskA, cpmTaskB] [1, 2]
     (by decide) (by decide) (fun n => Iff.rfl) (by decide)⟩

theorem simStep_anchor (edges : List Edge) (changes : List TaskChange)
    (st : SimState) (tid : TaskId) (nd : SimNode)
    (hnd : List.lookup tid st = some nd)
    (hp : (predsOf edges tid).isEmpty = true) :
    simStep edges changes st tid =
      some (setEntry st tid
        { nd with start_date := nd.start_date,
                  end_date :=
                    some (calcEnd nd.start_date nd.duration_days) }) := by
  simp [simStep, hnd, hp]

theorem simStep_push_req (edges : List Edge) (changes : List TaskChange)
    (st : SimState) (tid : TaskId) (nd : SimNode) (pends : List Int)
    (mx req : Int) (hnd : List.lookup tid st = some nd)
    (hp : (predsOf edges tid).isEmpty = false)
    (hpe : simPredEndsIn edges st tid = some pends)
    (hmx : pends.max? = some mx)
    (hreq : (lastChange changes tid).bind (fun c => c.start_date) =
      some req) :
    simStep edges changes st tid =
      some (setEntry st tid
        { nd with
            start_date := if mx + 1 ≤ req then req else mx + 1,
            end_date := some (calcEnd
              (if mx + 1 ≤ req then req else mx + 1)
              nd.duration_days) }) := by
  unfold simPredEndsIn at hpe
  have hpe2 : List.mapM.loop
      (fun p => (List.lookup p st).bind fun pn => pn.end_date)
      (predsOf edges tid) [] = some pends := hpe
  simp [simStep, hnd, hp, hpe2, hmx, hreq]

theorem simStep_push_noreq (edges : List Edge) (changes : List TaskChange)
    (st : SimState) (tid : TaskId) (nd : SimNode) (pends : List Int)
    (mx : Int) (hnd : List.lookup tid st = some nd)
    (hp : (predsOf edges tid).isEmpty = false)
    (hpe : simPredEndsIn edges st tid = some pends)
    (hmx : pends.max? = some mx)
    (hreq : (lastChange changes tid).bind (fun c => c.start_date) = none) :
    simStep edges changes st tid =
      some (setEntry st tid
        { nd with
            start_date := max nd.start_date (mx + 1),
            end_date := some (calcEnd (max nd.start_date (mx + 1))
              nd.duration_days) }) := by
  unfold simPredEndsIn at hpe
  have hpe2 : List.mapM.loop
      (fun p => (List.lookup p st).bind fun pn => pn.end_date)
      (predsOf edges tid) [] = some pends := hpe
  simp [simStep, hnd, hp, hpe2, hmx, hreq]

theorem sim_fwd_master (edges : List Edge) (changes : List TaskChange)
    (st₀ : SimState) (order : List TaskId) (htopo : IsTopoOrder edges order)
    (hkeys : ∀ n ∈ order, (List.lookup n st₀).isSome = true) :
    ∀ (l₂ l₁ : List TaskId) (st : SimState),
      order = l₁ ++ l₂ → SimFwdInv edges changes st₀ l₁ st →
      ∃ stF, List.foldlM (simStep edges changes) st l₂ = some stF ∧
        SimFwdInv edges changes st₀ order stF := by
  intro l₂
  induction l₂ with
  | nil =>
    intro l₁ st horder hinv
    refine ⟨st, rfl, ?_⟩
    rw [horder, List.append_nil]
    exact hinv
  | cons tid l₂ ih =>
    intro l₁ st horder hinv
    have hnodup : (l₁ ++ tid :: l₂).Nodup := horder ▸ htopo.1
    have htid_l₁ : tid ∉ l₁ := by
      intro hc
      rw [List.nodup_append] at hnodup
      exact hnodup.2.2 hc (List.mem_cons_self tid l₂)
    have htid_mem : tid ∈ order := by
      rw [horder]
      exact List.mem_append.2 (Or.inr (List.mem_cons_self tid l₂))
    have hnd_eq : List.lookup tid st = List.lookup tid st₀ :=
      hinv.frame tid htid_l₁
    have hndS : (List.lookup tid st).isSome = true := by
      rw [hnd_eq]; exact hkeys tid htid_mem
    obtain ⟨nd, hnd⟩ := Option.isSome_iff_exists.1 hndS
    have hnd₀ : List.lookup tid st₀ = some nd := by
      rw [← hnd_eq]; exact hnd
    have hpreds_l₁ : ∀ p ∈ predsOf edges tid, p ∈ l₁ := by
      intro p hp
      have hedge : (p, tid) ∈ edges := (mem_predsOf edges p tid).1 hp
      obtain ⟨hp1, _hp2, hlt⟩ := htopo.2 (p, tid) hedge
      rw [horder] at hp1 hlt
      exact mem_left_of_indexOf_lt htid_l₁ hp1 hlt
    have hnot_pred : ∀ m ∈ l₁, tid ∉ predsOf edges m := by
      intro m hm hc
      have hedge : (tid, m) ∈ edges := (mem_predsOf edges tid m).1 hc
      obtain ⟨_hq1, _hq2, hlt⟩ := htopo.2 (tid, m) hedge
      rw [horder] at hlt
      have hlt' : (l₁ ++ tid :: l₂).indexOf tid <
          (l₁ ++ tid :: l₂).indexOf m := hlt
      have hlt2 : (l₁ ++ tid :: l₂).indexOf m <
          (l₁ ++ tid :: l₂).indexOf tid := indexOf_lt_of_mem_left htid_l₁ hm
      omega
    have hinvariant : ∀ (nd' : SimNode),
        List.lookup tid (setEntry st tid nd') = some nd' →
        (∀ m, m ∉ l₁ ++ [tid] →
          List.lookup m (setEntry st tid nd') = List.lookup m st₀) ∧
        (setEntry st tid nd').map (·.1) = st₀.map (·.1) := by
      intro nd' _
      constructor
      · intro m hm
        have hm1 : m ∉ l₁ := fun hc => hm (List.mem_append.2 (Or.inl hc))
        have hm2 : m ≠ tid := fun hc =>
          hm (List.mem_append.2 (Or.inr (hc ▸ List.mem_cons_self tid [])))
        have h1 : List.lookup m (setEntry st tid nd') = List.lookup m st :=
          lookup_setEntry_ne st tid m nd' hm2
        rw [h1]
        exact hinv.frame m hm1
      · rw [keys_setEntry]
        exact hinv.keys
    have hold : ∀ (nd' : SimNode), ∀ m ∈ l₁, ∃ nd₀m ndm,
        List.lookup m st₀ = some nd₀m ∧
        List.lookup m (setEntry st tid nd') = some ndm ∧
        ndm.title = nd₀m.title ∧ ndm.duration_days = nd₀m.duration_days ∧
        ndm.original_start = nd₀m.original_start ∧
        ndm.original_end = nd₀m.original_end ∧
        ndm.end_date = some (calcEnd ndm.start_date ndm.duration_days) ∧
        (if (predsOf edges m).isEmpty then ndm.start_date = nd₀m.start_date
         else ∃ pends mx,
           simPredEndsIn edges (setEntry st tid nd') m = some pends ∧
           pends.max? = some mx ∧
           (match (lastChange changes m).bind (fun c => c.start_date) with
            | some req => ndm.start_date = max req (mx + 1)
            | none => ndm.start_date = max nd₀m.start_date (mx + 1))) := by
      intro nd' m hm
      obtain ⟨nd₀m, ndm, h0, h1, h2, h3, h4, h5, h6, h9⟩ :=
        hinv.processed m hm
      have hmt : m ≠ tid := fun hc => htid_l₁ (hc ▸ hm)
      refine ⟨nd₀m, ndm, h0,
        by rw [lookup_setEntry_ne st tid m nd' hmt]; exact h1,
        h2, h3, h4, h5, h6, ?_⟩
      by_cases hmp : (predsOf edges m).isEmpty = true
      · rw [if_pos hmp] at h9 ⊢
        exact h9
      · rw [if_neg hmp] at h9 ⊢
        obtain ⟨pends, mx, hpe, hmx, hbr⟩ := h9
        refine ⟨pends, mx, ?_, hmx, hbr⟩
        rw [show simPredEndsIn edges (setEntry st tid nd') m =
            simPredEndsIn edges st m from ?_]
        · exact hpe
        · apply mapM_congr
          intro q hq
          rw [lookup_setEntry_ne st tid q nd'
            (fun hc => hnot_pred m hm (hc ▸ hq))]
    cases hempty : (predsOf edges tid).isEmpty with
    | true =>
      set nd' : SimNode :=
        { nd with start_date := nd.start_date,
                  end_date := some (calcEnd nd.start_date nd.duration_days) }
        with hnddef
      have hstep := simStep_anchor edges changes st tid nd hnd hempty
      have hself : List.lookup tid (setEntry st tid nd') = some nd' :=
        lookup_setEntry_self st tid nd' hndS
      have hinv' : SimFwdInv edges changes st₀ (l₁ ++ [tid])
          (setEntry st tid nd') := by
        refine ⟨(hinvariant nd' hself).1, (hinvariant nd' hself).2, ?_⟩
        intro m hm
        rcases List.mem_append.1 hm with hm | hm
        · exact hold nd' m hm
        · have hm' : m = tid := by simpa using hm
          subst hm'
          refine ⟨nd, nd', hnd₀, hself, rfl, rfl, rfl, rfl, rfl, ?_⟩
          rw [if_pos hempty]
      obtain ⟨stF, hrun, hfin⟩ :=
        ih (l₁ ++ [tid]) _ (by rw [horder]; simp) hinv'
      refine ⟨stF, ?_, hfin⟩
      rw [List.foldlM_cons, hstep]
      exact hrun
    | false =>
      have hpe_some : ∀ p ∈ predsOf edges tid,
          ((List.lookup p st).bind (fun pn => pn.end_date)).isSome = true := by
        intro p hp
        obtain ⟨_, ndp, _, h1, _, _, _, _, h6, _⟩ :=
          hinv.processed p (hpreds_l₁ p hp)
        rw [h1, Option.some_bind, h6]
        rfl
      obtain ⟨pends, hpe⟩ := mapM_option_some_of_forall _ _ hpe_some
      have hpe' : simPredEndsIn edges st tid = some pends := hpe
      have hpreds_ne : predsOf edges tid ≠ [] := by
        intro hc
        rw [hc] at hempty
        simp at hempty
      have hpe_ne : pends ≠ [] := by
        intro hc
        subst hc
        have hlen := List.Forall₂.length_eq ((mapM_option_iff _ _ _).1 hpe)
        rw [List.length_nil] at hlen
        exact hpreds_ne (List.length_eq_zero.1 hlen)
      obtain ⟨mx, hmx⟩ : ∃ mx, pends.max? = some mx := by
        cases hm : pends.max? with
        | none => exact absurd (List.max?_eq_none_iff.1 hm) hpe_ne
        | some mx => exact ⟨mx, rfl⟩
      have hpe_stable : ∀ (nd' : SimNode),
          simPredEndsIn edges (setEntry st tid nd') tid = some pends := by
        intro nd'
        rw [show simPredEndsIn edges (setEntry st tid nd') tid =
            simPredEndsIn edges st tid from ?_]
        · exact hpe'
        · apply mapM_congr
          intro q hq
          rw [lookup_setEntry_ne st tid q nd'
            (fun hc => htid_l₁ (hc ▸ hpreds_l₁ q hq))]
      cases hreq : (lastChange changes tid).bind (fun c => c.start_date) with
      | some req =>
        set nd' : SimNode :=
          { nd with
              start_date := if mx + 1 ≤ req then req else mx + 1,
              end_date := some (calcEnd
                (if mx + 1 ≤ req then req else mx + 1)
                nd.duration_days) }
          with hnddef
        have hstep := simStep_push_req edges changes st tid nd pends mx req
          hnd hempty hpe' hmx hreq
        have hself : List.lookup tid (setEntry st tid nd') = some nd' :=
          lookup_setEntry_self st tid nd' hndS
        have hinv' : SimFwdInv edges changes st₀ (l₁ ++ [tid])
            (setEntry st tid nd') := by
          refine ⟨(hinvariant nd' hself).1, (hinvariant nd' hself).2, ?_⟩
          intro m hm
          rcases List.mem_append.1 hm with hm | hm
          · exact hold nd' m hm
          · have hm' : m = tid := by simpa using hm
            subst hm'
            refine ⟨nd, nd', hnd₀, hself, rfl, rfl, rfl, rfl, rfl, ?_⟩
            rw [if_neg (fun hc => Bool.false_ne_true (hempty ▸ hc))]
            refine ⟨pends, mx, hpe_stable nd', hmx, ?_⟩
            rw [hreq]
            show (if mx + 1 ≤ req then req else mx + 1) = max req (mx + 1)
            split <;> omega
        obtain ⟨stF, hrun, hfin⟩ :=
          ih (l₁ ++ [tid]) _ (by rw [horder]; simp) hinv'
        refine ⟨stF, ?_, hfin⟩
        rw [List.foldlM_cons, hstep]
        exact hrun
      | none =>
        set nd' : SimNode :=
          { nd with
              start_date := max nd.start_date (mx + 1),
              end_date := some (calcEnd (max nd.start_date (mx + 1))
                nd.duration_days) }
          with hnddef
        have hstep := simStep_push_noreq edges changes st tid nd pends mx
          hnd hempty hpe' hmx hreq
        have hself : List.lookup tid (setEntry st tid nd') = some nd' :=
          lookup_setEntry_self st tid nd' hndS
        have hinv' : SimFwdInv edges changes st₀ (l₁ ++ [tid])
            (setEntry st tid nd') := by
          refine ⟨(hinvariant nd' hself).1, (hinvariant nd' hself).2, ?_⟩
          intro m hm
          rcases List.mem_append.1 hm with hm | hm
          · exact hold nd' m hm
          · have hm' : m = tid := by simpa using hm
            subst hm'
            refine ⟨nd, nd', hnd₀, hself, rfl, rfl, rfl, rfl, rfl, ?_⟩
            rw [if_neg (fun hc => Bool.false_ne_true (hempty ▸ hc))]
            refine ⟨pends, mx, hpe_stable nd', hmx, ?_⟩
            rw [hreq]
        obtain ⟨stF, hrun, hfin⟩ :=
          ih (l₁ ++ [tid]) _ (by rw [horder]; simp) hinv'
        refine ⟨stF, ?_, hfin⟩
        rw [List.foldlM_cons, hstep]
        exact hrun

theorem keys_applyChanges (changes : List TaskChange) (st : SimState) :
    (applyChanges changes st).map (·.1) = st.map (·.1) := by
  simp [applyChanges, List.map_map, Function.comp]

theorem keys_sim_build_graph (tasks : List TaskRow) :
    (sim_build_graph tasks).map (·.1) = tasks.map (·.id) := by
  simp [sim_build_graph, List.map_map, Function.comp]

/-- C8: the simulation walk succeeds on a topological order and, for
every node: an anchor (no predecessors) keeps its possibly-changed
start; a non-anchor named in the change set with a start date gets
`max(requested, earliest)` where `earliest = max(pred.endDate) + 1`;
any other non-anchor gets `max(current, earliest)`; the end date always
follows from the duration. -/
theorem C8_simulation_walk (edges : List Edge) (tasks : List TaskRow)
    (changes : List TaskChange) (order : List TaskId)
    (htopo : IsTopoOrder edges order)
    (horder : ∀ n, n ∈ order ↔ n ∈ tasks.map (·.id)) :
    ∃ stF, List.foldlM (simStep edges changes)
        (applyChanges changes (sim_build_graph tasks)) order = some stF ∧
      ∀ m ∈ order, ∃ nd₀ nd,
        List.lookup m (applyChanges changes (sim_build_graph tasks)) =
          some nd₀ ∧
        List.lookup m stF = some nd ∧
        nd.duration_days = nd₀.duration_days ∧
        nd.end_date = some (calcEnd nd.start_date nd.duration_days) ∧
        (if (predsOf edges m).isEmpty then nd.start_date = nd₀.start_date
         else ∃ pends mx, simPredEndsIn edges stF m = some pends ∧
           pends.max? = some mx ∧
           (match (lastChange changes m).bind (fun c => c.start_date) with
            | some req => nd.start_date = max req (mx + 1)
            | none => nd.start_date = max nd₀.start_date (mx + 1))) := by
  have hkeys : ∀ n ∈ order,
      (List.lookup n (applyChanges changes (sim_build_graph tasks))).isSome
        = true := by
    intro n hn
    rw [lookup_isSome_iff_keys, keys_applyChanges, keys_sim_build_graph]
    exact (horder n).1 hn
  obtain ⟨stF, hrun, hinvF⟩ := sim_fwd_master edges changes
    (applyChanges changes (sim_build_graph tasks)) order htopo hkeys
    order [] (applyChanges changes (sim_build_graph tasks)) rfl
    ⟨fun _ _ => rfl, rfl, fun m hm => absurd hm (List.not_mem_nil m)⟩
  refine ⟨stF, hrun, ?_⟩
  intro m hm
  obtain ⟨nd₀, nd, h0, h1, _, h3, _, _, h6, h9⟩ := hinvF.processed m hm
  exact ⟨nd₀, nd, h0, h1, h3, h6, h9⟩

theorem C8_simulation_walk_witness :
    IsTopoOrder [(1, 2)] [1, 2] ∧
    ∃ stF, List.foldlM (simStep [(1, 2)] [simChangeB])
        (applyChanges [simChangeB] (sim_build_graph [simTaskA, simTaskB]))
        [1, 2] = some stF ∧
      ∀ m ∈ [1, 2], ∃ nd₀ nd,
        List.lookup m (applyChanges [simChangeB]
          (sim_build_graph [simTaskA, simTaskB])) = some nd₀ ∧
        List.lookup m stF = some nd ∧
        nd.duration_days = nd₀.duration_days ∧
        nd.end_date = some (calcEnd nd.start_date nd.duration_days) ∧
        (if (predsOf [(1, 2)] m).isEmpty then nd.start_date = nd₀.start_date
         else ∃ pends mx, simPredEndsIn [(1, 2)] stF m = some pends ∧
           pends.max? = some mx ∧
           (match (lastChange [simChangeB] m).bind
               (fun c => c.start_date) with
            | some req => nd.start_date = max req (mx + 1)
            | none => nd.start_date = max nd₀.start_date (mx + 1))) :=
  ⟨by decide,
   C8_simulation_walk [(1, 2)] [simTaskA, simTaskB] [simChangeB] [1, 2]
     (by decide) (fun n => Iff.rfl)⟩

theorem lastChange_filter (p : TaskChange → Bool)
    (changes : List TaskChange) (tid : TaskId)
    (h : ∀ c, c.task_id = tid → p c = true) :
    lastChange (changes.filter p) tid = lastChange changes tid := by
  unfold lastChange
  rw [List.filter_comm]
  congr 1
  apply List.filter_eq_self.2
  intro c hc
  have hct : c.task_id = tid := by simpa using (List.mem_filter.1 hc).2
  exact h c hct

theorem applyChanges_congr (changes changes' : List TaskChange)
    (st : SimState)
    (h : ∀ q ∈ st, lastChange changes' q.1 = lastChange changes q.1) :
    applyChanges changes' st = applyChanges changes st := by
  unfold applyChanges
  apply List.map_congr_left
  intro q hq
  rw [h q hq]

theorem simStep_congr (edges : List Edge)
    (changes changes' : List TaskChange) (st : SimState) (tid : TaskId)
    (h : lastChange changes' tid = lastChange changes tid) :
    simStep edges changes' st tid = simStep edges changes st tid := by
  unfold simStep
  rw [h]

theorem foldlM_option_congr {α σ : Type} {f g : σ → α → Option σ} :
    ∀ {l : List α}, (∀ s : σ, ∀ a ∈ l, f s a = g s a) →
      ∀ s, List.foldlM f s l = List.foldlM g s l := by
  intro l
  induction l with
  | nil => intro _ s; rfl
  | cons a t ih =>
    intro h s
    rw [List.foldlM_cons, List.foldlM_cons, h s a (List.mem_cons_self a t)]
    cases g s a with
    | none => rfl
    | some s' => exact ih (fun s a ha => h s a (List.mem_cons_of_mem _ ha)) s'

theorem kahnGo_subset (edges : List Edge) (ids0 : List TaskId) :
    ∀ (fuel : Nat) (remaining acc out : List TaskId),
      (∀ n ∈ remaining, n ∈ ids0) → (∀ n ∈ acc, n ∈ ids0) →
      kahnGo edges fuel remaining acc = some out →
      ∀ n ∈ out, n ∈ ids0 := by
  intro fuel
  induction fuel with
  | zero =>
    intro remaining acc out _hrem hacc h
    rw [kahnGo] at h
    split at h
    · injection h with h'
      subst h'
      exact hacc
    · cases h
  | succ fuel ih =>
    intro remaining acc out hrem hacc h
    rw [kahnGo] at h
    split at h
    · injection h with h'
      subst h'
      exact hacc
    · cases hf : remaining.find?
          (fun n => (predsOf edges n).all
            (fun p => !(remaining.contains p))) with
      | none => rw [hf] at h; cases h
      | some n =>
        rw [hf] at h
        apply ih (remaining.erase n) (acc ++ [n]) out
        · intro m hmm
          exact hrem m (List.mem_of_mem_erase hmm)
        · intro m hmm
          rcases List.mem_append.1 hmm with h' | h'
          · exact hacc m h'
          · have hmn : m = n := by simpa using h'
            rw [hmn]
            exact hrem n (List.mem_of_find?_eq_some hf)
        · exact h

theorem topological_sort_subset (nodes : List TaskId) (edges : List Edge)
    (order : List TaskId) (h : topological_sort nodes edges = some order) :
    ∀ n ∈ order, n ∈ nodes :=
  kahnGo_subset edges nodes nodes.length nodes [] order
    (fun _ hn => hn) (fun n hn => (List.not_mem_nil n hn).elim) h

/-- C10: the what-if simulation ignores changes whose task id is not a
task of the project: filtering those entries out of the change list
leaves the whole `SimulationResult` (including every error path)
unchanged. -/
theorem C10_simulate_ignores_foreign_changes (store : Store) (pid : Nat)
    (changes : List TaskChange) :
    simulate_changes store pid (changes.filter (fun c =>
      ((store.tasks.filter (fun t => t.project_id == pid)).map
        (·.id)).contains c.task_id)) =
      simulate_changes store pid changes := by
  unfold simulate_changes
  set tasks := store.tasks.filter (fun t => t.project_id == pid)
    with htasks
  set ids := tasks.map (·.id) with hidsdef
  set deps := store.deps.filter
    (fun e => ids.contains e.1 && ids.contains e.2) with hdepsdef
  have hlast : ∀ tid, tid ∈ ids →
      lastChange (changes.filter (fun c => ids.contains c.task_id)) tid =
        lastChange changes tid := by
    intro tid h
    apply lastChange_filter
    intro c hc
    rw [hc]
    exact (contains_true_iff ids tid).2 h
  by_cases hemp : tasks.isEmpty = true
  · rw [if_pos hemp, if_pos hemp]
  · rw [if_neg hemp, if_neg hemp]
    have happly : applyChanges
        (changes.filter (fun c => ids.contains c.task_id))
        (sim_build_graph tasks) =
        applyChanges changes (sim_build_graph tasks) := by
      apply applyChanges_congr
      intro q hq
      apply hlast
      rw [hidsdef, ← keys_sim_build_graph tasks]
      exact List.mem_map.2 ⟨q, hq, rfl⟩
    cases hord : topological_sort ids deps with
    | none => rfl
    | some order =>
      simp only [Option.some_bind]
      have hsub : ∀ n ∈ order, n ∈ ids :=
        topological_sort_subset ids deps order hord
      congr 1
      rw [happly]
      exact foldlM_option_congr
        (fun s a ha => simStep_congr deps changes
          (changes.filter (fun c => ids.contains c.task_id)) s a
          (hlast a (hsub a ha)))
        (applyChanges changes (sim_build_graph tasks))

end Cascade
